import Mathlib

/-!
# Request-dispatch pipeline of the system gateway

A shallow embedding of the path router, the two rate limiters, the
authenticator and the dispatcher, with the properties proved about them.
Go strings are modelled by character sequences, Go maps by functions or by
lists of entries, library calls by their documented contract.
-/

namespace Gateway

/-! ## Path utilities (`pkg/utils/split.go`) -/

/-- Go `strings.HasPrefix`, on the character sequence of the string. -/
def HasPrefix (s pre : String) : Bool := pre.data.isPrefixOf s.data

/-- Drop every leading `/`. -/
def trimLeftSlash (cs : List Char) : List Char := cs.dropWhile (fun c => c == '/')

/-- Go `strings.Trim(path, "/")`: strip all leading and trailing `/`. -/
def trimSlash (cs : List Char) : List Char :=
  (trimLeftSlash (trimLeftSlash cs).reverse).reverse

/-- Go `strings.Split(s, sep)` for a one-character separator: the pieces between
separators, one more than the number of separators. -/
def splitChar (sep : Char) : List Char → List (List Char)
  | [] => [[]]
  | c :: cs =>
    if c = sep then [] :: splitChar sep cs
    else match splitChar sep cs with
      | [] => [[c]]
      | h :: t => (c :: h) :: t

/-- `utils.SplitPath`. -/
def SplitPath (path : String) : List String :=
  let cleanPath := trimSlash path.data
  if cleanPath = [] then [] else (splitChar '/' cleanPath).map String.mk

/-! ## Router (`internal/server/server.go`) -/

structure ServiceConfig where
  Name : String
  Target : String
  Methods : List String
  Priority : Int
  SkipAuth : Bool
deriving DecidableEq, Repr

/-- A trie node. `children` is the Go map from segment to child node. -/
inductive RouteNode where
  | mk (children : String → Option RouteNode) (service : Option ServiceConfig)
      (isWildcard : Bool)

def RouteNode.children : RouteNode → String → Option RouteNode
  | .mk c _ _ => c

def RouteNode.service : RouteNode → Option ServiceConfig
  | .mk _ s _ => s

def RouteNode.isWildcard : RouteNode → Bool
  | .mk _ _ w => w

structure PriorityRouter where
  root : RouteNode

def NewPriorityRouter : PriorityRouter := ⟨.mk (fun _ => none) none false⟩

/-- The wildcard test of `insert`: the segment begins with `*` or `:`. -/
def isWildcardSegment (segment : String) : Bool :=
  HasPrefix segment "*" || HasPrefix segment ":"

/-- The map key `insert` files a segment under. -/
def segmentKey (segment : String) : String :=
  if isWildcardSegment segment then "*" else segment

/-- `PriorityRouter.insert` (the unused `depth` argument is dropped). -/
def insert : RouteNode → List String → ServiceConfig → RouteNode
  | .mk ch _ w, [], service => .mk ch (some service) w
  | .mk ch s w, segment :: rest, service =>
    let isWildcard := isWildcardSegment segment
    let key := segmentKey segment
    let child := match ch key with
      | some c => c
      | none => RouteNode.mk (fun _ => none) none isWildcard
    .mk (fun k => if k = key then some (insert child rest service) else ch k) s w

def PriorityRouter.AddRoute (r : PriorityRouter) (path : String)
    (service : ServiceConfig) : PriorityRouter :=
  let segments := SplitPath path
  let service := { service with Priority := (segments.length : Int) }
  ⟨insert r.root segments service⟩

/-- `PriorityRouter.collectCandidates` (the unused `depth` argument is dropped). -/
def collectCandidates : RouteNode → List String → List ServiceConfig → List ServiceConfig
  | node, [], results =>
    match node.service with
    | some s => results ++ [s]
    | none => results
  | node, segment :: rest, results =>
    let results := match node.service with
      | some s => results ++ [s]
      | none => results
    let results := match node.children segment with
      | some child => collectCandidates child rest results
      | none => results
    let results := match node.children "*" with
      | some child => collectCandidates child rest results
      | none => results
    results

/-- The selection loop of `FindBestMatch`: keep the running best, replace it
only by a strictly higher priority. -/
def pickBest (best : ServiceConfig) (rest : List ServiceConfig) : ServiceConfig :=
  rest.foldl (fun best candidate =>
    if candidate.Priority > best.Priority then candidate else best) best

def PriorityRouter.FindBestMatch (r : PriorityRouter) (path : String) :
    Option ServiceConfig :=
  let segments := SplitPath path
  let candidates := collectCandidates r.root segments []
  match candidates with
  | [] => none
  | c0 :: rest => some (pickBest c0 rest)

/-- A registration: the path given to `AddRoute` and its `ServiceConfig`. -/
abbrev Registration := String × ServiceConfig

/-- The router obtained from the empty one by `AddRoute` calls in list order. -/
def buildRouter (regs : List Registration) : PriorityRouter :=
  regs.foldl (fun r reg => r.AddRoute reg.1 reg.2) NewPriorityRouter

/-- The route as stored by `AddRoute`: its priority is the segment count. -/
def storedRoute (reg : Registration) : ServiceConfig :=
  { reg.2 with Priority := ((SplitPath reg.1).length : Int) }

/-- The pattern of a registration after wildcard segments are normalised. -/
def routeKeys (path : String) : List String := (SplitPath path).map segmentKey

/-- A pattern `s1..sk` matches the request segments when there are at least `k`
of them and each `s_i` is a wildcard or equals the `i`-th request segment. -/
def RouteMatches (pattern segments : List String) : Prop :=
  pattern.length ≤ segments.length ∧
  ∀ (i : Nat) (s : String), pattern[i]? = some s →
    isWildcardSegment s = true ∨ segments[i]? = some s

/-- Boolean form of `RouteMatches`, by recursion on the pattern. -/
def routeMatchesB : List String → List String → Bool
  | [], _ => true
  | _ :: _, [] => false
  | s :: ps, x :: xs => (isWildcardSegment s || decide (s = x)) && routeMatchesB ps xs

/-- `reg` is stored in the router built from `regs`: it was registered and no
later registration has the same normalised pattern. -/
def Stored : List Registration → Registration → Prop
  | [], _ => False
  | x :: rest, reg =>
    (x = reg ∧ ∀ q ∈ rest, routeKeys q.1 ≠ routeKeys reg.1) ∨ Stored rest reg

/-- The route attached to the node reached from `node` along `keys`. -/
def routeAt : RouteNode → List String → Option ServiceConfig
  | node, [] => node.service
  | node, k :: ks =>
    match node.children k with
    | some child => routeAt child ks
    | none => none

/-- A key path of the trie is followed by the request segments: each key is the
segment itself or the wildcard key. -/
def KeyCompat : List String → List String → Prop
  | [], _ => True
  | _ :: _, [] => False
  | k :: ks, x :: xs => (k = x ∨ k = "*") ∧ KeyCompat ks xs

/-- The candidates `collectCandidates` appends, in collection order: the node's
own route, then the exact-match subtree, then the wildcard subtree. -/
def candidatesOf : RouteNode → List String → List ServiceConfig
  | node, [] => node.service.toList
  | node, segment :: rest =>
    node.service.toList ++
      (match node.children segment with
        | some child => candidatesOf child rest
        | none => []) ++
      (match node.children "*" with
        | some child => candidatesOf child rest
        | none => [])

/-- The three routes of the router-priority example. -/
def exampleRoutes : List Registration :=
  [("/api/users", ⟨"users", "http://users:8080", [], 0, false⟩),
   ("/api/users/:id", ⟨"user-detail", "http://users:8080", [], 0, false⟩),
   ("/api/*", ⟨"api", "http://api:8080", [], 0, false⟩)]

/-- The exact route of the tie-break example. -/
def ordersRoute : Registration := ("/api/orders", ⟨"orders", "http://orders:8080", [], 0, false⟩)

/-- The wildcard route of the tie-break example. -/
def apiWildcardRoute : Registration := ("/api/*", ⟨"api", "http://api:8080", [], 0, false⟩)

/-! ## HTTP model (`net/http`, at the level of its documented contract) -/

/-- An `http.Header`, kept as its list of (name, value) lines. Names are taken
in canonical form. -/
abbrev Header := List (String × String)

/-- All values of a header name, in order (`Header.Values`). -/
def Header.Values (h : Header) (key : String) : List String :=
  (h.filter (fun kv => decide (kv.1 = key))).map (fun kv => kv.2)

/-- `Header.Get`: the first value of the name, or the empty string. -/
def Header.Get (h : Header) (key : String) : String := (h.Values key).headD ""

/-- `Header.Del`. -/
def Header.Del (h : Header) (key : String) : Header :=
  h.filter (fun kv => !decide (kv.1 = key))

/-- `Header.Set`: replace every value of the name by the given one. -/
def Header.Set (h : Header) (key value : String) : Header :=
  h.Del key ++ [(key, value)]

/-- `Header.Add`: append one value to the name. -/
def Header.Add (h : Header) (key value : String) : Header := h ++ [(key, value)]

/-- The copy loop `for key, values := range src { for _, value := range values
{ dst.Add(key, value) } }`. -/
def copyHeaders (src dst : Header) : Header :=
  src.foldl (fun h kv => h.Add kv.1 kv.2) dst

/-- UTF-8 bytes of a string. -/
def utf8Bytes (s : String) : List UInt8 := s.data.flatMap String.utf8EncodeChar

/-- An `http.ResponseWriter`: the header map, the status once `WriteHeader`
has run, and the body written so far. -/
structure ResponseWriter where
  header : Header
  statusCode : Option Int
  body : List UInt8
deriving DecidableEq, Repr

/-- A writer on which nothing has been written yet; `h` holds the headers an
outer middleware may already have set. -/
def ResponseWriter.unwritten (h : Header) : ResponseWriter := ⟨h, none, []⟩

/-- `WriteHeader`: the first call fixes the status code. -/
def ResponseWriter.WriteHeader (w : ResponseWriter) (code : Int) : ResponseWriter :=
  match w.statusCode with
  | some _ => w
  | none => { w with statusCode := some code }

/-- `Write`: an implicit `WriteHeader(200)` when none was made, then the bytes. -/
def ResponseWriter.Write (w : ResponseWriter) (b : List UInt8) : ResponseWriter :=
  let w := w.WriteHeader 200
  { w with body := w.body ++ b }

/-- `http.Error`. -/
def httpError (w : ResponseWriter) (error : String) (code : Int) : ResponseWriter :=
  let h := w.header.Del "Content-Length"
  let h := h.Set "Content-Type" "text/plain; charset=utf-8"
  let h := h.Set "X-Content-Type-Options" "nosniff"
  let w := { w with header := h }
  let w := w.WriteHeader code
  w.Write (utf8Bytes (error ++ "\n"))

/-- `http.NotFound`. -/
def httpNotFound (w : ResponseWriter) : ResponseWriter :=
  httpError w "404 page not found" 404

/-- The part of `url.URL` the gateway touches. -/
structure URL where
  Scheme : String
  Host : String
  Path : String
  RawQuery : String
deriving DecidableEq, Repr

/-- An inbound `http.Request`. -/
structure Request where
  Method : String
  URL : URL
  Header : Header
  RemoteAddr : String
  Body : List UInt8
deriving DecidableEq, Repr

/-- The outbound request built by `forwardRequest`. -/
structure OutboundRequest where
  Method : String
  URL : URL
  Header : Header
  Body : List UInt8
deriving DecidableEq, Repr

/-- A backend `http.Response`. -/
structure BackendResponse where
  StatusCode : Int
  Header : Header
  Body : List UInt8
deriving DecidableEq, Repr

/-! ## String helpers (`strings`) -/

/-- `unicode.IsSpace`. -/
def isSpace (c : Char) : Bool :=
  c = '\t' || c = '\n' || c.toNat = 0x0B || c.toNat = 0x0C || c = '\r' || c = ' ' ||
  c.toNat = 0x85 || c.toNat = 0xA0 || c.toNat = 0x1680 ||
  (0x2000 ≤ c.toNat && c.toNat ≤ 0x200A) || c.toNat = 0x2028 || c.toNat = 0x2029 ||
  c.toNat = 0x202F || c.toNat = 0x205F || c.toNat = 0x3000

/-- `strings.TrimSpace`. -/
def TrimSpace (s : String) : String :=
  String.mk (((s.data.dropWhile isSpace).reverse.dropWhile isSpace).reverse)

/-- `strings.TrimPrefix`. -/
def TrimPrefix (s pre : String) : String :=
  if HasPrefix s pre then String.mk (s.data.drop pre.length) else s

/-- `strings.Split(s, sep)` for a one-character separator. -/
def Split (s : String) (sep : Char) : List String :=
  (splitChar sep s.data).map String.mk

/-- `strings.EqualFold` for the ASCII case table: letter case is folded over the
ASCII letters (`EqualFoldBy` takes the case table of all of Unicode). -/
def EqualFold (s t : String) : Bool :=
  s.data.map Char.toLower = t.data.map Char.toLower

/-! ## Client address (`pkg/utils/ip.go`) -/

/-- `utils.GetClientIP`. -/
def GetClientIP (r : Request) : String :=
  let forwarded := r.Header.Get "X-Forwarded-For"
  let fromForwarded : Option String :=
    if forwarded ≠ "" then
      match Split forwarded ',' with
      | ip :: _ => some (TrimSpace ip)
      | [] => none
    else none
  match fromForwarded with
  | some ip => ip
  | none =>
    let realIP := r.Header.Get "X-Real-IP"
    if realIP ≠ "" then realIP
    else (Split r.RemoteAddr ':').headD ""

/-! ## Configuration (`pkg/config/model.go`) -/

namespace config

structure ServerConfig where
  Port : Int
  Timeout : Int
deriving DecidableEq, Repr

structure RedisConfig where
  Host : String
  Port : Int
  Password : String
  DB : Int
deriving DecidableEq, Repr

structure AuthConfig where
  JWTSecret : String
  AccessTokenExpirationTime : Int
  RefreshTokenExpirationTime : Int
deriving DecidableEq, Repr

structure RateLimitConfig where
  RequestsPerSecond : Int
  Burst : Int
deriving DecidableEq, Repr

structure ServiceConfig where
  Name : String
  BasePath : String
  Target : String
  Methods : List String
  SkipAuth : Bool
deriving DecidableEq, Repr

structure Config where
  AppEnv : String
  LogLevel : String
  Server : ServerConfig
  Redis : RedisConfig
  Auth : AuthConfig
  RateLimit : RateLimitConfig
  Services : List ServiceConfig
deriving DecidableEq, Repr

end config

/-! ## Handlers (`internal/handlers`) -/

/-- What the token library does, as far as `authorizationMiddleware` uses it:
key decoding, signature verification and parsing, and the decoded claim map,
each claim already rendered with `%v`. -/
structure TokenVerifier where
  PublicKey : Type
  Token : Type
  NewV4AsymmetricPublicKeyFromHex : String → Except String PublicKey
  ParseV4Public : PublicKey → String → Except String Token
  Claims : Token → Except String (String → Option String)

/-- What the HTTP library does for `forwardRequest`: `url.Parse`, the error
check of `http.NewRequest`, and `httpClient.Do`. -/
structure Transport where
  Parse : String → Except String URL
  NewRequestError : String → URL → Option String
  Do : OutboundRequest → Except String BackendResponse

/-- The outcome of `rateLimiter.Allow(ctx, key)`: the boolean and the error. -/
abbrev AllowResult := Bool × Option String

structure ProxyHandler where
  config : config.Config
  httpClient : Transport
  router : PriorityRouter
  rateLimiter : String → AllowResult
  verifier : TokenVerifier

/-- Observable steps of one request, in the order they happen. -/
inductive Event where
  | allow (key : String)
  | logError (msg : String)
  | callNext
  | findBestMatch (path : String)
  | authorize (service : String)
  | methodCheck (method : String)
  | roundTrip (req : OutboundRequest)
deriving DecidableEq, Repr

/-- An `http.HandlerFunc`: the writer after the call, and the steps taken. -/
abbrev Handler := ResponseWriter → Request → ResponseWriter × List Event

/-- The registrations `NewProxyHandler` makes, one per configured service. -/
def serviceRegistrations (cfg : config.Config) : List Registration :=
  cfg.Services.map (fun service =>
    (service.BasePath,
      ({ Name := service.Name, Target := service.Target, Methods := service.Methods,
         Priority := 0, SkipAuth := service.SkipAuth } : ServiceConfig)))

/-- `NewProxyHandler`. -/
def NewProxyHandler (cfg : config.Config) (rateLimiter : String → AllowResult)
    (httpClient : Transport) (verifier : TokenVerifier) : ProxyHandler :=
  { config := cfg, httpClient := httpClient,
    router := buildRouter (serviceRegistrations cfg),
    rateLimiter := rateLimiter, verifier := verifier }

/-- `ProxyHandler.isMethodAllowed`, over the ASCII case table. -/
def isMethodAllowed (method : String) (allowedMethods : List String) : Bool :=
  if allowedMethods.length = 0 then true
  else allowedMethods.any (fun allowedMethod => EqualFold method allowedMethod)

/-- The claim-to-header table of `authorizationMiddleware`, in source order. -/
def claimHeaders : List (String × String) :=
  [("userId", "X-User-ID"), ("isAdmin", "X-Is-Admin"), ("iat", "X-Issued-At"),
   ("sessionId", "X-Session-ID"), ("customClaims", "X-Custom-Claims"), ("exp", "X-Exp")]

/-- One `if v, exists := claims[name]; exists { r.Header.Set(header, v) }`. -/
def setClaimHeader (claims : String → Option String) (h : Header)
    (entry : String × String) : Header :=
  match claims entry.1 with
  | some v => h.Set entry.2 v
  | none => h

/-- `ProxyHandler.authorizationMiddleware`: the error, or the request with the
claim headers set. The receiver is used only for its token library. -/
def authorizationMiddleware (verifier : TokenVerifier) (r : Request)
    (cfg : config.Config) (service : Option ServiceConfig) : Except String Request :=
  match service with
  | none => .error "service not found"
  | some service =>
    if service.SkipAuth then .ok r
    else
      let authHeader := r.Header.Get "Authorization"
      if authHeader = "" then .error "authorization header is required"
      else
        let tokenString := TrimSpace (TrimPrefix authHeader "Bearer ")
        match verifier.NewV4AsymmetricPublicKeyFromHex cfg.Auth.JWTSecret with
        | .error err => .error ("Invalid public key configuration: " ++ err)
        | .ok publicKey =>
          match verifier.ParseV4Public publicKey tokenString with
          | .error err => .error ("Invalid token: " ++ err)
          | .ok token =>
            match verifier.Claims token with
            | .error err => .error ("Failed to parse token claims: " ++ err)
            | .ok claims =>
              .ok { r with Header := claimHeaders.foldl (setClaimHeader claims) r.Header }

/-- `ProxyHandler.forwardRequest`. -/
def forwardRequest (p : ProxyHandler) : Handler := fun w r =>
  let ev := [Event.findBestMatch r.URL.Path]
  match p.router.FindBestMatch r.URL.Path with
  | none => (httpNotFound w, ev ++ [.logError "No route found"])
  | some service =>
    let ev := ev ++ [.authorize service.Name]
    match authorizationMiddleware p.verifier r p.config (some service) with
    | .error err => (httpError w err 401, ev ++ [.logError "Authorization failed"])
    | .ok r =>
      let ev := ev ++ [.methodCheck r.Method]
      if !isMethodAllowed r.Method service.Methods then
        (httpError w "Method not allowed" 405, ev ++ [.logError "Method not allowed"])
      else
        match p.httpClient.Parse service.Target with
        | .error err => (httpError w ("Invalid target URL: " ++ err) 500, ev)
        | .ok target =>
          let proxyURL := { r.URL with Scheme := target.Scheme, Host := target.Host }
          match p.httpClient.NewRequestError r.Method proxyURL with
          | some err => (httpError w ("Error creating request: " ++ err) 500, ev)
          | none =>
            let req : OutboundRequest :=
              { Method := r.Method, URL := proxyURL,
                Header := copyHeaders r.Header [], Body := r.Body }
            let ev := ev ++ [.roundTrip req]
            match p.httpClient.Do req with
            | .error err =>
              (httpError w ("Error forwarding request: " ++ err) 502, ev)
            | .ok resp =>
              let w := { w with header := copyHeaders resp.Header w.header }
              let w := w.WriteHeader resp.StatusCode
              (w.Write resp.Body, ev)

/-- `ProxyHandler.rateLimitMiddleware`. -/
def rateLimitMiddleware (p : ProxyHandler) (next : Handler) : Handler := fun w r =>
  let clientIP := GetClientIP r
  let path := r.URL.Path
  let rateLimitKey := clientIP ++ ":" ++ path
  let ev := [Event.allow rateLimitKey]
  match p.rateLimiter rateLimitKey with
  | (_, some _) =>
    let res := next w r
    (res.1, ev ++ [.logError "Rate limiter error", .callNext] ++ res.2)
  | (allowed, none) =>
    if !allowed then
      let w := { w with header := w.header.Set "X-RateLimit-Limit" "Exceeded" }
      let w := { w with header := w.header.Set "Retry-After" "1" }
      (httpError w "Rate limit exceeded" 429, ev ++ [.logError "Rate limit exceeded"])
    else
      let res := next w r
      (res.1, ev ++ [.callNext] ++ res.2)

/-- `ProxyHandler.ServeHTTP`. -/
def ServeHTTP (p : ProxyHandler) : Handler :=
  rateLimitMiddleware p (forwardRequest p)

/-- A token library for the examples: it accepts the token `good`, whose only
claim is `userId = 42`. -/
def exampleVerifier : TokenVerifier :=
  { PublicKey := Unit, Token := String,
    NewV4AsymmetricPublicKeyFromHex := fun _ => .ok (),
    ParseV4Public := fun _ tok => if tok = "good" then .ok tok else .error "bad signature",
    Claims := fun _ => .ok (fun k => if k = "userId" then some "42" else none) }

/-- A backend for the examples: it answers 201 with `X-Custom: v` and the body
`\x7b"ok":true\x7d`. -/
def exampleTransport : Transport :=
  { Parse := fun _ => .ok ⟨"http", "users:8080", "", ""⟩,
    NewRequestError := fun _ _ => none,
    Do := fun _ => .ok ⟨201, [("X-Custom", "v")], utf8Bytes "\x7b\"ok\":true\x7d"⟩ }

def exampleConfig : config.Config :=
  { AppEnv := "test", LogLevel := "info", Server := ⟨8080, 30⟩,
    Redis := ⟨"", 0, "", 0⟩, Auth := ⟨"00", 0, 0⟩, RateLimit := ⟨5, 5⟩,
    Services := [⟨"users", "/api/users", "http://users:8080", ["GET"], false⟩] }

/-- The example gateway, with the limiter answering every key with `answer`. -/
def exampleProxy (answer : AllowResult) : ProxyHandler :=
  NewProxyHandler exampleConfig (fun _ => answer) exampleTransport exampleVerifier

/-- A `POST` without credentials to a `GET`-only, authenticated route. -/
def examplePost : Request :=
  { Method := "POST", URL := ⟨"", "", "/api/users", ""⟩, Header := [],
    RemoteAddr := "10.0.0.1:5000", Body := [] }

/-- A `GET` with a valid bearer token. -/
def exampleGet : Request :=
  { Method := "GET", URL := ⟨"", "", "/api/users", ""⟩,
    Header := [("Authorization", "Bearer good")],
    RemoteAddr := "10.0.0.1:5000", Body := [] }

/-- A request for a path no route covers. -/
def exampleUnregistered : Request :=
  { Method := "GET", URL := ⟨"", "", "/unregistered", ""⟩, Header := [],
    RemoteAddr := "10.0.0.1:5000", Body := [] }

/-! ## Local token bucket (`pkg/redis/silding_window_rds.go`)

A `time.Time` is modelled by its reading in nanoseconds, a `time.Duration` by its
nanosecond count, `now.Sub` by the difference of the two readings. The token
levels are computed here in exact rationals; the same function with every
`float64` operation rounded is `F64.Allow`, further down, and the two agree
wherever the `float64` arithmetic is exact. -/

/-- `Duration.Seconds`. -/
def Seconds (d : Int) : ℚ :=
  ((d.tdiv 1000000000 : Int) : ℚ) + ((d.tmod 1000000000 : Int) : ℚ) / 1000000000

structure tokenBucket where
  tokens : ℚ
  lastRefill : Int
deriving DecidableEq

structure TokenBucketLimiter where
  buckets : String → Option tokenBucket
  rate : ℚ
  capacity : Int
  cleanupTTL : Int

/-- `NewTokenBucketLimiter` (the sweep goroutine it starts is `cleanupStaleBuckets`). -/
def NewTokenBucketLimiter (rps burst : Int) : TokenBucketLimiter :=
  { buckets := fun _ => none, rate := (rps : ℚ), capacity := burst,
    cleanupTTL := 3600 * 1000000000 }

/-- The map store `l.buckets[key] = bucket`. -/
def TokenBucketLimiter.setBucket (l : TokenBucketLimiter) (key : String)
    (bucket : tokenBucket) : TokenBucketLimiter :=
  { l with buckets := fun k => if k = key then some bucket else l.buckets k }

/-- `TokenBucketLimiter.Allow`, with the reading of `time.Now()` as `now`. -/
def TokenBucketLimiter.Allow (l : TokenBucketLimiter) (now : Int) (key : String) :
    AllowResult × TokenBucketLimiter :=
  if key = "" then ((false, some "rate limit key cannot be empty"), l)
  else
    match l.buckets key with
    | none =>
      ((true, none), l.setBucket key ⟨(l.capacity : ℚ) - 1, now⟩)
    | some bucket =>
      let elapsed := Seconds (now - bucket.lastRefill)
      let refill := elapsed * l.rate
      let tokens := min (l.capacity : ℚ) (bucket.tokens + refill)
      if tokens ≥ 1 then ((true, none), l.setBucket key ⟨tokens - 1, now⟩)
      else ((false, none), l.setBucket key ⟨tokens, now⟩)

/-- One pass of `cleanupStaleBuckets` at time `now`. -/
def TokenBucketLimiter.cleanupStaleBuckets (l : TokenBucketLimiter) (now : Int) :
    TokenBucketLimiter :=
  let cutoff := now - l.cleanupTTL
  { l with buckets := fun k =>
      match l.buckets k with
      | some bucket => if bucket.lastRefill < cutoff then none else some bucket
      | none => none }

/-- The reference step of the token bucket, as the specification words it: a new
key gets a bucket charged to `C - 1` and is allowed; an existing bucket is
refilled to `level = min(C, t + elapsed seconds * R)`, then allowed with
`level - 1` left when `level >= 1`, else denied with `level` left; `lastRefill`
becomes `now` in every case. -/
def referenceStep (C : Int) (R : ℚ) (bucket : Option tokenBucket) (now : Int) :
    Bool × tokenBucket :=
  match bucket with
  | none => (true, ⟨(C : ℚ) - 1, now⟩)
  | some b =>
    let level := min (C : ℚ) (b.tokens + ((now - b.lastRefill : Int) : ℚ) / 1000000000 * R)
    if level ≥ 1 then (true, ⟨level - 1, now⟩) else (false, ⟨level, now⟩)

/-- Consecutive `Allow` calls on one key at the given times: the decisions, and
the limiter afterwards. -/
def TokenBucketLimiter.allowAt (l : TokenBucketLimiter) (key : String) :
    List Int → List Bool × TokenBucketLimiter
  | [] => ([], l)
  | now :: rest =>
    let r := l.Allow now key
    let rs := TokenBucketLimiter.allowAt r.2 key rest
    (r.1.1 :: rs.1, rs.2)

/-- One call of a run: the key and the reading of the clock. -/
structure BucketCall where
  key : String
  now : Int
deriving DecidableEq, Repr

/-- The limiter after a sequence of `Allow` calls. -/
def TokenBucketLimiter.after (l : TokenBucketLimiter) (calls : List BucketCall) :
    TokenBucketLimiter :=
  calls.foldl (fun l c => (l.Allow c.now c.key).2) l

/-! ## Shared sorted-set store (the Redis commands the limiter issues) -/

/-- A sorted-set member name `Sprintf("%d:%d:%d", now, nanos, counter)`, kept as
its three numbers. -/
structure Member where
  now : Int
  nanos : Int
  counter : Nat
deriving DecidableEq, Repr

/-- What the store holds under one key: the sorted set as (member, score) pairs,
and the expiry deadline in nanoseconds when one is set. A key with an empty set
does not exist. -/
structure StoreValue where
  zset : List (Member × Int)
  expireAt : Option Int
deriving DecidableEq, Repr

abbrev Store := String → StoreValue

/-- The store with no key. -/
def Store.empty : Store := fun _ => ⟨[], none⟩

/-- A stored value as seen at clock `now` (milliseconds): past its deadline the
key is gone. -/
def StoreValue.liveAt (v : StoreValue) (now : Int) : StoreValue :=
  match v.expireAt with
  | some deadline => if deadline ≤ now * 1000000 then ⟨[], none⟩ else v
  | none => v

/-- The value under `key` as seen at clock `now`. -/
def Store.live (s : Store) (now : Int) (key : String) : StoreValue :=
  (s key).liveAt now

/-- The store with `v` under `key`. -/
def Store.put (s : Store) (key : String) (v : StoreValue) : Store :=
  fun k => if k = key then v else s k

/-- The commands as the store receives them; `EXPIRE` carries whole seconds. -/
inductive Command where
  | ZAdd (key : String) (score : Int) (member : Member)
  | ZRemRangeByScore (key : String) (max : Int)
  | ZCard (key : String)
  | Expire (key : String) (seconds : Int)
deriving DecidableEq, Repr

/-- How the Redis client sends the duration of `Expire` (`formatSec`): in whole
seconds, the fraction dropped, a positive duration below one second as 1. -/
def formatSec (dur : Int) : Int :=
  if 0 < dur ∧ dur < 1000000000 then 1 else dur.tdiv 1000000000

/-- The key a command addresses. -/
def Command.key : Command → String
  | .ZAdd key _ _ => key
  | .ZRemRangeByScore key _ => key
  | .ZCard key => key
  | .Expire key _ => key

/-- `ZADD`: a new member is added, a known member gets the new score. -/
def zadd (z : List (Member × Int)) (score : Int) (member : Member) : List (Member × Int) :=
  if z.any (fun e => decide (e.1 = member)) then
    z.map (fun e => if e.1 = member then (member, score) else e)
  else z ++ [(member, score)]

/-- The effect of one command at store clock `now` (milliseconds), and its
integer reply. `ZREMRANGEBYSCORE key -inf max` removes the scores `<= max`;
`EXPIRE` with a non-positive time deletes the key. -/
def Store.exec (s : Store) (now : Int) : Command → Store × Int
  | .ZAdd key score member =>
    let v := s.live now key
    (s.put key ⟨zadd v.zset score member, v.expireAt⟩,
      if v.zset.any (fun e => decide (e.1 = member)) then 0 else 1)
  | .ZRemRangeByScore key max =>
    let v := s.live now key
    let kept := v.zset.filter (fun e => decide (max < e.2))
    (s.put key ⟨kept, if kept = [] then none else v.expireAt⟩,
      (v.zset.length - kept.length : Nat))
  | .ZCard key => (s.put key (s.live now key), ((s.live now key).zset.length : Int))
  | .Expire key seconds =>
    let v := s.live now key
    if v.zset = [] then (s.put key v, 0)
    else if seconds ≤ 0 then (s.put key ⟨[], none⟩, 1)
    else (s.put key ⟨v.zset, some (now * 1000000 + seconds * 1000000000)⟩, 1)

/-- A batch run in order: the store afterwards and the replies. -/
def Store.execAll (s : Store) (now : Int) : List Command → Store × List Int
  | [] => (s, [])
  | c :: cs =>
    let r := s.exec now c
    let rs := Store.execAll r.1 now cs
    (rs.1, r.2 :: rs.2)

/-! ## Distributed sliding window -/

structure RedisSlidingWindowLimiter where
  keyPrefix : String
  limit : Int
  window : Int
  counter : Nat

/-- How one pipelined batch went: every command ran and replied; or `Exec`
failed after the store ran the first `applied` commands; or `Exec` succeeded and
the cardinality read failed. -/
inductive Link where
  | up
  | execFailed (applied : Nat) (err : String)
  | cardFailed (err : String)
deriving DecidableEq, Repr

/-- The store key `fmt.Sprintf("%s:%s", l.prefix, key)`. -/
def RedisSlidingWindowLimiter.redisKey (l : RedisSlidingWindowLimiter) (key : String) :
    String :=
  l.keyPrefix ++ ":" ++ key

/-- `int64(l.window / time.Millisecond)`. -/
def RedisSlidingWindowLimiter.windowMillis (l : RedisSlidingWindowLimiter) : Int :=
  l.window.tdiv 1000000

/-- The batch `Allow` queues for `key`, as it goes over the wire: the client
sends the duration `l.window + time.Second` of `Expire` through `formatSec`. -/
def RedisSlidingWindowLimiter.batch (l : RedisSlidingWindowLimiter) (now nano : Int)
    (key : String) : List Command :=
  let windowStart := now - l.windowMillis
  let redisKey := l.redisKey key
  let member : Member := ⟨now, nano.tmod 1000000, (l.counter + 1) % 2 ^ 64⟩
  [.ZAdd redisKey now member, .ZRemRangeByScore redisKey windowStart, .ZCard redisKey,
   .Expire redisKey (formatSec (l.window + 1000000000))]

/-- The outcome of one `Allow`. -/
structure AllowOutcome where
  result : AllowResult
  limiter : RedisSlidingWindowLimiter
  store : Store
  issued : List Command

/-- `RedisSlidingWindowLimiter.Allow`: `now` is `time.Now().UnixMilli()`, also
taken as the store's clock, and `nano` the later `time.Now().UnixNano()`. -/
def RedisSlidingWindowLimiter.Allow (l : RedisSlidingWindowLimiter) (store : Store)
    (now nano : Int) (link : Link) (key : String) : AllowOutcome :=
  if key = "" then ⟨(false, some "rate limit key cannot be empty"), l, store, []⟩
  else
    let cmds := l.batch now nano key
    let l2 := { l with counter := (l.counter + 1) % 2 ^ 64 }
    match link with
    | .execFailed applied err =>
      ⟨(false, some ("redis pipeline exec failed: " ++ err)), l2,
        (store.execAll now (cmds.take applied)).1, cmds⟩
    | .cardFailed err =>
      ⟨(false, some ("redis zcard failed: " ++ err)), l2, (store.execAll now cmds).1, cmds⟩
    | .up =>
      let r := store.execAll now cmds
      let count := r.2.getD 2 0
      ⟨(decide (count ≤ l.limit), none), l2, r.1, cmds⟩

/-- One call of a sequential run. -/
structure Call where
  key : String
  now : Int
  nano : Int
deriving DecidableEq, Repr

/-- The limiter and the store after a sequence of successful batches. -/
def RedisSlidingWindowLimiter.after (l : RedisSlidingWindowLimiter) (store : Store)
    (calls : List Call) : RedisSlidingWindowLimiter × Store :=
  calls.foldl (fun st c =>
    let o := st.1.Allow st.2 c.now c.nano .up c.key
    (o.limiter, o.store)) (l, store)

/-- The decisions of a sequence of successful batches, in call order. -/
def RedisSlidingWindowLimiter.decisions (l : RedisSlidingWindowLimiter) (store : Store) :
    List Call → List Bool
  | [] => []
  | c :: rest =>
    let o := l.Allow store c.now c.nano .up c.key
    o.result.1 :: RedisSlidingWindowLimiter.decisions o.limiter o.store rest

/-- The number of calls on `c.key` among `calls` made strictly later than
`c.now - W` (milliseconds). -/
def callsInWindow (W : Int) (calls : List Call) (c : Call) : Nat :=
  (calls.filter (fun d => decide (d.key = c.key) && decide (c.now - W < d.now))).length

/-- The same count with the window as the exact duration in nanoseconds: calls
made strictly later than `c.now` minus `window`. -/
def callsInExactWindow (window : Int) (calls : List Call) (c : Call) : Nat :=
  (calls.filter (fun d =>
    decide (d.key = c.key) && decide (c.now * 1000000 - window < d.now * 1000000))).length

/-- Call times never go back. -/
abbrev TimeOrdered (calls : List Call) : Prop := calls.Pairwise (fun a b => a.now ≤ b.now)

/-- The number of calls on `key` among `calls` made strictly later than `t - W`. -/
def countInWindow (W : Int) (calls : List Call) (key : String) (t : Int) : Nat :=
  (calls.filter (fun d => decide (d.key = key) && decide (t - W < d.now))).length

/-- The number of entries of a sorted set scored strictly above `t - W`. -/
def scoredInWindow (W : Int) (z : List (Member × Int)) (t : Int) : Nat :=
  (z.filter (fun e => decide (t - W < e.2))).length

/-- The value a successful batch leaves under the key. -/
def batchValue (l : RedisSlidingWindowLimiter) (v : StoreValue) (now nano : Int) :
    StoreValue :=
  let member : Member := ⟨now, nano.tmod 1000000, (l.counter + 1) % 2 ^ 64⟩
  let kept := (zadd (v.liveAt now).zset now member).filter
    (fun e => decide (now - l.windowMillis < e.2))
  if kept = [] then ⟨[], none⟩
  else if formatSec (l.window + 1000000000) ≤ 0 then ⟨[], none⟩
  else ⟨kept, some (now * 1000000 + formatSec (l.window + 1000000000) * 1000000000)⟩

/-- The cardinality a successful batch reads. -/
def batchCount (l : RedisSlidingWindowLimiter) (v : StoreValue) (now nano : Int) : Nat :=
  let member : Member := ⟨now, nano.tmod 1000000, (l.counter + 1) % 2 ^ 64⟩
  ((zadd (v.liveAt now).zset now member).filter
    (fun e => decide (now - l.windowMillis < e.2))).length

/-- What holds of the limiter and the store after the calls `pre` of a
sequential run started by limiter `l0` on the empty store. -/
structure WindowInv (l0 : RedisSlidingWindowLimiter) (pre : List Call)
    (st : RedisSlidingWindowLimiter × Store) : Prop where
  keyPrefix_eq : st.1.keyPrefix = l0.keyPrefix
  limit_eq : st.1.limit = l0.limit
  window_eq : st.1.window = l0.window
  counters : ∃ m, m ≤ pre.length ∧ st.1.counter % 2 ^ 64 = (l0.counter + m) % 2 ^ 64 ∧
    ∀ k, ∀ e ∈ (st.2 k).zset, ∃ j, 1 ≤ j ∧ j ≤ m ∧ e.1.counter = (l0.counter + j) % 2 ^ 64
  scores : ∀ key, key ≠ "" → ∀ t, (∀ d ∈ pre, d.now ≤ t) →
    ∀ e ∈ (st.2 (l0.redisKey key)).zset, e.2 ≤ t
  counts : ∀ key, key ≠ "" → ∀ t, (∀ d ∈ pre, d.now ≤ t) →
    scoredInWindow l0.windowMillis (st.2 (l0.redisKey key)).zset t =
      countInWindow l0.windowMillis pre key t
  expired : ∀ key, key ≠ "" → ∀ t, (∀ d ∈ pre, d.now ≤ t) →
    ∀ deadline, (st.2 (l0.redisKey key)).expireAt = some deadline →
      deadline ≤ t * 1000000 →
      ∀ e ∈ (st.2 (l0.redisKey key)).zset, e.2 ≤ t - l0.windowMillis

/-- The limiter of the test suite: limit 5, window 1 s. -/
def testLimiter : RedisSlidingWindowLimiter :=
  { keyPrefix := "rate_limit", limit := 5, window := 1000000000, counter := 0 }

/-- Calls on `key` at the given millisecond times. -/
def callsAt (key : String) (times : List Int) : List Call :=
  times.map (fun t => ⟨key, t, t * 1000000⟩)

/-- A limiter whose window is not a whole number of milliseconds: 1.5 ms, limit 1. -/
def fractionalLimiter : RedisSlidingWindowLimiter :=
  { keyPrefix := "rate_limit", limit := 1, window := 1500000, counter := 0 }

/-! ## Examples for the authenticator -/

/-- A `GET` with a valid bearer token that also carries an `X-Is-Admin` header
of its own; the token of `exampleVerifier` has no `isAdmin` claim. -/
def exampleSpoofed : Request :=
  { Method := "GET", URL := ⟨"", "", "/api/users", ""⟩,
    Header := [("Authorization", "Bearer good"), ("X-Is-Admin", "true")],
    RemoteAddr := "10.0.0.1:5000", Body := [] }

/-- A `GET` whose `Authorization` value is the bare token, without `Bearer `. -/
def exampleBareToken : Request :=
  { Method := "GET", URL := ⟨"", "", "/api/users", ""⟩,
    Header := [("Authorization", "good")],
    RemoteAddr := "10.0.0.1:5000", Body := [] }

/-- A configuration whose only service opts out of authentication. -/
def examplePublicConfig : config.Config :=
  { exampleConfig with
    Services := [⟨"public", "/public", "http://public:8080", [], true⟩] }

/-- The example gateway over `examplePublicConfig`. -/
def examplePublicProxy : ProxyHandler :=
  NewProxyHandler examplePublicConfig (fun _ => (true, none)) exampleTransport exampleVerifier

/-- A request to the public route without an `Authorization` header. -/
def examplePublicGet : Request :=
  { Method := "GET", URL := ⟨"", "", "/public/info", ""⟩, Header := [("Accept", "*/*")],
    RemoteAddr := "10.0.0.1:5000", Body := [] }

/-- Two strings are equal ignoring letter case: they have the same length and,
position by position, the same character once letters are lowered. -/
def EqualIgnoringCase (s t : String) : Prop :=
  List.Forall₂ (fun a b : Char => a.toLower = b.toLower) s.data t.data

/-- `strings.EqualFold` over all of Unicode: equality under simple case folding.
The case table of the `unicode` package enters as `fold`, which sends a character
to the representative of its case orbit (`k`, `K` and the Kelvin sign to one
character); on the ASCII characters it lowers the letters, and `EqualFold` is
`EqualFoldBy Char.toLower`. -/
def EqualFoldBy (fold : Char → Char) (s t : String) : Bool :=
  s.data.map fold = t.data.map fold

/-- `ProxyHandler.isMethodAllowed` over the case table `fold`; `isMethodAllowed`
is `isMethodAllowedBy Char.toLower`. -/
def isMethodAllowedBy (fold : Char → Char) (method : String)
    (allowedMethods : List String) : Bool :=
  if allowedMethods.length = 0 then true
  else allowedMethods.any (fun allowedMethod => EqualFoldBy fold method allowedMethod)

/-- Two strings are equal ignoring letter case, over the case table `fold`: they
have the same length and, position by position, characters of one case orbit. -/
def EqualIgnoringCaseBy (fold : Char → Char) (s t : String) : Prop :=
  List.Forall₂ (fun a b : Char => fold a = fold b) s.data t.data

/-- A case table that knows one orbit beyond ASCII: the Kelvin sign (U+212A)
folds with `K` and `k`. -/
def kelvinFold (c : Char) : Char :=
  if c = Char.ofNat 0x212A then 'k' else c.toLower

/-- The states a limiter made by `NewTokenBucketLimiter rps burst` reaches by
`Allow` calls and sweeps, each with the latest reading of the clock; readings
never go back, as with the monotonic clock `time.Now` and `Sub` use. -/
inductive TokenBucketLimiter.Reachable (rps burst : Int) :
    TokenBucketLimiter → Int → Prop where
  | init (t : Int) : TokenBucketLimiter.Reachable rps burst (NewTokenBucketLimiter rps burst) t
  | allow {l : TokenBucketLimiter} {t : Int} (now : Int) (key : String) :
      TokenBucketLimiter.Reachable rps burst l t → t ≤ now →
      TokenBucketLimiter.Reachable rps burst (l.Allow now key).2 now
  | sweep {l : TokenBucketLimiter} {t : Int} (now : Int) :
      TokenBucketLimiter.Reachable rps burst l t → t ≤ now →
      TokenBucketLimiter.Reachable rps burst (l.cleanupStaleBuckets now) now

/-- A limiter with limit 1 and a window of 1 s. -/
def boundaryLimiter : RedisSlidingWindowLimiter :=
  { keyPrefix := "rate_limit", limit := 1, window := 1000000000, counter := 0 }

/-- A limiter whose window is not a whole number of seconds: 1.5 s, limit 1. -/
def halfSecondLimiter : RedisSlidingWindowLimiter :=
  { keyPrefix := "rate_limit", limit := 1, window := 1500000000, counter := 0 }

/-- A route registered as `/a/*`. -/
def starRoute : Registration := ("/a/*", ⟨"first", "http://first:8080", [], 0, false⟩)

/-- A route registered as `/a/:id`, whose normalised pattern is that of `/a/*`. -/
def idRoute : Registration := ("/a/:id", ⟨"second", "http://second:8080", [], 0, false⟩)

/-- The part of `s` before its first `sep`, all of `s` when it has none. -/
def upToFirst (sep : Char) (s : String) : String :=
  String.mk (s.data.takeWhile (fun c => c != sep))

/-- The client identity as the specification words it: the trimmed first
comma-separated entry of `X-Forwarded-For` when that header is non-empty, else
`X-Real-IP` when non-empty, else `RemoteAddr` up to its first `:`. -/
def clientIdentity (r : Request) : String :=
  if r.Header.Get "X-Forwarded-For" ≠ "" then
    TrimSpace (upToFirst ',' (r.Header.Get "X-Forwarded-For"))
  else if r.Header.Get "X-Real-IP" ≠ "" then r.Header.Get "X-Real-IP"
  else upToFirst ':' r.RemoteAddr

/-- A request that came through a proxy. -/
def exampleProxied : Request :=
  { Method := "GET", URL := ⟨"", "", "/api/users", ""⟩,
    Header := [("X-Forwarded-For", " 203.0.113.7 , 10.0.0.2"), ("X-Real-IP", "10.0.0.2")],
    RemoteAddr := "10.0.0.1:5000", Body := [] }

/-- The example gateway with a limiter that refuses the key `denied` and admits
every other key. -/
def exampleKeyedProxy (denied : String) : ProxyHandler :=
  NewProxyHandler exampleConfig (fun key => (decide (key ≠ denied), none)) exampleTransport
    exampleVerifier

/-- `NewRedisSlidingWindowLimiter`, with the outcome of the connection test
`client.Ping` as `ping` (its error, if any); the configuration only addresses
the client. -/
def NewRedisSlidingWindowLimiter (_cfg : config.RedisConfig) (limit : Int) (window : Int)
    (ping : Option String) : Except String RedisSlidingWindowLimiter :=
  let limit := if limit ≤ 0 then 100 else limit
  let window := if window ≤ 0 then 30 * 1000000000 else window
  match ping with
  | some err => .error err
  | none => .ok { keyPrefix := "rate_limit", limit := limit, window := window, counter := 0 }

/-- The number of calls of a run that returned allowed among those made within
`T` seconds of the instant `t0`: `times` are the call instants in nanoseconds and
`decisions` the results of the calls, in the order of the calls. -/
def allowedWithin (t0 : Int) (T : ℚ) (times : List Int) (decisions : List Bool) : Nat :=
  ((times.zip decisions).filter
    (fun c => decide (Seconds (c.1 - t0) ≤ T) && c.2)).length

/-! ## The token bucket in `float64` arithmetic

`TokenBucketLimiter.Allow` above computes in exact rationals. Here the same
function is taken with the arithmetic of the machine: a `float64` is the
rational it denotes, and every conversion and every operation yields the exact
result rounded to the nearest value with a 53-bit significand, ties to the even
significand (IEEE 754 binary64, round to nearest even). The values at hand are
sums and products of 64-bit integers and durations, far below `2 ^ 1024`, so no
result overflows. -/

/-- The number of binary digits of `n`, with `fuel` steps to go. -/
def bitLengthAux : Nat → Nat → Nat
  | 0, _ => 0
  | fuel + 1, n => if n = 0 then 0 else bitLengthAux fuel (n / 2) + 1

/-- The number of binary digits of `n`: `2 ^ (bitLength n - 1) ≤ n < 2 ^ bitLength n`
for `n ≠ 0`. -/
def bitLength (n : Nat) : Nat := bitLengthAux n n

/-- The binary exponent `e` of `x ≠ 0`, with `2 ^ e ≤ |x| < 2 ^ (e + 1)`: the
digits of numerator and denominator place it within one, the comparison
settles it. -/
def binaryExponent (x : ℚ) : Int :=
  let e := (bitLength x.num.natAbs : Int) - (bitLength x.den : Int)
  if |x| < (2 : ℚ) ^ e then e - 1 else e

/-- The integer nearest to `y`, the even one of the two when `y` lies midway. -/
def roundHalfEven (y : ℚ) : Int :=
  let f := ⌊y⌋
  if y - f < 1 / 2 then f
  else if 1 / 2 < y - f then f + 1
  else if f % 2 = 0 then f else f + 1

/-- The `float64` nearest to `x`: the nearest multiple of `2 ^ (e - 52)` for the
binary exponent `e` of `x`, of `2 ^ (-1074)` in the subnormal range, ties to the
even multiple. It is the conversion `float64(n)` and the rounding of every
`float64` operation. -/
def float64 (x : ℚ) : ℚ :=
  if x = 0 then 0
  else
    let q : ℚ := (2 : ℚ) ^ max (binaryExponent x - 52) (-1074)
    (roundHalfEven (x / q) : ℚ) * q

namespace F64

/-- `Duration.Seconds`: `float64(sec) + float64(nsec)/1e9`. -/
def Seconds (d : Int) : ℚ :=
  float64 (float64 (d.tdiv 1000000000 : Int) +
    float64 (float64 (d.tmod 1000000000 : Int) / 1000000000))

/-- `NewTokenBucketLimiter`, the rate being `float64(rps)`. -/
def NewTokenBucketLimiter (rps burst : Int) : TokenBucketLimiter :=
  { buckets := fun _ => none, rate := float64 (rps : ℚ), capacity := burst,
    cleanupTTL := 3600 * 1000000000 }

/-- `TokenBucketLimiter.Allow` in `float64` arithmetic, with the reading of
`time.Now()` as `now`. -/
def Allow (l : TokenBucketLimiter) (now : Int) (key : String) :
    AllowResult × TokenBucketLimiter :=
  if key = "" then ((false, some "rate limit key cannot be empty"), l)
  else
    match l.buckets key with
    | none =>
      ((true, none), l.setBucket key ⟨float64 (float64 (l.capacity : ℚ) - 1), now⟩)
    | some bucket =>
      let elapsed := Seconds (now - bucket.lastRefill)
      let refill := float64 (elapsed * l.rate)
      let tokens := min (float64 (l.capacity : ℚ)) (float64 (bucket.tokens + refill))
      if tokens ≥ 1 then ((true, none), l.setBucket key ⟨float64 (tokens - 1), now⟩)
      else ((false, none), l.setBucket key ⟨tokens, now⟩)

/-- The reference step of the token bucket with every operation in `float64`:
a new key gets a bucket charged to `C - 1` and is allowed; an existing bucket is
refilled to `level = min(C, t + elapsed seconds * R)`, then allowed with
`level - 1` left when `level >= 1`, else denied with `level` left; `lastRefill`
becomes `now` in every case. -/
def referenceStep (C : Int) (R : ℚ) (bucket : Option tokenBucket) (now : Int) :
    Bool × tokenBucket :=
  match bucket with
  | none => (true, ⟨float64 (float64 (C : ℚ) - 1), now⟩)
  | some b =>
    let seconds := float64 (float64 ((now - b.lastRefill).tdiv 1000000000 : Int) +
      float64 (float64 ((now - b.lastRefill).tmod 1000000000 : Int) / 1000000000))
    let level := min (float64 (C : ℚ)) (float64 (b.tokens + float64 (seconds * R)))
    if level ≥ 1 then (true, ⟨float64 (level - 1), now⟩) else (false, ⟨level, now⟩)

/-- Consecutive `Allow` calls on one key at the given times, in `float64`
arithmetic: the decisions, and the limiter afterwards. -/
def allowAt (l : TokenBucketLimiter) (key : String) :
    List Int → List Bool × TokenBucketLimiter
  | [] => ([], l)
  | now :: rest =>
    let r := Allow l now key
    let rs := allowAt r.2 key rest
    (r.1.1 :: rs.1, rs.2)

end F64

/-- The decisions of the exact reference step run over the given call times,
from the bucket `bucket` of the key. -/
def referenceRun (C : Int) (R : ℚ) (bucket : Option tokenBucket) : List Int → List Bool
  | [] => []
  | now :: rest =>
    let r := referenceStep C R bucket now
    r.1 :: referenceRun C R (some r.2) rest

/-- Twelve calls, 100 ms apart. -/
def tenthsOfASecond : List Int :=
  [0, 100000000, 200000000, 300000000, 400000000, 500000000, 600000000, 700000000,
   800000000, 900000000, 1000000000, 1100000000]

/-- A run on a bucket of capacity `2 ^ 25`: a call at 0, a call 2 ns later,
`2 ^ 25 - 2` more calls at that instant, and a call at 999999999 ns. -/
def drainingRun : List Int :=
  0 :: 2 :: (List.replicate 33554430 2 ++ [999999999])

theorem isWildcardSegment_star : isWildcardSegment "*" = true := by decide

theorem segmentKey_eq_star_iff (s : String) :
    segmentKey s = "*" ↔ isWildcardSegment s = true := by
  unfold segmentKey
  by_cases h : isWildcardSegment s = true
  · simp [h]
  · simp only [h, if_false, iff_false, Bool.false_eq_true]
    intro hs
    rw [hs] at h
    exact h isWildcardSegment_star

theorem routeMatchesB_iff (pat segs : List String) :
    routeMatchesB pat segs = true ↔ RouteMatches pat segs := by
  induction pat generalizing segs with
  | nil => simp [routeMatchesB, RouteMatches]
  | cons s ps ih =>
    cases segs with
    | nil => simp [routeMatchesB, RouteMatches]
    | cons x xs =>
      simp only [routeMatchesB, Bool.and_eq_true, Bool.or_eq_true, decide_eq_true_eq, ih]
      unfold RouteMatches
      constructor
      · rintro ⟨h1, h2, h3⟩
        refine ⟨by simpa using h2, ?_⟩
        intro i t hi
        cases i with
        | zero =>
          simp at hi
          subst hi
          rcases h1 with h | h
          · exact Or.inl h
          · exact Or.inr (by simp [h])
        | succ j => simpa using h3 j t (by simpa using hi)
      · rintro ⟨h1, h2⟩
        refine ⟨?_, by simpa using h1, ?_⟩
        · rcases h2 0 s (by simp) with h | h
          · exact Or.inl h
          · exact Or.inr (by simpa using h.symm)
        · intro i t hi
          simpa using h2 (i + 1) t (by simpa using hi)

theorem keyCompat_routeKeys (pat segs : List String) :
    KeyCompat (pat.map segmentKey) segs ↔ RouteMatches pat segs := by
  rw [← routeMatchesB_iff]
  induction pat generalizing segs with
  | nil => simp [KeyCompat, routeMatchesB]
  | cons s ps ih =>
    cases segs with
    | nil => simp [KeyCompat, routeMatchesB]
    | cons x xs =>
      simp only [List.map_cons, KeyCompat, routeMatchesB, Bool.and_eq_true, Bool.or_eq_true,
        decide_eq_true_eq, ih, segmentKey_eq_star_iff]
      constructor
      · rintro ⟨h | h, h2⟩
        · by_cases hw : isWildcardSegment s = true
          · exact ⟨Or.inl hw, h2⟩
          · refine ⟨Or.inr ?_, h2⟩
            simpa [segmentKey, hw] using h
        · exact ⟨Or.inl h, h2⟩
      · rintro ⟨h | h, h2⟩
        · exact ⟨Or.inr h, h2⟩
        · by_cases hw : isWildcardSegment s = true
          · exact ⟨Or.inr hw, h2⟩
          · refine ⟨Or.inl ?_, h2⟩
            simpa [segmentKey, hw] using h

theorem routeAt_empty (w : Bool) (ks : List String) :
    routeAt (RouteNode.mk (fun _ => none) none w) ks = none := by
  cases ks <;> simp [routeAt, RouteNode.service, RouteNode.children]

theorem routeAt_insert (n : RouteNode) (segs : List String) (svc : ServiceConfig)
    (ks : List String) :
    routeAt (insert n segs svc) ks =
      if ks = segs.map segmentKey then some svc else routeAt n ks := by
  induction segs generalizing n ks with
  | nil =>
    cases n with
    | mk ch s w =>
      cases ks with
      | nil => simp [insert, routeAt, RouteNode.service]
      | cons k ks => simp [insert, routeAt, RouteNode.children]
  | cons seg rest ih =>
    cases n with
    | mk ch s w =>
      cases ks with
      | nil => simp [insert, routeAt, RouteNode.service]
      | cons k ks =>
        simp only [insert, routeAt, RouteNode.children, List.map_cons, List.cons.injEq]
        by_cases hk : k = segmentKey seg
        · subst hk
          simp only [if_true, true_and, ih]
          cases hc : ch (segmentKey seg) with
          | none => simp [routeAt_empty]
          | some c => simp
        · simp [hk]

theorem collectCandidates_eq (n : RouteNode) (segs : List String)
    (acc : List ServiceConfig) :
    collectCandidates n segs acc = acc ++ candidatesOf n segs := by
  induction segs generalizing n acc with
  | nil =>
    cases hs : n.service <;> simp [collectCandidates, candidatesOf, hs]
  | cons seg rest ih =>
    simp only [collectCandidates, candidatesOf]
    cases hs : n.service <;> cases h1 : n.children seg <;> cases h2 : n.children "*" <;>
      simp [ih, List.append_assoc]

theorem mem_candidatesOf (n : RouteNode) (segs : List String) (s : ServiceConfig) :
    s ∈ candidatesOf n segs ↔ ∃ ks, routeAt n ks = some s ∧ KeyCompat ks segs := by
  induction segs generalizing n with
  | nil =>
    simp only [candidatesOf, Option.mem_toList, Option.mem_def]
    constructor
    · intro h
      exact ⟨[], h, trivial⟩
    · rintro ⟨ks, h1, h2⟩
      cases ks with
      | nil => exact h1
      | cons k ks => exact absurd h2 (by simp [KeyCompat])
  | cons seg rest ih =>
    simp only [candidatesOf, List.mem_append, Option.mem_toList, Option.mem_def]
    constructor
    · rintro ((h | h) | h)
      · exact ⟨[], h, trivial⟩
      · cases hc : n.children seg with
        | none => simp [hc] at h
        | some c =>
          simp only [hc] at h
          obtain ⟨ks, h1, h2⟩ := (ih c).1 h
          exact ⟨seg :: ks, by simp [routeAt, hc, h1], ⟨Or.inl rfl, h2⟩⟩
      · cases hc : n.children "*" with
        | none => simp [hc] at h
        | some c =>
          simp only [hc] at h
          obtain ⟨ks, h1, h2⟩ := (ih c).1 h
          exact ⟨"*" :: ks, by simp [routeAt, hc, h1], ⟨Or.inr rfl, h2⟩⟩
    · rintro ⟨ks, h1, h2⟩
      cases ks with
      | nil => exact Or.inl (Or.inl h1)
      | cons k ks =>
        obtain ⟨hk, h3⟩ := h2
        simp only [routeAt] at h1
        cases hc : n.children k with
        | none => simp [hc] at h1
        | some c =>
          simp only [hc] at h1
          have hm := (ih c).2 ⟨ks, h1, h3⟩
          rcases hk with hk | hk
          · subst hk
            exact Or.inl (Or.inr (by simpa [hc] using hm))
          · subst hk
            exact Or.inr (by simpa [hc] using hm)

theorem pickBest_mem (best : ServiceConfig) (rest : List ServiceConfig) :
    pickBest best rest ∈ best :: rest := by
  induction rest generalizing best with
  | nil => simp [pickBest]
  | cons c cs ih =>
    have h := ih (if c.Priority > best.Priority then c else best)
    simp only [pickBest, List.foldl_cons] at h ⊢
    rcases List.mem_cons.1 h with h | h
    · rw [h]
      split <;> simp
    · exact List.mem_cons_of_mem _ (List.mem_cons_of_mem _ h)

theorem pickBest_ge_init (best : ServiceConfig) (rest : List ServiceConfig) :
    best.Priority ≤ (pickBest best rest).Priority := by
  induction rest generalizing best with
  | nil => simp [pickBest]
  | cons c cs ih =>
    have h := ih (if c.Priority > best.Priority then c else best)
    simp only [pickBest, List.foldl_cons] at h ⊢
    refine le_trans ?_ h
    split <;> omega

theorem pickBest_ge (best : ServiceConfig) (rest : List ServiceConfig) :
    ∀ c ∈ best :: rest, c.Priority ≤ (pickBest best rest).Priority := by
  induction rest generalizing best with
  | nil => simp [pickBest]
  | cons c cs ih =>
    intro d hd
    have h := ih (if c.Priority > best.Priority then c else best)
    have h0 := pickBest_ge_init (if c.Priority > best.Priority then c else best) cs
    simp only [pickBest, List.foldl_cons] at h h0 ⊢
    rcases List.mem_cons.1 hd with hd | hd
    · subst hd
      refine le_trans ?_ h0
      split <;> omega
    · rcases List.mem_cons.1 hd with hd | hd
      · subst hd
        refine le_trans ?_ h0
        split <;> omega
      · exact h d (List.mem_cons_of_mem _ hd)

/-- The loop returns the first candidate of maximal priority. -/
theorem pickBest_first_max (pre post : List ServiceConfig) (best e : ServiceConfig)
    (hpre : ∀ c ∈ best :: pre, c.Priority < e.Priority)
    (hpost : ∀ c ∈ post, c.Priority ≤ e.Priority) :
    pickBest best (pre ++ e :: post) = e := by
  induction pre generalizing best with
  | nil =>
    have hb := hpre best (by simp)
    simp only [pickBest, List.nil_append, List.foldl_cons, gt_iff_lt, hb, if_true]
    clear hpre hb
    induction post with
    | nil => rfl
    | cons c cs ih =>
      have hc := hpost c (by simp)
      simp only [List.foldl_cons, gt_iff_lt, not_lt.2 hc, if_false]
      exact ih (fun d hd => hpost d (List.mem_cons_of_mem _ hd))
  | cons c cs ih =>
    simp only [pickBest, List.cons_append, List.foldl_cons]
    apply ih
    intro d hd
    rcases List.mem_cons.1 hd with hd | hd
    · subst hd
      split
      · exact hpre c (by simp)
      · exact hpre best (by simp)
    · exact hpre d (by simp [hd])

theorem pickBest_self_max (post : List ServiceConfig) (e : ServiceConfig)
    (hpost : ∀ c ∈ post, c.Priority ≤ e.Priority) :
    pickBest e post = e := by
  induction post with
  | nil => rfl
  | cons c cs ih =>
    have hc := hpost c (by simp)
    simp only [pickBest, List.foldl_cons, gt_iff_lt, not_lt.2 hc, if_false]
    exact ih (fun d hd => hpost d (List.mem_cons_of_mem _ hd))

theorem routeAt_AddRoute (r : PriorityRouter) (path : String) (svc : ServiceConfig)
    (ks : List String) :
    routeAt (r.AddRoute path svc).root ks =
      if ks = routeKeys path then some (storedRoute (path, svc)) else routeAt r.root ks := by
  simp only [PriorityRouter.AddRoute, routeAt_insert, routeKeys, storedRoute]

theorem Stored.mem {regs : List Registration} {reg : Registration} (h : Stored regs reg) :
    reg ∈ regs := by
  induction regs with
  | nil => exact absurd h (by simp [Stored])
  | cons x rest ih =>
    rcases h with ⟨h, _⟩ | h
    · simp [h]
    · exact List.mem_cons_of_mem _ (ih h)

theorem stored_of_pairwise {regs : List Registration} {reg : Registration}
    (hd : regs.Pairwise (fun a b => routeKeys a.1 ≠ routeKeys b.1)) (h : reg ∈ regs) :
    Stored regs reg := by
  induction regs with
  | nil => simp at h
  | cons x rest ih =>
    rw [List.pairwise_cons] at hd
    rcases List.mem_cons.1 h with h | h
    · subst h
      exact Or.inl ⟨rfl, fun q hq heq => hd.1 q hq heq.symm⟩
    · exact Or.inr (ih hd.2 h)

theorem routeAt_foldl (regs : List Registration) (r : PriorityRouter) (ks : List String)
    (s : ServiceConfig) :
    routeAt (regs.foldl (fun r reg => r.AddRoute reg.1 reg.2) r).root ks = some s ↔
      (∃ reg, Stored regs reg ∧ routeKeys reg.1 = ks ∧ s = storedRoute reg) ∨
      (routeAt r.root ks = some s ∧ ∀ reg ∈ regs, routeKeys reg.1 ≠ ks) := by
  induction regs generalizing r with
  | nil => simp [Stored]
  | cons x rest ih =>
    rw [List.foldl_cons, ih, routeAt_AddRoute]
    constructor
    · rintro (⟨reg, h1, h2, h3⟩ | ⟨h1, h2⟩)
      · exact Or.inl ⟨reg, Or.inr h1, h2, h3⟩
      · by_cases hk : ks = routeKeys x.1
        · rw [if_pos hk] at h1
          refine Or.inl ⟨x, Or.inl ⟨rfl, fun q hq => ?_⟩, hk.symm, ?_⟩
          · rw [← hk]
            exact h2 q hq
          · exact (Option.some.inj h1).symm
        · rw [if_neg hk] at h1
          refine Or.inr ⟨h1, fun reg hreg => ?_⟩
          rcases List.mem_cons.1 hreg with h | h
          · subst h
            exact fun h => hk h.symm
          · exact h2 reg h
    · rintro (⟨reg, h1, h2, h3⟩ | ⟨h1, h2⟩)
      · rcases h1 with ⟨hx, hl⟩ | h1
        · subst hx
          refine Or.inr ⟨?_, fun q hq => ?_⟩
          · rw [if_pos h2.symm, h3]
          · rw [← h2]
            exact hl q hq
        · exact Or.inl ⟨reg, h1, h2, h3⟩
      · have hk : ks ≠ routeKeys x.1 := fun h => h2 x (by simp) h.symm
        rw [if_neg hk]
        exact Or.inr ⟨h1, fun reg hreg => h2 reg (List.mem_cons_of_mem _ hreg)⟩

theorem routeAt_buildRouter (regs : List Registration) (ks : List String)
    (s : ServiceConfig) :
    routeAt (buildRouter regs).root ks = some s ↔
      ∃ reg, Stored regs reg ∧ routeKeys reg.1 = ks ∧ s = storedRoute reg := by
  unfold buildRouter
  rw [routeAt_foldl]
  simp [NewPriorityRouter, routeAt_empty]

theorem FindBestMatch_eq (r : PriorityRouter) (path : String) :
    r.FindBestMatch path =
      match candidatesOf r.root (SplitPath path) with
      | [] => none
      | c0 :: rest => some (pickBest c0 rest) := by
  simp [PriorityRouter.FindBestMatch, collectCandidates_eq]

/-- Candidates of the built router are exactly the stored routes that match. -/
theorem mem_candidates_buildRouter (regs : List Registration) (segs : List String)
    (s : ServiceConfig) :
    s ∈ candidatesOf (buildRouter regs).root segs ↔
      ∃ reg, Stored regs reg ∧ s = storedRoute reg ∧ RouteMatches (SplitPath reg.1) segs := by
  rw [mem_candidatesOf]
  constructor
  · rintro ⟨ks, h1, h2⟩
    obtain ⟨reg, hs, hk, he⟩ := (routeAt_buildRouter regs ks s).1 h1
    refine ⟨reg, hs, he, ?_⟩
    rw [← keyCompat_routeKeys]
    rw [← hk] at h2
    exact h2
  · rintro ⟨reg, hs, he, hm⟩
    refine ⟨routeKeys reg.1, (routeAt_buildRouter regs _ s).2 ⟨reg, hs, rfl, he⟩, ?_⟩
    exact (keyCompat_routeKeys _ _).2 hm

theorem candidatesOf_of_routeAt (n : RouteNode) (ks t : List String) (e : ServiceConfig)
    (h : routeAt n ks = some e) :
    ∃ pre post, candidatesOf n (ks ++ t) = pre ++ e :: post ∧
      ∀ c ∈ pre, ∃ ks2, ks2.length < ks.length ∧ routeAt n ks2 = some c := by
  induction ks generalizing n with
  | nil =>
    simp only [routeAt] at h
    refine ⟨[], ?_⟩
    cases t with
    | nil => exact ⟨[], by simp [candidatesOf, h], by simp⟩
    | cons x xs =>
      exact ⟨_, by simp only [candidatesOf, h, Option.toList, List.nil_append,
        List.singleton_append, List.cons_append, List.append_assoc]; rfl, by simp⟩
  | cons k ks ih =>
    simp only [routeAt] at h
    cases hc : n.children k with
    | none => simp [hc] at h
    | some c =>
      simp only [hc] at h
      obtain ⟨pre, post, h1, h2⟩ := ih c h
      refine ⟨n.service.toList ++ pre, post ++
        (match n.children "*" with
          | some child => candidatesOf child (ks ++ t)
          | none => []), ?_, ?_⟩
      · show candidatesOf n (k :: (ks ++ t)) = _
        simp only [candidatesOf, hc, h1, List.append_assoc, List.cons_append]
      · intro d hd
        rcases List.mem_append.1 hd with hd | hd
        · exact ⟨[], by simp, by simpa [routeAt] using hd⟩
        · obtain ⟨ks2, h3, h4⟩ := h2 d hd
          exact ⟨k :: ks2, by simpa using h3, by simp [routeAt, hc, h4]⟩

theorem literal_match_append (pat segs : List String)
    (hlit : ∀ s ∈ pat, isWildcardSegment s = false) (hm : RouteMatches pat segs) :
    ∃ t, segs = pat ++ t := by
  rw [← routeMatchesB_iff] at hm
  induction pat generalizing segs with
  | nil => exact ⟨segs, rfl⟩
  | cons s ps ih =>
    cases segs with
    | nil => simp [routeMatchesB] at hm
    | cons x xs =>
      simp only [routeMatchesB, Bool.and_eq_true, Bool.or_eq_true, decide_eq_true_eq] at hm
      obtain ⟨t, ht⟩ := ih xs (fun s hs => hlit s (List.mem_cons_of_mem _ hs)) hm.2
      have hs := hlit s (by simp)
      rcases hm.1 with h | h
      · rw [hs] at h
        exact absurd h (by simp)
      · exact ⟨t, by rw [h, ht]; rfl⟩

theorem routeKeys_literal (path : String)
    (hlit : ∀ s ∈ SplitPath path, isWildcardSegment s = false) :
    routeKeys path = SplitPath path := by
  unfold routeKeys
  conv_rhs => rw [← List.map_id (SplitPath path)]
  apply List.map_congr_left
  intro s hs
  simp [segmentKey, hlit s hs]

/-- C1: for a router built by `AddRoute` calls whose normalised patterns are
pairwise distinct, `FindBestMatch p` is `none` exactly when no registered route
matches `p`; otherwise it returns a registered route that matches `p`, whose
priority is its segment count and is at least the priority of every registered
route that matches `p`. -/
theorem FindBestMatch_spec (regs : List Registration) (p : String)
    (hd : regs.Pairwise (fun a b => routeKeys a.1 ≠ routeKeys b.1)) :
    ((buildRouter regs).FindBestMatch p = none ↔
        ∀ reg ∈ regs, ¬ RouteMatches (SplitPath reg.1) (SplitPath p)) ∧
    (∀ best, (buildRouter regs).FindBestMatch p = some best →
        (∃ reg ∈ regs, best = storedRoute reg ∧
          RouteMatches (SplitPath reg.1) (SplitPath p) ∧
          best.Priority = ((SplitPath reg.1).length : Int)) ∧
        (∀ reg ∈ regs, RouteMatches (SplitPath reg.1) (SplitPath p) →
          (storedRoute reg).Priority ≤ best.Priority)) := by
  have hmem := mem_candidates_buildRouter regs (SplitPath p)
  rw [FindBestMatch_eq]
  cases hc : candidatesOf (buildRouter regs).root (SplitPath p) with
  | nil =>
    rw [hc] at hmem
    refine ⟨⟨fun _ reg hreg hm => ?_, fun _ => rfl⟩, fun best hb => by simp at hb⟩
    have := (hmem (storedRoute reg)).2 ⟨reg, stored_of_pairwise hd hreg, rfl, hm⟩
    simp at this
  | cons c0 rest =>
    rw [hc] at hmem
    refine ⟨⟨fun h => by simp at h, fun h => ?_⟩, fun best hb => ?_⟩
    · obtain ⟨reg, hs, _, hm⟩ := (hmem c0).1 (by simp)
      exact absurd hm (h reg hs.mem)
    · have hb2 : pickBest c0 rest = best := by simpa using hb
      subst hb2
      constructor
      · obtain ⟨reg, hs, he, hm⟩ := (hmem _).1 (pickBest_mem c0 rest)
        exact ⟨reg, hs.mem, he, hm, by rw [he]; rfl⟩
      · intro reg hreg hm
        exact pickBest_ge c0 rest _
          ((hmem _).2 ⟨reg, stored_of_pairwise hd hreg, rfl, hm⟩)

/-- C2: if a stored route `E` whose pattern has only literal segments matches
`p`, and no stored route matching `p` has a higher priority, `FindBestMatch p`
returns `E`, whatever wildcard routes of the same depth match and wherever `E`
stands in the registration order. -/
theorem FindBestMatch_exact_beats_wildcard (regs : List Registration) (E : Registration)
    (p : String) (hE : Stored regs E)
    (hlit : ∀ s ∈ SplitPath E.1, isWildcardSegment s = false)
    (hm : RouteMatches (SplitPath E.1) (SplitPath p))
    (hmax : ∀ reg, Stored regs reg → RouteMatches (SplitPath reg.1) (SplitPath p) →
      (storedRoute reg).Priority ≤ (storedRoute E).Priority) :
    (buildRouter regs).FindBestMatch p = some (storedRoute E) := by
  have hmem := mem_candidates_buildRouter regs (SplitPath p)
  obtain ⟨t, ht⟩ := literal_match_append _ _ hlit hm
  have hat : routeAt (buildRouter regs).root (SplitPath E.1) = some (storedRoute E) := by
    rw [routeAt_buildRouter]
    exact ⟨E, hE, routeKeys_literal _ hlit, rfl⟩
  obtain ⟨pre, post, hcand, hpre⟩ := candidatesOf_of_routeAt _ _ t _ hat
  rw [← ht] at hcand
  have hlt : ∀ c ∈ pre, c.Priority < (storedRoute E).Priority := by
    intro c hc
    obtain ⟨ks2, hlen, hr⟩ := hpre c hc
    obtain ⟨reg, _, hk, he⟩ := (routeAt_buildRouter regs ks2 c).1 hr
    have hl : (SplitPath reg.1).length = ks2.length := by
      rw [← hk]
      simp [routeKeys]
    rw [he]
    show ((SplitPath reg.1).length : Int) < ((SplitPath E.1).length : Int)
    omega
  have hle : ∀ c ∈ post, c.Priority ≤ (storedRoute E).Priority := by
    intro c hc
    obtain ⟨reg, hs, he, hm2⟩ := (hmem c).1 (by rw [hcand]; simp [hc])
    rw [he]
    exact hmax reg hs hm2
  rw [FindBestMatch_eq, hcand]
  cases pre with
  | nil => simp [pickBest_self_max post _ hle]
  | cons b pre2 =>
    simp only [List.cons_append]
    rw [pickBest_first_max pre2 post b _ hlt hle]

theorem FindBestMatch_spec_witness :
    exampleRoutes.Pairwise (fun a b => routeKeys a.1 ≠ routeKeys b.1) ∧
    (buildRouter exampleRoutes).FindBestMatch "/api/users/42" =
      some ⟨"user-detail", "http://users:8080", [], 3, false⟩ ∧
    (buildRouter exampleRoutes).FindBestMatch "/api/widgets" =
      some ⟨"api", "http://api:8080", [], 2, false⟩ ∧
    (buildRouter exampleRoutes).FindBestMatch "/unregistered" = none ∧
    (∀ reg ∈ exampleRoutes,
      ¬ RouteMatches (SplitPath reg.1) (SplitPath "/unregistered")) ∧
    (∀ reg ∈ exampleRoutes, RouteMatches (SplitPath reg.1) (SplitPath "/api/users/42") →
      (storedRoute reg).Priority ≤ 3) :=
  ⟨by decide, by decide, by decide, by decide,
    (FindBestMatch_spec exampleRoutes "/unregistered" (by decide)).1.1 (by decide),
    ((FindBestMatch_spec exampleRoutes "/api/users/42" (by decide)).2
      ⟨"user-detail", "http://users:8080", [], 3, false⟩ (by decide)).2⟩

theorem FindBestMatch_exact_beats_wildcard_witness :
    (buildRouter [ordersRoute, apiWildcardRoute]).FindBestMatch "/api/orders" =
      some ⟨"orders", "http://orders:8080", [], 2, false⟩ ∧
    (buildRouter [apiWildcardRoute, ordersRoute]).FindBestMatch "/api/orders" =
      some ⟨"orders", "http://orders:8080", [], 2, false⟩ ∧
    RouteMatches (SplitPath apiWildcardRoute.1) (SplitPath "/api/orders") ∧
    (storedRoute apiWildcardRoute).Priority = (storedRoute ordersRoute).Priority :=
  ⟨FindBestMatch_exact_beats_wildcard [ordersRoute, apiWildcardRoute] ordersRoute "/api/orders"
      (Or.inl ⟨rfl, by decide⟩) (by decide) ((routeMatchesB_iff _ _).1 (by decide))
      (fun reg hs _ => by
        have h := hs.mem
        simp only [List.mem_cons, List.mem_singleton, List.not_mem_nil, or_false] at h
        rcases h with h | h <;> subst h <;> decide),
    FindBestMatch_exact_beats_wildcard [apiWildcardRoute, ordersRoute] ordersRoute "/api/orders"
      (Or.inr (Or.inl ⟨rfl, by decide⟩)) (by decide) ((routeMatchesB_iff _ _).1 (by decide))
      (fun reg hs _ => by
        have h := hs.mem
        simp only [List.mem_cons, List.mem_singleton, List.not_mem_nil, or_false] at h
        rcases h with h | h <;> subst h <;> decide),
    (routeMatchesB_iff _ _).1 (by decide), by decide⟩

theorem copyHeaders_eq (src dst : Header) : copyHeaders src dst = dst ++ src := by
  unfold copyHeaders
  induction src generalizing dst with
  | nil => simp
  | cons kv rest ih =>
    rw [List.foldl_cons, ih]
    simp [Header.Add]

theorem Header.Values_append (h1 h2 : Header) (k : String) :
    Header.Values (h1 ++ h2) k = Header.Values h1 k ++ Header.Values h2 k := by
  simp [Header.Values]

theorem Header.Values_Del_self (h : Header) (k : String) :
    Header.Values (Header.Del h k) k = [] := by
  simp [Header.Values, Header.Del, List.filter_filter]

theorem Header.Values_Del_other (h : Header) (k k2 : String) (hk : k2 ≠ k) :
    Header.Values (Header.Del h k) k2 = Header.Values h k2 := by
  simp only [Header.Values, Header.Del, List.filter_filter]
  congr 1
  apply List.filter_congr
  intro kv _
  by_cases h1 : kv.1 = k2
  · simp [h1, hk]
  · simp [h1]

theorem Header.Values_Set_self (h : Header) (k v : String) :
    Header.Values (Header.Set h k v) k = [v] := by
  unfold Header.Set
  rw [Header.Values_append, Header.Values_Del_self]
  simp [Header.Values]

theorem Header.Values_Set_other (h : Header) (k v k2 : String) (hk : k2 ≠ k) :
    Header.Values (Header.Set h k v) k2 = Header.Values h k2 := by
  unfold Header.Set
  rw [Header.Values_append, Header.Values_Del_other h k k2 hk]
  simp [Header.Values, Ne.symm hk]

theorem httpError_statusCode (h : Header) (error : String) (code : Int) :
    (httpError ⟨h, none, []⟩ error code).statusCode = some code := by
  simp [httpError, ResponseWriter.Write, ResponseWriter.WriteHeader]

theorem httpError_body (h : Header) (error : String) (code : Int) :
    (httpError ⟨h, none, []⟩ error code).body = utf8Bytes (error ++ "\n") := by
  simp [httpError, ResponseWriter.Write, ResponseWriter.WriteHeader]

theorem httpError_header (h : Header) (error : String) (code : Int) :
    (httpError ⟨h, none, []⟩ error code).header =
      Header.Set (Header.Set (Header.Del h "Content-Length") "Content-Type"
        "text/plain; charset=utf-8") "X-Content-Type-Options" "nosniff" := by
  simp [httpError, ResponseWriter.Write, ResponseWriter.WriteHeader]

/-- Authentication changes nothing of the request but its headers. -/
theorem authorizationMiddleware_ok (verifier : TokenVerifier) (cfg : config.Config)
    (r r2 : Request) (service : Option ServiceConfig)
    (h : authorizationMiddleware verifier r cfg service = .ok r2) :
    r2.Method = r.Method ∧ r2.URL = r.URL ∧ r2.Body = r.Body ∧
      r2.RemoteAddr = r.RemoteAddr := by
  unfold authorizationMiddleware at h
  cases service with
  | none => simp at h
  | some s =>
    simp only at h
    split at h
    · cases h
      exact ⟨rfl, rfl, rfl, rfl⟩
    · split at h
      · cases h
      · split at h
        · cases h
        · split at h
          · cases h
          · split at h
            · cases h
            · cases h
              exact ⟨rfl, rfl, rfl, rfl⟩

theorem ServeHTTP_admitted (p : ProxyHandler) (w : ResponseWriter) (r : Request)
    (hadm : (p.rateLimiter (GetClientIP r ++ ":" ++ r.URL.Path)).2 ≠ none ∨
      p.rateLimiter (GetClientIP r ++ ":" ++ r.URL.Path) = (true, none)) :
    (ServeHTTP p w r).1 = (forwardRequest p w r).1 ∧
    ∃ own, (ServeHTTP p w r).2 = own ++ (forwardRequest p w r).2 ∧
      ∀ e ∈ own, ∀ s, e ≠ Event.authorize s := by
  rcases hadm with h | h
  · cases hr : p.rateLimiter (GetClientIP r ++ ":" ++ r.URL.Path) with
    | mk a e =>
      rw [hr] at h
      cases e with
      | none => exact absurd rfl h
      | some e =>
        simp only [ServeHTTP, rateLimitMiddleware, hr]
        exact ⟨trivial, _, rfl, by simp⟩
  · simp only [ServeHTTP, rateLimitMiddleware, h, Bool.not_true, Bool.false_eq_true, if_false]
    exact ⟨trivial, _, rfl, by simp⟩

/-- C3: for a request the admission check lets through, the response is fixed
by the first failing stage: 404 when no route is found (and authentication is
not attempted); else 401 with the authenticator's error text when it fails
(whatever the method); else 405 when the method is not in the allow-list; else
500 when the target URL does not parse or the outbound request cannot be built;
else 502 when the forwarding call fails; else the backend's status code, all
values of every backend header, and the backend's body bytes. -/
theorem ServeHTTP_first_failing_stage (p : ProxyHandler) (h0 : Header) (r : Request)
    (hadm : (p.rateLimiter (GetClientIP r ++ ":" ++ r.URL.Path)).2 ≠ none ∨
      p.rateLimiter (GetClientIP r ++ ":" ++ r.URL.Path) = (true, none)) :
    (p.router.FindBestMatch r.URL.Path = none →
      (ServeHTTP p (.unwritten h0) r).1.statusCode = some 404 ∧
      ∀ s, Event.authorize s ∉ (ServeHTTP p (.unwritten h0) r).2) ∧
    (∀ service, p.router.FindBestMatch r.URL.Path = some service →
      (∀ err, authorizationMiddleware p.verifier r p.config (some service) = .error err →
        (ServeHTTP p (.unwritten h0) r).1.statusCode = some 401 ∧
        (ServeHTTP p (.unwritten h0) r).1.body = utf8Bytes (err ++ "\n")) ∧
      (∀ r2, authorizationMiddleware p.verifier r p.config (some service) = .ok r2 →
        (isMethodAllowed r.Method service.Methods = false →
          (ServeHTTP p (.unwritten h0) r).1.statusCode = some 405) ∧
        (isMethodAllowed r.Method service.Methods = true →
          (∀ err, p.httpClient.Parse service.Target = .error err →
            (ServeHTTP p (.unwritten h0) r).1.statusCode = some 500) ∧
          (∀ target, p.httpClient.Parse service.Target = .ok target →
            (∀ err, p.httpClient.NewRequestError r.Method
                { r.URL with Scheme := target.Scheme, Host := target.Host } = some err →
              (ServeHTTP p (.unwritten h0) r).1.statusCode = some 500) ∧
            (p.httpClient.NewRequestError r.Method
                { r.URL with Scheme := target.Scheme, Host := target.Host } = none →
              (∀ err, p.httpClient.Do
                  { Method := r.Method,
                    URL := { r.URL with Scheme := target.Scheme, Host := target.Host },
                    Header := copyHeaders r2.Header [], Body := r.Body } = .error err →
                (ServeHTTP p (.unwritten h0) r).1.statusCode = some 502) ∧
              (∀ resp, p.httpClient.Do
                  { Method := r.Method,
                    URL := { r.URL with Scheme := target.Scheme, Host := target.Host },
                    Header := copyHeaders r2.Header [], Body := r.Body } = .ok resp →
                (ServeHTTP p (.unwritten h0) r).1.statusCode = some resp.StatusCode ∧
                (∀ k, Header.Values (ServeHTTP p (.unwritten h0) r).1.header k =
                  Header.Values h0 k ++ Header.Values resp.Header k) ∧
                (ServeHTTP p (.unwritten h0) r).1.body = resp.Body)))))) := by
  obtain ⟨hresp, own, hev, hown⟩ := ServeHTTP_admitted p (.unwritten h0) r hadm
  rw [hresp, hev]
  clear hresp hev hadm
  refine ⟨fun hnone => ?_, fun service hsome => ⟨fun err herr => ?_, fun r2 hok => ?_⟩⟩
  · simp only [forwardRequest, hnone, httpNotFound, ResponseWriter.unwritten,
      httpError_statusCode, true_and]
    intro s hs
    rcases List.mem_append.1 hs with hs | hs
    · exact hown _ hs s rfl
    · simp at hs
  · simp only [forwardRequest, hsome, herr, ResponseWriter.unwritten,
      httpError_statusCode, httpError_body, and_self]
  · obtain ⟨hm, hu, hb, _⟩ := authorizationMiddleware_ok _ _ r r2 _ hok
    refine ⟨fun hna => ?_, fun ha => ⟨fun err herr => ?_, fun target htarget =>
      ⟨fun err herr => ?_, fun hnew => ⟨fun err herr => ?_, fun resp hdo => ?_⟩⟩⟩⟩
    · simp only [forwardRequest, hsome, hok, hm, hna, ResponseWriter.unwritten,
        httpError_statusCode, Bool.not_false, if_true]
    · simp only [forwardRequest, hsome, hok, hm, ha, herr, ResponseWriter.unwritten,
        httpError_statusCode, Bool.not_true, Bool.false_eq_true, if_false]
    · simp only [forwardRequest, hsome, hok, hm, hu, ha, htarget, herr,
        ResponseWriter.unwritten, httpError_statusCode, Bool.not_true, Bool.false_eq_true,
        if_false]
    · simp only [forwardRequest, hsome, hok, hm, hu, hb, ha, htarget, hnew, herr,
        ResponseWriter.unwritten, httpError_statusCode, Bool.not_true, Bool.false_eq_true,
        if_false]
    · simp only [forwardRequest, hsome, hok, hm, hu, hb, ha, htarget, hnew, hdo,
        ResponseWriter.unwritten, Bool.not_true, Bool.false_eq_true, if_false,
        ResponseWriter.Write, ResponseWriter.WriteHeader]
      simp only [copyHeaders_eq, Header.Values_append, List.nil_append, true_and,
        implies_true]

/-- The stages after admission do not consult the rate limiter. -/
theorem forwardRequest_rateLimiter (p : ProxyHandler) (f : String → AllowResult) :
    forwardRequest { p with rateLimiter := f } = forwardRequest p := by
  funext w r
  unfold forwardRequest
  rfl

/-- C4: when `Allow` returns an error, whatever the boolean, the middleware
calls the next handler exactly once and answers with exactly its response, the
same response as when `Allow` returns `(true, nil)`; the rate-limit rejection is
not produced. -/
theorem rateLimitMiddleware_fails_open (p : ProxyHandler) (next : Handler)
    (w : ResponseWriter) (r : Request) (allowed : Bool) (err : String)
    (h : p.rateLimiter (GetClientIP r ++ ":" ++ r.URL.Path) = (allowed, some err)) :
    (rateLimitMiddleware p next w r).1 = (next w r).1 ∧
    (∃ own, (rateLimitMiddleware p next w r).2 = own ++ (next w r).2 ∧
      own.count Event.callNext = 1 ∧ Event.logError "Rate limit exceeded" ∉ own) ∧
    (∀ p2 : ProxyHandler,
      p2.rateLimiter (GetClientIP r ++ ":" ++ r.URL.Path) = (true, none) →
      (rateLimitMiddleware p2 next w r).1 = (rateLimitMiddleware p next w r).1) ∧
    (ServeHTTP p w r).1 = (forwardRequest p w r).1 ∧
    (ServeHTTP p w r).1 =
      (ServeHTTP { p with rateLimiter := fun _ => (true, none) } w r).1 := by
  refine ⟨?_, ⟨[.allow (GetClientIP r ++ ":" ++ r.URL.Path),
    .logError "Rate limiter error", .callNext], ?_, by simp, by simp⟩, ?_, ?_, ?_⟩
  · simp only [rateLimitMiddleware, h]
  · simp only [rateLimitMiddleware, h, List.append_assoc, List.cons_append, List.nil_append]
  · intro p2 h2
    simp only [rateLimitMiddleware, h, h2, Bool.not_true, Bool.false_eq_true, if_false]
  · simp only [ServeHTTP, rateLimitMiddleware, h]
  · simp only [ServeHTTP, rateLimitMiddleware, h, Bool.not_true, Bool.false_eq_true, if_false]
    have hf := forwardRequest_rateLimiter p (fun _ => (true, none))
    exact congrArg Prod.fst (congrFun (congrFun hf w) r).symm

/-- C5: when `Allow` returns `(false, nil)` the response has status 429 with
`X-RateLimit-Limit: Exceeded` and `Retry-After: 1`, and the next handler is not
invoked: the outcome is the same for every next handler and records no route
lookup, authentication, method check or forwarding. -/
theorem rateLimitMiddleware_denied (p : ProxyHandler) (next : Handler) (h0 : Header)
    (r : Request)
    (h : p.rateLimiter (GetClientIP r ++ ":" ++ r.URL.Path) = (false, none)) :
    (rateLimitMiddleware p next (.unwritten h0) r).1.statusCode = some 429 ∧
    Header.Values (rateLimitMiddleware p next (.unwritten h0) r).1.header
      "X-RateLimit-Limit" = ["Exceeded"] ∧
    Header.Values (rateLimitMiddleware p next (.unwritten h0) r).1.header
      "Retry-After" = ["1"] ∧
    (rateLimitMiddleware p next (.unwritten h0) r).2 =
      [.allow (GetClientIP r ++ ":" ++ r.URL.Path), .logError "Rate limit exceeded"] ∧
    (∀ next2 : Handler, rateLimitMiddleware p next2 (.unwritten h0) r =
      rateLimitMiddleware p next (.unwritten h0) r) ∧
    (ServeHTTP p (.unwritten h0) r).1.statusCode = some 429 ∧
    (ServeHTTP p (.unwritten h0) r).2 =
      [.allow (GetClientIP r ++ ":" ++ r.URL.Path), .logError "Rate limit exceeded"] := by
  have hne1 : "X-RateLimit-Limit" ≠ "X-Content-Type-Options" := by decide
  have hne2 : "X-RateLimit-Limit" ≠ "Content-Type" := by decide
  have hne3 : "X-RateLimit-Limit" ≠ "Content-Length" := by decide
  have hne4 : "X-RateLimit-Limit" ≠ "Retry-After" := by decide
  have hne5 : "Retry-After" ≠ "X-Content-Type-Options" := by decide
  have hne6 : "Retry-After" ≠ "Content-Type" := by decide
  have hne7 : "Retry-After" ≠ "Content-Length" := by decide
  have key : ∀ next2 : Handler, rateLimitMiddleware p next2 (.unwritten h0) r =
      (httpError ⟨Header.Set (Header.Set h0 "X-RateLimit-Limit" "Exceeded")
        "Retry-After" "1", none, []⟩ "Rate limit exceeded" 429,
       [.allow (GetClientIP r ++ ":" ++ r.URL.Path), .logError "Rate limit exceeded"]) := by
    intro next2
    simp only [rateLimitMiddleware, h, ResponseWriter.unwritten, Bool.not_false, if_true,
      List.singleton_append]
  unfold ServeHTTP
  simp only [key]
  refine ⟨httpError_statusCode _ _ _, ?_, ?_, trivial, fun _ => trivial,
    httpError_statusCode _ _ _, trivial⟩
  · rw [httpError_header, Header.Values_Set_other _ _ _ _ hne1,
      Header.Values_Set_other _ _ _ _ hne2, Header.Values_Del_other _ _ _ hne3,
      Header.Values_Set_other _ _ _ _ hne4, Header.Values_Set_self]
  · rw [httpError_header, Header.Values_Set_other _ _ _ _ hne5,
      Header.Values_Set_other _ _ _ _ hne6, Header.Values_Del_other _ _ _ hne7,
      Header.Values_Set_self]

theorem ServeHTTP_first_failing_stage_witness :
    isMethodAllowed examplePost.Method ["GET"] = false ∧
    (ServeHTTP (exampleProxy (true, none)) (.unwritten []) examplePost).1.statusCode =
      some 401 ∧
    (ServeHTTP (exampleProxy (true, none)) (.unwritten []) examplePost).1.body =
      utf8Bytes ("authorization header is required" ++ "\n") ∧
    (ServeHTTP (exampleProxy (true, none)) (.unwritten []) exampleUnregistered).1.statusCode =
      some 404 ∧
    (ServeHTTP (exampleProxy (true, none)) (.unwritten []) exampleGet).1 =
      ⟨[("X-Custom", "v")], some 201, utf8Bytes "\x7b\"ok\":true\x7d"⟩ :=
  ⟨by decide,
   (((ServeHTTP_first_failing_stage (exampleProxy (true, none)) [] examplePost
      (Or.inr rfl)).2 ⟨"users", "http://users:8080", ["GET"], 2, false⟩ (by decide)).1
      "authorization header is required" rfl).1,
   (((ServeHTTP_first_failing_stage (exampleProxy (true, none)) [] examplePost
      (Or.inr rfl)).2 ⟨"users", "http://users:8080", ["GET"], 2, false⟩ (by decide)).1
      "authorization header is required" rfl).2,
   ((ServeHTTP_first_failing_stage (exampleProxy (true, none)) [] exampleUnregistered
      (Or.inr rfl)).1 (by decide)).1,
   by decide⟩

theorem rateLimitMiddleware_fails_open_witness :
    (exampleProxy (false, some "redis pipeline exec failed")).rateLimiter
      (GetClientIP exampleGet ++ ":" ++ exampleGet.URL.Path) =
      (false, some "redis pipeline exec failed") ∧
    (ServeHTTP (exampleProxy (false, some "redis pipeline exec failed"))
      (.unwritten []) exampleGet).1 =
      ⟨[("X-Custom", "v")], some 201, utf8Bytes "\x7b\"ok\":true\x7d"⟩ ∧
    (ServeHTTP (exampleProxy (false, some "redis pipeline exec failed"))
      (.unwritten []) exampleGet).1 =
      (forwardRequest (exampleProxy (false, some "redis pipeline exec failed"))
        (.unwritten []) exampleGet).1 :=
  ⟨rfl, by decide,
   (rateLimitMiddleware_fails_open (exampleProxy (false, some "redis pipeline exec failed"))
      (forwardRequest (exampleProxy (false, some "redis pipeline exec failed")))
      (.unwritten []) exampleGet false "redis pipeline exec failed" rfl).2.2.2.1⟩

theorem rateLimitMiddleware_denied_witness :
    (exampleProxy (false, none)).rateLimiter
      (GetClientIP exampleGet ++ ":" ++ exampleGet.URL.Path) = (false, none) ∧
    (ServeHTTP (exampleProxy (false, none)) (.unwritten []) exampleGet).1.statusCode =
      some 429 ∧
    (ServeHTTP (exampleProxy (false, none)) (.unwritten []) exampleGet).2 =
      [.allow "10.0.0.1:/api/users", .logError "Rate limit exceeded"] :=
  ⟨rfl,
   (rateLimitMiddleware_denied (exampleProxy (false, none))
      (forwardRequest (exampleProxy (false, none))) [] exampleGet rfl).2.2.2.2.2.1,
   by decide⟩

theorem Seconds_eq (d : Int) : Seconds d = (d : ℚ) / 1000000000 := by
  unfold Seconds
  have h := Int.tdiv_add_tmod d 1000000000
  have h2 : (d : ℚ) = 1000000000 * ((d.tdiv 1000000000 : Int) : ℚ) +
      ((d.tmod 1000000000 : Int) : ℚ) := by
    exact_mod_cast h.symm
  rw [h2]
  field_simp
  ring

/-- In exact arithmetic `TokenBucketLimiter.Allow` on a non-empty key is the
reference step: its decision is the step's decision with no error, the bucket
stored for the key is the step's bucket, and every other bucket and the
configuration are left as they were. -/
theorem Allow_exact_eq_referenceStep (l : TokenBucketLimiter) (now : Int)
    (key : String) (hkey : key ≠ "") :
    (l.Allow now key).1 = ((referenceStep l.capacity l.rate (l.buckets key) now).1, none) ∧
    (l.Allow now key).2.buckets key =
      some (referenceStep l.capacity l.rate (l.buckets key) now).2 ∧
    (∀ k, k ≠ key → (l.Allow now key).2.buckets k = l.buckets k) ∧
    (l.Allow now key).2.rate = l.rate ∧ (l.Allow now key).2.capacity = l.capacity ∧
    (l.Allow now key).2.cleanupTTL = l.cleanupTTL := by
  unfold TokenBucketLimiter.Allow referenceStep
  rw [if_neg hkey]
  cases hb : l.buckets key with
  | none =>
    simp only [TokenBucketLimiter.setBucket, if_true, true_and]
    exact ⟨fun k hk => by simp [hk], trivial⟩
  | some b =>
    simp only [Seconds_eq]
    split
    · simp only [TokenBucketLimiter.setBucket, if_true, true_and]
      exact ⟨fun k hk => by simp [hk], trivial⟩
    · simp only [TokenBucketLimiter.setBucket, if_true, true_and]
      exact ⟨fun k hk => by simp [hk], trivial⟩

theorem Allow_exact_eq_referenceStep_example :
    "client" ≠ "" ∧
    ((NewTokenBucketLimiter 1 5).Allow 0 "client").1 = (true, none) ∧
    ((NewTokenBucketLimiter 1 5).Allow 0 "client").2.buckets "client" = some ⟨4, 0⟩ :=
  ⟨by decide,
   (Allow_exact_eq_referenceStep (NewTokenBucketLimiter 1 5) 0 "client" (by decide)).1.trans
     (by simp [referenceStep, NewTokenBucketLimiter]),
   (Allow_exact_eq_referenceStep (NewTokenBucketLimiter 1 5) 0 "client" (by decide)).2.1.trans
     (by norm_num [referenceStep, NewTokenBucketLimiter])⟩

theorem setBucket_buckets_self (l : TokenBucketLimiter) (key : String) (b : tokenBucket) :
    (l.setBucket key b).buckets key = some b := by
  simp [TokenBucketLimiter.setBucket]

/-- A call on a key whose bucket was last refilled at the same instant. -/
theorem Allow_same_instant (l : TokenBucketLimiter) (now : Int) (key : String) (t : ℚ)
    (hkey : key ≠ "") (hb : l.buckets key = some ⟨t, now⟩) (ht : t ≤ (l.capacity : ℚ)) :
    l.Allow now key =
      if 1 ≤ t then ((true, none), l.setBucket key ⟨t - 1, now⟩)
      else ((false, none), l.setBucket key ⟨t, now⟩) := by
  unfold TokenBucketLimiter.Allow
  rw [if_neg hkey, hb]
  simp only [Seconds_eq, sub_self, Int.cast_zero, zero_div, zero_mul, add_zero,
    min_eq_right ht, ge_iff_le]

theorem allowAt_drained (l : TokenBucketLimiter) (now : Int) (key : String) (t : ℚ)
    (hkey : key ≠ "") (hb : l.buckets key = some ⟨t, now⟩) (ht : t ≤ (l.capacity : ℚ))
    (h1 : t < 1) (n : Nat) :
    (l.allowAt key (List.replicate n now)).1 = List.replicate n false := by
  induction n generalizing l with
  | zero => rfl
  | succ n ih =>
    have hstep := Allow_same_instant l now key t hkey hb ht
    rw [if_neg (not_le.2 h1)] at hstep
    simp only [List.replicate_succ, TokenBucketLimiter.allowAt, hstep, List.cons.injEq,
      true_and]
    exact ih _ (setBucket_buckets_self _ _ _) ht

theorem allowAt_append (l : TokenBucketLimiter) (key : String) (a b : List Int) :
    (l.allowAt key (a ++ b)).1 = (l.allowAt key a).1 ++ ((l.allowAt key a).2.allowAt key b).1 := by
  induction a generalizing l with
  | nil => rfl
  | cons x xs ih => simp [TokenBucketLimiter.allowAt, ih]

/-- The first six calls of the burst: five allowed, one denied, bucket empty. -/
theorem allowAt_burst (l : TokenBucketLimiter) (key : String) (t0 : Int)
    (hkey : key ≠ "") (hc : l.capacity = 5) (hb : l.buckets key = none) :
    (l.allowAt key (List.replicate 6 t0)).1 = [true, true, true, true, true, false] ∧
    (l.allowAt key (List.replicate 6 t0)).2.buckets key = some ⟨0, t0⟩ ∧
    (l.allowAt key (List.replicate 6 t0)).2.capacity = 5 ∧
    (l.allowAt key (List.replicate 6 t0)).2.rate = l.rate := by
  have h1 : l.Allow t0 key = ((true, none), l.setBucket key ⟨4, t0⟩) := by
    unfold TokenBucketLimiter.Allow
    rw [if_neg hkey, hb, hc]
    norm_num
  have step : ∀ (l2 : TokenBucketLimiter) (t : ℚ), l2.capacity = 5 → 1 ≤ t → t ≤ 5 →
      l2.buckets key = some ⟨t, t0⟩ →
      l2.Allow t0 key = ((true, none), l2.setBucket key ⟨t - 1, t0⟩) := by
    intro l2 t hc2 ht1 ht5 hb2
    rw [Allow_same_instant l2 t0 key t hkey hb2 (by rw [hc2]; exact_mod_cast ht5), if_pos ht1]
  have h2 := step (l.setBucket key ⟨4, t0⟩) 4 hc (by norm_num) (by norm_num)
    (setBucket_buckets_self _ _ _)
  have h3 := step ((l.setBucket key ⟨4, t0⟩).setBucket key ⟨4 - 1, t0⟩) (4 - 1) hc
    (by norm_num) (by norm_num) (setBucket_buckets_self _ _ _)
  have h4 := step (((l.setBucket key ⟨4, t0⟩).setBucket key ⟨4 - 1, t0⟩).setBucket key
    ⟨4 - 1 - 1, t0⟩) (4 - 1 - 1) hc (by norm_num) (by norm_num) (setBucket_buckets_self _ _ _)
  have h5 := step ((((l.setBucket key ⟨4, t0⟩).setBucket key ⟨4 - 1, t0⟩).setBucket key
    ⟨4 - 1 - 1, t0⟩).setBucket key ⟨4 - 1 - 1 - 1, t0⟩) (4 - 1 - 1 - 1) hc
    (by norm_num) (by norm_num) (setBucket_buckets_self _ _ _)
  have h6 := Allow_same_instant (((((l.setBucket key ⟨4, t0⟩).setBucket key
    ⟨4 - 1, t0⟩).setBucket key ⟨4 - 1 - 1, t0⟩).setBucket key
    ⟨4 - 1 - 1 - 1, t0⟩).setBucket key ⟨4 - 1 - 1 - 1 - 1, t0⟩) t0 key (4 - 1 - 1 - 1 - 1)
    hkey (setBucket_buckets_self _ _ _) (by
      show (4 - 1 - 1 - 1 - 1 : ℚ) ≤ ((l.capacity : Int) : ℚ)
      rw [hc]; norm_num)
  rw [if_neg (by norm_num)] at h6
  simp only [List.replicate, TokenBucketLimiter.allowAt, h1, h2, h3, h4, h5, h6, true_and]
  refine ⟨?_, hc, rfl⟩
  rw [setBucket_buckets_self]
  norm_num

/-- The call made `d` nanoseconds after the bucket was emptied. -/
theorem Allow_after_wait (l : TokenBucketLimiter) (key : String) (t0 d : Int)
    (hkey : key ≠ "") (hc : l.capacity = 5) (hr : l.rate = 1)
    (hb : l.buckets key = some ⟨0, t0⟩) (hd1 : 1000000000 ≤ d) (hd5 : d ≤ 5000000000) :
    l.Allow (t0 + d) key =
      ((true, none), l.setBucket key ⟨(d : ℚ) / 1000000000 - 1, t0 + d⟩) := by
  unfold TokenBucketLimiter.Allow
  rw [if_neg hkey, hb]
  have e1 : (1000000000 : ℚ) ≤ (d : ℚ) := by exact_mod_cast hd1
  have e5 : (d : ℚ) ≤ 5000000000 := by exact_mod_cast hd5
  have hlevel : min ((l.capacity : Int) : ℚ)
      ((0 : ℚ) + Seconds (t0 + d - t0) * l.rate) = (d : ℚ) / 1000000000 := by
    rw [hc, hr, Seconds_eq, add_sub_cancel_left, zero_add, mul_one]
    apply min_eq_right
    rw [div_le_iff₀ (by norm_num)]
    norm_num
    linarith
  simp only [hlevel]
  rw [if_pos]
  rw [ge_iff_le, le_div_iff₀ (by norm_num)]
  linarith

/-- C7, as amended: with capacity 5 and rate 1 token/s on a new key, five calls
at one instant are allowed and the sixth is denied; after a wait of at least
1 s and less than 2 s exactly one more call is allowed, and every further call
at that instant is denied. -/
theorem TokenBucketLimiter.burst_then_one_more (l : TokenBucketLimiter) (key : String)
    (t0 d : Int) (n : Nat) (hkey : key ≠ "") (hc : l.capacity = 5) (hr : l.rate = 1)
    (hb : l.buckets key = none) (hd1 : 1000000000 ≤ d) (hd2 : d < 2000000000) :
    (l.allowAt key (List.replicate 6 t0 ++ (t0 + d) :: List.replicate n (t0 + d))).1 =
      [true, true, true, true, true, false, true] ++ List.replicate n false := by
  obtain ⟨h1, h2, h3, h4⟩ := allowAt_burst l key t0 hkey hc hb
  rw [allowAt_append, h1]
  have hstep := Allow_after_wait (l.allowAt key (List.replicate 6 t0)).2 key t0 d hkey h3
    (h4.trans hr) h2 hd1 (by omega)
  have e1 : (1000000000 : ℚ) ≤ (d : ℚ) := by exact_mod_cast hd1
  have e2 : (d : ℚ) < 2000000000 := by exact_mod_cast hd2
  have hlt : (d : ℚ) / 1000000000 - 1 < 1 := by
    rw [sub_lt_iff_lt_add, div_lt_iff₀ (by norm_num)]
    linarith
  have hrest := allowAt_drained
    ((l.allowAt key (List.replicate 6 t0)).2.setBucket key
      ⟨(d : ℚ) / 1000000000 - 1, t0 + d⟩) (t0 + d) key _ hkey
    (setBucket_buckets_self _ _ _)
    (by
      show (d : ℚ) / 1000000000 - 1 ≤ (((l.allowAt key (List.replicate 6 t0)).2.capacity : Int) : ℚ)
      rw [h3]
      push_cast
      linarith) hlt n
  generalize (l.allowAt key (List.replicate 6 t0)).2 = l6 at hstep hrest ⊢
  simp only [TokenBucketLimiter.allowAt, hstep, hrest]
  rfl

theorem TokenBucketLimiter.burst_then_one_more_witness :
    ((NewTokenBucketLimiter 1 5).allowAt "client"
      [0, 0, 0, 0, 0, 0, 1500000000, 1500000000, 1500000000]).1 =
      [true, true, true, true, true, false, true, false, false] :=
  (NewTokenBucketLimiter 1 5).burst_then_one_more "client" 0 1500000000 2 (by decide) rfl
    (by simp [NewTokenBucketLimiter]) rfl (by decide) (by decide)

/-- C7 as stated fails: after a wait of 2 s (a duration of at least 1 s) two
more calls are allowed, not exactly one. -/
theorem TokenBucketLimiter.two_more_after_two_seconds :
    ((NewTokenBucketLimiter 1 5).allowAt "client"
      [0, 0, 0, 0, 0, 0, 2000000000, 2000000000]).1 =
      [true, true, true, true, true, false, true, true] := by
  obtain ⟨h1, h2, h3, h4⟩ := allowAt_burst (NewTokenBucketLimiter 1 5) "client" 0
    (by decide) rfl rfl
  have hr : (NewTokenBucketLimiter 1 5).rate = 1 := by simp [NewTokenBucketLimiter]
  have hstep := Allow_after_wait
    ((NewTokenBucketLimiter 1 5).allowAt "client" (List.replicate 6 0)).2 "client" 0
    2000000000 (by decide) h3 (h4.trans hr) h2 (by decide) (by decide)
  have hlast := Allow_same_instant
    (((NewTokenBucketLimiter 1 5).allowAt "client" (List.replicate 6 0)).2.setBucket "client"
      ⟨((2000000000 : Int) : ℚ) / 1000000000 - 1, 0 + 2000000000⟩) (0 + 2000000000) "client"
    _ (by decide) (setBucket_buckets_self _ _ _)
    (by
      show ((2000000000 : Int) : ℚ) / 1000000000 - 1 ≤
        ((((NewTokenBucketLimiter 1 5).allowAt "client" (List.replicate 6 0)).2.capacity : Int) : ℚ)
      rw [h3]
      norm_num)
  rw [if_pos (by norm_num)] at hlast
  have hsplit : ([0, 0, 0, 0, 0, 0, 2000000000, 2000000000] : List Int) =
      List.replicate 6 0 ++ [0 + 2000000000, 0 + 2000000000] := by decide
  rw [hsplit, allowAt_append, h1]
  generalize ((NewTokenBucketLimiter 1 5).allowAt "client" (List.replicate 6 0)).2 = l6
    at hstep hlast ⊢
  simp only [TokenBucketLimiter.allowAt, hstep, hlast]
  rfl

/-- No deadline of the value has passed at clock `now`. -/
theorem liveAt_expireAt (v : StoreValue) (now d : Int)
    (h : (v.liveAt now).expireAt = some d) : now * 1000000 < d ∧ v.expireAt = some d := by
  unfold StoreValue.liveAt at h
  cases hv : v.expireAt with
  | none => simp [hv] at h
  | some d2 =>
    simp only [hv] at h
    split at h
    · simp at h
    · rw [hv] at h
      cases h
      exact ⟨by omega, rfl⟩

theorem liveAt_of_fresh (v : StoreValue) (now : Int)
    (h : ∀ d, v.expireAt = some d → now * 1000000 < d) : v.liveAt now = v := by
  unfold StoreValue.liveAt
  cases hv : v.expireAt with
  | none => rfl
  | some d =>
    have := h d hv
    simp only
    rw [if_neg (by omega)]

theorem liveAt_with_zset (v : StoreValue) (now : Int) (z : List (Member × Int)) :
    StoreValue.liveAt ⟨z, (v.liveAt now).expireAt⟩ now = ⟨z, (v.liveAt now).expireAt⟩ :=
  liveAt_of_fresh _ _ (fun d hd => (liveAt_expireAt v now d hd).1)

theorem liveAt_zset_mem (v : StoreValue) (now : Int) (e : Member × Int)
    (h : e ∈ (v.liveAt now).zset) : e ∈ v.zset := by
  unfold StoreValue.liveAt at h
  cases hv : v.expireAt with
  | none => simpa [hv] using h
  | some d =>
    simp only [hv] at h
    split at h
    · simp at h
    · exact h

theorem Store.put_put (s : Store) (key : String) (a b : StoreValue) :
    (s.put key a).put key b = s.put key b := by
  funext k
  unfold Store.put
  split <;> rfl

theorem Store.put_self (s : Store) (key : String) (a : StoreValue) :
    (s.put key a) key = a := by
  simp [Store.put]

theorem Store.put_other (s : Store) (key k : String) (a : StoreValue) (h : k ≠ key) :
    (s.put key a) k = s k := by
  simp [Store.put, h]

theorem Allow_up (l : RedisSlidingWindowLimiter) (store : Store) (now nano : Int)
    (key : String) (hkey : key ≠ "") :
    (l.Allow store now nano .up key).result =
      (decide ((batchCount l (store (l.redisKey key)) now nano : Int) ≤ l.limit), none) ∧
    (l.Allow store now nano .up key).limiter =
      { l with counter := (l.counter + 1) % 2 ^ 64 } ∧
    (l.Allow store now nano .up key).store =
      store.put (l.redisKey key) (batchValue l (store (l.redisKey key)) now nano) := by
  unfold RedisSlidingWindowLimiter.Allow
  rw [if_neg hkey]
  simp only [RedisSlidingWindowLimiter.batch, Store.execAll, Store.exec, Store.live,
    Store.put_self, Store.put_put, liveAt_with_zset, List.getD_cons_succ, List.getD_cons_zero,
    batchCount, batchValue, true_and]
  by_cases hk : List.filter (fun e => decide (now - l.windowMillis < e.2))
      (zadd ((store (l.redisKey key)).liveAt now).zset now
        { now := now, nanos := nano.tmod 1000000, counter := (l.counter + 1) % 2 ^ 64 }) = []
  · have hnil : StoreValue.liveAt ⟨[], none⟩ now = ⟨[], none⟩ := rfl
    simp only [hk, if_true, hnil, List.length_nil, and_self]
  · simp only [hk, if_false, liveAt_with_zset, true_and]
    split <;> rfl

theorem windowMillis_bounds (l : RedisSlidingWindowLimiter) :
    l.window - 999999 ≤ l.windowMillis * 1000000 ∧
    l.windowMillis * 1000000 ≤ l.window + 999999 := by
  unfold RedisSlidingWindowLimiter.windowMillis
  rcases le_or_lt 0 l.window with h | h
  · rw [Int.tdiv_eq_ediv h (by decide)]
    omega
  · have h2 : l.window.tdiv 1000000 = -((-l.window) / 1000000) := by
      rw [← Int.tdiv_eq_ediv (by omega) (by decide), Int.neg_tdiv, neg_neg]
    rw [h2]
    omega

/-- The whole seconds sent for a duration: none for a non-positive duration,
else at least one, more than the duration less a second and, from one second
on, no more than the duration. -/
theorem formatSec_bounds (d : Int) :
    (formatSec d ≤ 0 ↔ d ≤ 0) ∧
    (0 < d → 1 ≤ formatSec d ∧ d - 1000000000 < formatSec d * 1000000000) ∧
    (1000000000 ≤ d → formatSec d * 1000000000 ≤ d) := by
  unfold formatSec
  by_cases h : 0 < d ∧ d < 1000000000
  · rw [if_pos h]
    omega
  · rw [if_neg h]
    rcases le_or_lt 0 d with h0 | h0
    · rw [Int.tdiv_eq_ediv h0 (by decide)]
      omega
    · have h2 : d.tdiv 1000000000 = -((-d) / 1000000000) := by
        rw [← Int.tdiv_eq_ediv (by omega) (by decide), Int.neg_tdiv, neg_neg]
      rw [h2]
      omega

/-- Distinct keys have distinct store keys. -/
theorem redisKey_injective (l : RedisSlidingWindowLimiter) (k1 k2 : String)
    (h : l.redisKey k1 = l.redisKey k2) : k1 = k2 := by
  unfold RedisSlidingWindowLimiter.redisKey at h
  have := congrArg String.data h
  simp only [String.data_append] at this
  exact String.ext (List.append_cancel_left this)

theorem zadd_new (z : List (Member × Int)) (score : Int) (member : Member)
    (h : ∀ e ∈ z, e.1 ≠ member) : zadd z score member = z ++ [(member, score)] := by
  unfold zadd
  rw [if_neg]
  simp only [List.any_eq_true, decide_eq_true_eq, not_exists, not_and]
  exact h

theorem scoredInWindow_append (W : Int) (a b : List (Member × Int)) (t : Int) :
    scoredInWindow W (a ++ b) t = scoredInWindow W a t + scoredInWindow W b t := by
  simp [scoredInWindow]

theorem countInWindow_append (W : Int) (a b : List Call) (key : String) (t : Int) :
    countInWindow W (a ++ b) key t = countInWindow W a key t + countInWindow W b key t := by
  simp [countInWindow]

theorem scoredInWindow_eq_zero (W : Int) (z : List (Member × Int)) (t : Int)
    (h : ∀ e ∈ z, e.2 ≤ t - W) : scoredInWindow W z t = 0 := by
  unfold scoredInWindow
  rw [List.length_eq_zero, List.filter_eq_nil_iff]
  intro e he
  have := h e he
  simp only [decide_eq_true_eq]
  omega

theorem countInWindow_eq_zero (W : Int) (calls : List Call) (key : String) (t : Int)
    (h : ∀ d ∈ calls, d.key = key → d.now ≤ t - W) : countInWindow W calls key t = 0 := by
  unfold countInWindow
  rw [List.length_eq_zero, List.filter_eq_nil_iff]
  intro d hd
  simp only [Bool.and_eq_true, decide_eq_true_eq, not_and]
  intro hk
  have := h d hd hk
  omega

/-- Filtering by a later window after filtering by an earlier one. -/
theorem scoredInWindow_filter (W : Int) (z : List (Member × Int)) (now t : Int)
    (h : now ≤ t) :
    scoredInWindow W (z.filter (fun e => decide (now - W < e.2))) t = scoredInWindow W z t := by
  unfold scoredInWindow
  rw [List.filter_filter]
  congr 1
  apply List.filter_congr
  intro e _
  by_cases h1 : t - W < e.2
  · have h2 : now - W < e.2 := by omega
    simp [h1, h2]
  · simp [h1]

/-- The live part of a key holds what the window counts. -/
theorem scoredInWindow_liveAt (l0 : RedisSlidingWindowLimiter) (pre : List Call)
    (st : RedisSlidingWindowLimiter × Store) (hinv : WindowInv l0 pre st) (key : String)
    (hkey : key ≠ "") (now t : Int) (hnow : ∀ d ∈ pre, d.now ≤ now) (ht : now ≤ t) :
    scoredInWindow l0.windowMillis ((st.2 (l0.redisKey key)).liveAt now).zset t =
      countInWindow l0.windowMillis pre key t := by
  have hpre : ∀ d ∈ pre, d.now ≤ t := fun d hd => le_trans (hnow d hd) ht
  rw [← hinv.counts key hkey t hpre]
  unfold StoreValue.liveAt
  cases hv : (st.2 (l0.redisKey key)).expireAt with
  | none => rfl
  | some deadline =>
    simp only
    split
    · rename_i hexp
      have h := hinv.expired key hkey t hpre deadline hv (by omega)
      rw [scoredInWindow_eq_zero _ _ _ h]
      rfl
    · rfl

theorem batchValue_props (l : RedisSlidingWindowLimiter) (v : StoreValue) (now nano : Int)
    (hfresh : ∀ e ∈ (v.liveAt now).zset,
      e.1 ≠ (⟨now, nano.tmod 1000000, (l.counter + 1) % 2 ^ 64⟩ : Member))
    (hscore : ∀ e ∈ (v.liveAt now).zset, e.2 ≤ now) :
    (∀ e ∈ (batchValue l v now nano).zset, e ∈ (v.liveAt now).zset ∨
      e = ((⟨now, nano.tmod 1000000, (l.counter + 1) % 2 ^ 64⟩ : Member), now)) ∧
    batchCount l v now nano =
      scoredInWindow l.windowMillis ((v.liveAt now).zset ++
        [((⟨now, nano.tmod 1000000, (l.counter + 1) % 2 ^ 64⟩ : Member), now)]) now ∧
    (∀ t, now ≤ t → scoredInWindow l.windowMillis (batchValue l v now nano).zset t =
      scoredInWindow l.windowMillis ((v.liveAt now).zset ++
        [((⟨now, nano.tmod 1000000, (l.counter + 1) % 2 ^ 64⟩ : Member), now)]) t) ∧
    (∀ t deadline, (batchValue l v now nano).expireAt = some deadline →
      deadline ≤ t * 1000000 →
      ∀ e ∈ (batchValue l v now nano).zset, e.2 ≤ t - l.windowMillis) := by
  have hz := zadd_new _ now _ hfresh
  have hall : ∀ e ∈ (v.liveAt now).zset ++
      [((⟨now, nano.tmod 1000000, (l.counter + 1) % 2 ^ 64⟩ : Member), now)], e.2 ≤ now := by
    intro e he
    rcases List.mem_append.1 he with he | he
    · exact hscore e he
    · simp only [List.mem_singleton] at he
      rw [he]
  have hb := windowMillis_bounds l
  have hcount : batchCount l v now nano =
      scoredInWindow l.windowMillis ((v.liveAt now).zset ++
        [((⟨now, nano.tmod 1000000, (l.counter + 1) % 2 ^ 64⟩ : Member), now)]) now := by
    unfold batchCount
    simp only [hz]
    rfl
  have hfilter := scoredInWindow_filter l.windowMillis ((v.liveAt now).zset ++
    [((⟨now, nano.tmod 1000000, (l.counter + 1) % 2 ^ 64⟩ : Member), now)]) now
  by_cases hk : List.filter (fun e => decide (now - l.windowMillis < e.2))
      ((v.liveAt now).zset ++
        [((⟨now, nano.tmod 1000000, (l.counter + 1) % 2 ^ 64⟩ : Member), now)]) = []
  · have hV : batchValue l v now nano = ⟨[], none⟩ := by
      unfold batchValue
      simp only [hz, hk, if_true]
    rw [hV]
    refine ⟨by simp, hcount, fun t ht => ?_, fun t deadline hd => by cases hd⟩
    rw [← hfilter t ht, hk]
  · by_cases httl : formatSec (l.window + 1000000000) ≤ 0
    · have hV : batchValue l v now nano = ⟨[], none⟩ := by
        unfold batchValue
        simp only [hz, hk, httl, if_true, if_false]
      rw [hV]
      refine ⟨by simp, hcount, fun t ht => ?_, fun t deadline hd => by cases hd⟩
      have hsec := (formatSec_bounds (l.window + 1000000000)).1.1 httl
      exact Eq.trans rfl (Eq.symm (scoredInWindow_eq_zero _ _ t
        (fun e he => by have := hall e he; omega)))
    · have hV : batchValue l v now nano =
          ⟨List.filter (fun e => decide (now - l.windowMillis < e.2))
            ((v.liveAt now).zset ++
              [((⟨now, nano.tmod 1000000, (l.counter + 1) % 2 ^ 64⟩ : Member), now)]),
            some (now * 1000000 + formatSec (l.window + 1000000000) * 1000000000)⟩ := by
        unfold batchValue
        simp only [hz, hk, httl, if_false]
      rw [hV]
      refine ⟨fun e he => ?_, hcount, fun t ht => hfilter t ht, fun t deadline hd hdl e he => ?_⟩
      · have := List.mem_of_mem_filter he
        simpa using this
      · simp only [Option.some.injEq] at hd
        have := hall e (List.mem_of_mem_filter he)
        have hsec := formatSec_bounds (l.window + 1000000000)
        rcases le_or_lt (l.window + 1000000000) 0 with hw | hw
        · exact absurd (hsec.1.2 hw) httl
        · have h1 := (hsec.2.1 hw).2
          omega

theorem scoredInWindow_single (W : Int) (c : Call) (member : Member) (t : Int) :
    scoredInWindow W [(member, c.now)] t = countInWindow W [c] c.key t := by
  unfold scoredInWindow countInWindow
  by_cases h : t - W < c.now <;> simp [h]

theorem countInWindow_single_other (W : Int) (c : Call) (key : String) (t : Int)
    (h : c.key ≠ key) : countInWindow W [c] key t = 0 := by
  simp [countInWindow, h]

/-- A successful batch on a non-empty key decides by the window count and keeps
the invariant. -/
theorem WindowInv.step (l0 : RedisSlidingWindowLimiter) (pre : List Call)
    (st : RedisSlidingWindowLimiter × Store) (hinv : WindowInv l0 pre st) (c : Call)
    (hkey : c.key ≠ "") (hnow : ∀ d ∈ pre, d.now ≤ c.now) (hlen : pre.length < 2 ^ 64) :
    (st.1.Allow st.2 c.now c.nano .up c.key).result =
      (decide ((countInWindow l0.windowMillis (pre ++ [c]) c.key c.now : Int) ≤ l0.limit),
        none) ∧
    WindowInv l0 (pre ++ [c])
      ((st.1.Allow st.2 c.now c.nano .up c.key).limiter,
       (st.1.Allow st.2 c.now c.nano .up c.key).store) := by
  obtain ⟨hres, hlim, hstore⟩ := Allow_up st.1 st.2 c.now c.nano c.key hkey
  have hrk : st.1.redisKey c.key = l0.redisKey c.key := by
    simp [RedisSlidingWindowLimiter.redisKey, hinv.keyPrefix_eq]
  have hW : st.1.windowMillis = l0.windowMillis := by
    simp [RedisSlidingWindowLimiter.windowMillis, hinv.window_eq]
  obtain ⟨m, hm, hcnt, hmem⟩ := hinv.counters
  have hfresh : ∀ e ∈ ((st.2 (l0.redisKey c.key)).liveAt c.now).zset,
      e.1 ≠ (⟨c.now, c.nano.tmod 1000000, (st.1.counter + 1) % 2 ^ 64⟩ : Member) := by
    intro e he heq
    obtain ⟨j, hj1, hj2, hj3⟩ := hmem _ e (liveAt_zset_mem _ _ _ he)
    have hc : e.1.counter = (st.1.counter + 1) % 2 ^ 64 := by rw [heq]
    rw [hj3] at hc
    omega
  have hscore : ∀ e ∈ ((st.2 (l0.redisKey c.key)).liveAt c.now).zset, e.2 ≤ c.now :=
    fun e he => hinv.scores c.key hkey c.now hnow e (liveAt_zset_mem _ _ _ he)
  obtain ⟨hp1, hp2, hp3, hp4⟩ :=
    batchValue_props st.1 (st.2 (l0.redisKey c.key)) c.now c.nano hfresh hscore
  rw [hW] at hp2 hp3 hp4
  rw [hrk] at hres hstore
  have hcount : batchCount st.1 (st.2 (l0.redisKey c.key)) c.now c.nano =
      countInWindow l0.windowMillis (pre ++ [c]) c.key c.now := by
    rw [hp2, scoredInWindow_append, countInWindow_append, scoredInWindow_single,
      scoredInWindow_liveAt l0 pre st hinv c.key hkey c.now c.now hnow le_rfl]
  refine ⟨by rw [hres, hcount, hinv.limit_eq], ?_⟩
  rw [hlim, hstore]
  have hpre : ∀ t, (∀ d ∈ pre ++ [c], d.now ≤ t) → (∀ d ∈ pre, d.now ≤ t) ∧ c.now ≤ t :=
    fun t h => ⟨fun d hd => h d (List.mem_append_left _ hd), h c (by simp)⟩
  refine ⟨hinv.keyPrefix_eq, hinv.limit_eq, hinv.window_eq, ⟨m + 1, ?_, ?_, ?_⟩, ?_, ?_, ?_⟩
  · simp only [List.length_append, List.length_singleton]
    omega
  · show (st.1.counter + 1) % 2 ^ 64 % 2 ^ 64 = (l0.counter + (m + 1)) % 2 ^ 64
    omega
  · intro k e he
    dsimp only at he
    by_cases hk : k = l0.redisKey c.key
    · subst hk
      rw [Store.put_self] at he
      rcases hp1 e he with h | h
      · obtain ⟨j, hj1, hj2, hj3⟩ := hmem _ e (liveAt_zset_mem _ _ _ h)
        exact ⟨j, hj1, by omega, hj3⟩
      · refine ⟨m + 1, by omega, le_rfl, ?_⟩
        rw [h]
        show (st.1.counter + 1) % 2 ^ 64 = (l0.counter + (m + 1)) % 2 ^ 64
        omega
    · rw [Store.put_other _ _ _ _ hk] at he
      obtain ⟨j, hj1, hj2, hj3⟩ := hmem k e he
      exact ⟨j, hj1, by omega, hj3⟩
  · intro key hk t ht e he
    dsimp only at he
    obtain ⟨ht1, ht2⟩ := hpre t ht
    by_cases hkk : key = c.key
    · rw [hkk, Store.put_self] at he
      rcases hp1 e he with h | h
      · exact le_trans (hscore e h) ht2
      · rw [h]
        exact ht2
    · have hne : l0.redisKey key ≠ l0.redisKey c.key :=
        fun h => hkk (redisKey_injective l0 _ _ h)
      rw [Store.put_other _ _ _ _ hne] at he
      exact hinv.scores key hk t ht1 e he
  · intro key hk t ht
    dsimp only
    obtain ⟨ht1, ht2⟩ := hpre t ht
    by_cases hkk : key = c.key
    · rw [hkk, Store.put_self, hp3 t ht2, scoredInWindow_append, countInWindow_append,
        scoredInWindow_single,
        scoredInWindow_liveAt l0 pre st hinv c.key hkey c.now t hnow ht2]
    · have hne : l0.redisKey key ≠ l0.redisKey c.key :=
        fun h => hkk (redisKey_injective l0 _ _ h)
      rw [Store.put_other _ _ _ _ hne, countInWindow_append,
        countInWindow_single_other _ _ _ _ (Ne.symm hkk), add_zero]
      exact hinv.counts key hk t ht1
  · intro key hk t ht deadline hd hdl e he
    dsimp only at hd he
    obtain ⟨ht1, ht2⟩ := hpre t ht
    by_cases hkk : key = c.key
    · rw [hkk, Store.put_self] at hd he
      exact hp4 t deadline hd hdl e he
    · have hne : l0.redisKey key ≠ l0.redisKey c.key :=
        fun h => hkk (redisKey_injective l0 _ _ h)
      rw [Store.put_other _ _ _ _ hne] at hd he
      exact hinv.expired key hk t ht1 deadline hd hdl e he

theorem after_snoc (l : RedisSlidingWindowLimiter) (store : Store) (pre : List Call)
    (c : Call) :
    l.after store (pre ++ [c]) =
      (((l.after store pre).1.Allow (l.after store pre).2 c.now c.nano .up c.key).limiter,
       ((l.after store pre).1.Allow (l.after store pre).2 c.now c.nano .up c.key).store) := by
  simp [RedisSlidingWindowLimiter.after, List.foldl_append]

theorem decisions_snoc (l : RedisSlidingWindowLimiter) (store : Store) (pre : List Call)
    (c : Call) :
    l.decisions store (pre ++ [c]) = l.decisions store pre ++
      [((l.after store pre).1.Allow (l.after store pre).2 c.now c.nano .up c.key).result.1] := by
  induction pre generalizing l store with
  | nil => simp [RedisSlidingWindowLimiter.decisions, RedisSlidingWindowLimiter.after]
  | cons d rest ih =>
    show _ :: RedisSlidingWindowLimiter.decisions _ _ (rest ++ [c]) = _
    rw [ih]
    simp only [RedisSlidingWindowLimiter.decisions, RedisSlidingWindowLimiter.after,
      List.foldl_cons, List.cons_append]

theorem decisions_length (l : RedisSlidingWindowLimiter) (store : Store)
    (calls : List Call) : (l.decisions store calls).length = calls.length := by
  induction calls generalizing l store with
  | nil => rfl
  | cons d rest ih => simp [RedisSlidingWindowLimiter.decisions, ih]

theorem WindowInv.init (l0 : RedisSlidingWindowLimiter) :
    WindowInv l0 [] (l0, Store.empty) :=
  ⟨rfl, rfl, rfl, ⟨0, le_rfl, by simp, by simp [Store.empty]⟩,
    by simp [Store.empty], by simp [Store.empty, scoredInWindow, countInWindow],
    by simp [Store.empty]⟩

/-- A call with the empty key changes nothing. -/
theorem WindowInv.skip (l0 : RedisSlidingWindowLimiter) (pre : List Call)
    (st : RedisSlidingWindowLimiter × Store) (hinv : WindowInv l0 pre st) (c : Call)
    (hkey : c.key = "") :
    WindowInv l0 (pre ++ [c])
      ((st.1.Allow st.2 c.now c.nano .up c.key).limiter,
       (st.1.Allow st.2 c.now c.nano .up c.key).store) := by
  have hst : ((st.1.Allow st.2 c.now c.nano .up c.key).limiter,
      (st.1.Allow st.2 c.now c.nano .up c.key).store) = st := by
    unfold RedisSlidingWindowLimiter.Allow
    rw [if_pos hkey]
  rw [hst]
  obtain ⟨m, hm, hcnt, hmem⟩ := hinv.counters
  have hpre : ∀ t, (∀ d ∈ pre ++ [c], d.now ≤ t) → (∀ d ∈ pre, d.now ≤ t) :=
    fun t h d hd => h d (List.mem_append_left _ hd)
  refine ⟨hinv.keyPrefix_eq, hinv.limit_eq, hinv.window_eq,
    ⟨m, by simp only [List.length_append, List.length_singleton]; omega, hcnt, hmem⟩,
    fun key hk t ht => hinv.scores key hk t (hpre t ht), fun key hk t ht => ?_,
    fun key hk t ht => hinv.expired key hk t (hpre t ht)⟩
  rw [countInWindow_append, countInWindow_single_other _ _ _ _ (by rw [hkey]; exact Ne.symm hk),
    add_zero]
  exact hinv.counts key hk t (hpre t ht)

theorem timeOrdered_snoc (pre : List Call) (c : Call) :
    TimeOrdered (pre ++ [c]) ↔ TimeOrdered pre ∧ ∀ d ∈ pre, d.now ≤ c.now := by
  unfold TimeOrdered
  rw [List.pairwise_append]
  simp

theorem windowInv_after (l0 : RedisSlidingWindowLimiter) (calls : List Call)
    (hmono : TimeOrdered calls) (hlen : calls.length ≤ 2 ^ 64) :
    WindowInv l0 calls (l0.after Store.empty calls) := by
  induction calls using List.reverseRecOn with
  | nil => exact WindowInv.init l0
  | append_singleton pre c ih =>
    obtain ⟨hm1, hm2⟩ := (timeOrdered_snoc pre c).1 hmono
    simp only [List.length_append, List.length_singleton] at hlen
    have hpre := ih hm1 (by omega)
    rw [after_snoc]
    by_cases hkey : c.key = ""
    · exact WindowInv.skip l0 pre _ hpre c hkey
    · exact (WindowInv.step l0 pre _ hpre c hkey hm2 (by omega)).2

theorem timeOrdered_of_append (pre post : List Call) (c : Call)
    (h : TimeOrdered (pre ++ c :: post)) : TimeOrdered (pre ++ [c]) := by
  unfold TimeOrdered at h ⊢
  have hsub : (pre ++ [c]).Sublist (pre ++ c :: post) :=
    List.Sublist.append_left (List.Sublist.cons₂ c (List.nil_sublist post)) pre
  exact h.sublist hsub

/-- The decision of any call of a sequential run. -/
theorem Allow_decision (l : RedisSlidingWindowLimiter) (pre post : List Call) (c : Call)
    (hmono : TimeOrdered (pre ++ c :: post)) (hlen : (pre ++ c :: post).length ≤ 2 ^ 64)
    (hkey : c.key ≠ "") :
    ((l.after Store.empty pre).1.Allow (l.after Store.empty pre).2 c.now c.nano .up
        c.key).result =
      (decide ((callsInWindow l.windowMillis (pre ++ [c]) c : Int) ≤ l.limit), none) := by
  obtain ⟨hm1, hm2⟩ := (timeOrdered_snoc pre c).1 (timeOrdered_of_append pre post c hmono)
  simp only [List.length_append, List.length_cons] at hlen
  have hinv := windowInv_after l pre hm1 (by omega)
  exact (WindowInv.step l pre _ hinv c hkey hm2 (by omega)).1

/-- Among calls on one key that lie within one window of each other, at most
`limit` are allowed. -/
theorem allowed_in_window_le (l : RedisSlidingWindowLimiter) (calls : List Call)
    (hmono : TimeOrdered calls) (hlen : calls.length ≤ 2 ^ 64) (hlimit : 0 ≤ l.limit)
    (S : List (Call × Bool))
    (hS : S.Sublist (calls.zip (l.decisions Store.empty calls)))
    (hwin : ∀ x ∈ S, ∀ y ∈ S,
      x.1.key = y.1.key ∧ x.1.key ≠ "" ∧ y.1.now - l.windowMillis < x.1.now) :
    ((S.filter (fun x => x.2)).length : Int) ≤ l.limit := by
  induction calls using List.reverseRecOn generalizing S with
  | nil =>
    simp only [List.zip_nil_left, List.sublist_nil] at hS
    rw [hS]
    simpa using hlimit
  | append_singleton pre c ih =>
    obtain ⟨hm1, hm2⟩ := (timeOrdered_snoc pre c).1 hmono
    have hlen2 : pre.length + 1 ≤ 2 ^ 64 := by
      simpa only [List.length_append, List.length_singleton] using hlen
    rw [decisions_snoc, List.zip_append (decisions_length l _ pre).symm] at hS
    obtain ⟨S1, S2, hSeq, hS1, hS2⟩ := List.sublist_append_iff.1 hS
    simp only [List.zip_cons_cons, List.zip_nil_right, List.sublist_singleton] at hS2
    rcases hS2 with hS2 | hS2
    · rw [hS2, List.append_nil] at hSeq
      rw [hSeq] at hwin ⊢
      exact ih hm1 (by omega) S1 hS1 hwin
    · have hwin1 : ∀ x ∈ S1, ∀ y ∈ S1,
          x.1.key = y.1.key ∧ x.1.key ≠ "" ∧ y.1.now - l.windowMillis < x.1.now :=
        fun x hx y hy => hwin x (by rw [hSeq]; exact List.mem_append_left _ hx)
          y (by rw [hSeq]; exact List.mem_append_left _ hy)
      have hc : (c, ((l.after Store.empty pre).1.Allow (l.after Store.empty pre).2 c.now
          c.nano .up c.key).result.1) ∈ S := by
        rw [hSeq, hS2]
        simp
      obtain ⟨_, hkey, hW⟩ := hwin _ hc _ hc
      have hdec := Allow_decision l pre [] c hmono (by simpa using hlen2) hkey
      cases hd : ((l.after Store.empty pre).1.Allow (l.after Store.empty pre).2 c.now c.nano
          .up c.key).result.1 with
      | false =>
        rw [hSeq, hS2, hd]
        simp only [List.filter_append, List.filter_cons, Bool.false_eq_true, if_false,
          List.filter_nil, List.append_nil]
        exact ih hm1 (by omega) S1 hS1 hwin1
      | true =>
        rw [hdec] at hd
        simp only [decide_eq_true_eq] at hd
        have hsub : (S1.map Prod.fst).Sublist pre := by
          have := hS1.map Prod.fst
          rwa [List.map_fst_zip _ _ (le_of_eq (decisions_length l _ pre).symm)] at this
        have hall : (S1.map Prod.fst).filter
            (fun d => decide (d.key = c.key) && decide (c.now - l.windowMillis < d.now)) =
            S1.map Prod.fst := by
          rw [List.filter_eq_self]
          intro d hd2
          obtain ⟨x, hx, hxd⟩ := List.mem_map.1 hd2
          have := hwin x (by rw [hSeq]; exact List.mem_append_left _ hx) _ hc
          rw [← hxd]
          simp only [Bool.and_eq_true, decide_eq_true_eq]
          exact ⟨this.1, this.2.2⟩
        have hle : S1.length ≤ countInWindow l.windowMillis pre c.key c.now := by
          have := (hsub.filter (fun d =>
            decide (d.key = c.key) && decide (c.now - l.windowMillis < d.now))).length_le
          rw [hall, List.length_map] at this
          exact this
        have hone : countInWindow l.windowMillis [c] c.key c.now = 1 := by
          simp [countInWindow, hW]
        have hcount : callsInWindow l.windowMillis (pre ++ [c]) c =
            countInWindow l.windowMillis pre c.key c.now + 1 := by
          show countInWindow l.windowMillis (pre ++ [c]) c.key c.now = _
          rw [countInWindow_append, hone]
        have hfl := List.length_filter_le (fun x : Call × Bool => x.2) S
        have hSlen : S.length = S1.length + 1 := by
          rw [hSeq, hS2]
          simp
        rw [hcount] at hd
        push_cast at hd
        omega

/-- C8, as amended: in a sequential run on the empty store with non-decreasing
millisecond timestamps, `Allow(key)` at time `t` returns allowed exactly when
the calls made on that key strictly later than `t - windowMillis`, the current
one and the denied ones included, number at most `limit`, where `windowMillis`
is the window in whole milliseconds. So the `n`-th of rapid calls on a fresh key
is allowed exactly when `n <= limit`, the first call made after the window has
elapsed since all earlier calls is allowed, and of any calls on one key lying
within one window at most `limit` are allowed. -/
theorem RedisSlidingWindowLimiter.Allow_window_count (l : RedisSlidingWindowLimiter)
    (calls : List Call) (hmono : TimeOrdered calls) (hlen : calls.length ≤ 2 ^ 64) :
    (∀ pre c post, calls = pre ++ c :: post → c.key ≠ "" →
      ((l.after Store.empty pre).1.Allow (l.after Store.empty pre).2 c.now c.nano .up
          c.key).result =
        (decide ((callsInWindow l.windowMillis (pre ++ [c]) c : Int) ≤ l.limit), none)) ∧
    (∀ pre c post, calls = pre ++ c :: post → c.key ≠ "" → 0 < l.windowMillis →
      (∀ d ∈ pre, d.key = c.key → c.now - l.windowMillis < d.now) →
      ((l.after Store.empty pre).1.Allow (l.after Store.empty pre).2 c.now c.nano .up
          c.key).result =
        (decide ((((pre.filter (fun d => decide (d.key = c.key))).length + 1 : Nat) : Int)
          ≤ l.limit), none)) ∧
    (∀ pre c post, calls = pre ++ c :: post → c.key ≠ "" → 0 < l.windowMillis →
      1 ≤ l.limit → (∀ d ∈ pre, d.key = c.key → d.now ≤ c.now - l.windowMillis) →
      ((l.after Store.empty pre).1.Allow (l.after Store.empty pre).2 c.now c.nano .up
          c.key).result = (true, none)) ∧
    (0 ≤ l.limit → ∀ S : List (Call × Bool),
      S.Sublist (calls.zip (l.decisions Store.empty calls)) →
      (∀ x ∈ S, ∀ y ∈ S,
        x.1.key = y.1.key ∧ x.1.key ≠ "" ∧ y.1.now - l.windowMillis < x.1.now) →
      ((S.filter (fun x => x.2)).length : Int) ≤ l.limit) := by
  have hA : ∀ pre c post, calls = pre ++ c :: post → c.key ≠ "" →
      ((l.after Store.empty pre).1.Allow (l.after Store.empty pre).2 c.now c.nano .up
          c.key).result =
        (decide ((callsInWindow l.windowMillis (pre ++ [c]) c : Int) ≤ l.limit), none) := by
    intro pre c post hc hkey
    subst hc
    exact Allow_decision l pre post c hmono hlen hkey
  have hsplit : ∀ (pre : List Call) (c : Call), callsInWindow l.windowMillis (pre ++ [c]) c =
      countInWindow l.windowMillis pre c.key c.now +
        countInWindow l.windowMillis [c] c.key c.now := by
    intro pre c
    show countInWindow l.windowMillis (pre ++ [c]) c.key c.now = _
    rw [countInWindow_append]
  refine ⟨hA, ?_, ?_, fun hlimit S hS hwin =>
    allowed_in_window_le l calls hmono hlen hlimit S hS hwin⟩
  · intro pre c post hc hkey hW hrapid
    rw [hA pre c post hc hkey, hsplit]
    have h1 : countInWindow l.windowMillis [c] c.key c.now = 1 := by
      simp [countInWindow, hW]
    have h2 : countInWindow l.windowMillis pre c.key c.now =
        (pre.filter (fun d => decide (d.key = c.key))).length := by
      unfold countInWindow
      congr 1
      apply List.filter_congr
      intro d hd
      by_cases hk : d.key = c.key
      · simp [hk, hrapid d hd hk]
      · simp [hk]
    rw [h1, h2]
  · intro pre c post hc hkey hW hlimit hold
    rw [hA pre c post hc hkey, hsplit]
    have h1 : countInWindow l.windowMillis [c] c.key c.now = 1 := by
      simp [countInWindow, hW]
    rw [h1, countInWindow_eq_zero _ _ _ _ hold]
    simp only [zero_add, Nat.cast_one, Prod.mk.injEq, decide_eq_true_eq, and_true]
    exact hlimit

theorem RedisSlidingWindowLimiter.Allow_window_count_witness :
    TimeOrdered (callsAt "test_key_5" [0, 1, 2, 3, 4, 6, 1106]) ∧
    testLimiter.decisions Store.empty (callsAt "test_key_5" [0, 1, 2, 3, 4, 6, 1106]) =
      [true, true, true, true, true, false, true] ∧
    testLimiter.decisions Store.empty (callsAt "test_key_6" [0, 1, 2, 3, 4, 5, 6, 7, 8, 9]) =
      [true, true, true, true, true, false, false, false, false, false] ∧
    ((testLimiter.after Store.empty (callsAt "test_key_5" [0, 1, 2, 3, 4])).1.Allow
      (testLimiter.after Store.empty (callsAt "test_key_5" [0, 1, 2, 3, 4])).2 6 6000000 .up
      "test_key_5").result = (false, none) :=
  ⟨by decide, by decide, by decide,
   ((testLimiter.Allow_window_count (callsAt "test_key_5" [0, 1, 2, 3, 4, 6, 1106])
      (by decide) (by decide)).1 (callsAt "test_key_5" [0, 1, 2, 3, 4])
      ⟨"test_key_5", 6, 6000000⟩ (callsAt "test_key_5" [1106]) (by decide) (by decide)).trans
      (by decide)⟩

/-- C8 as stated fails for a window that is not a whole number of milliseconds:
with a window of 1.5 ms and limit 1, a call 1 ms after the first is allowed,
though two calls were made strictly later than `t` minus the window. -/
theorem RedisSlidingWindowLimiter.fractional_window_allows :
    fractionalLimiter.decisions Store.empty (callsAt "k" [0, 1]) = [true, true] ∧
    ¬ ((callsInExactWindow fractionalLimiter.window (callsAt "k" [0, 1])
        ⟨"k", 1, 1000000⟩ : Int) ≤ fractionalLimiter.limit) := by
  decide

/-- C9: the token bucket returns an error exactly for the empty key; the sliding
window returns one exactly for the empty key or a failed batch or cardinality
read. Every error comes with `false`, and the empty key is rejected with
`rate limit key cannot be empty` with nothing touched: the limiter (buckets,
counter) and the store are as before and no command is issued. -/
theorem Allow_error_contract :
    (∀ (l : TokenBucketLimiter) (now : Int) (key : String),
      ((l.Allow now key).1.2 ≠ none ↔ key = "") ∧
      ((l.Allow now key).1.2 ≠ none → (l.Allow now key).1.1 = false) ∧
      (key = "" →
        l.Allow now key = ((false, some "rate limit key cannot be empty"), l))) ∧
    (∀ (l : RedisSlidingWindowLimiter) (store : Store) (now nano : Int) (link : Link)
        (key : String),
      ((l.Allow store now nano link key).result.2 ≠ none ↔ key = "" ∨ link ≠ .up) ∧
      ((l.Allow store now nano link key).result.2 ≠ none →
        (l.Allow store now nano link key).result.1 = false) ∧
      (key = "" →
        (l.Allow store now nano link key).result =
          (false, some "rate limit key cannot be empty") ∧
        (l.Allow store now nano link key).limiter = l ∧
        (l.Allow store now nano link key).store = store ∧
        (l.Allow store now nano link key).issued = [])) := by
  constructor
  · intro l now key
    unfold TokenBucketLimiter.Allow
    by_cases hkey : key = ""
    · simp [hkey]
    · simp only [hkey, if_false, iff_false, not_not, false_implies, and_true]
      cases l.buckets key with
      | none => simp
      | some b =>
        simp only
        split <;> simp
  · intro l store now nano link key
    unfold RedisSlidingWindowLimiter.Allow
    by_cases hkey : key = ""
    · simp [hkey]
    · simp only [hkey, if_false, false_or, false_implies, and_true]
      cases link <;> simp

theorem Store.exec_other (s : Store) (now : Int) (cmd : Command) (k : String)
    (h : k ≠ cmd.key) : (s.exec now cmd).1 k = s k := by
  cases cmd with
  | ZAdd key score member => exact Store.put_other _ _ _ _ h
  | ZRemRangeByScore key max => exact Store.put_other _ _ _ _ h
  | ZCard key => exact Store.put_other _ _ _ _ h
  | Expire key ttl =>
    simp only [Store.exec]
    split
    · exact Store.put_other _ _ _ _ h
    · split <;> exact Store.put_other _ _ _ _ h

theorem Store.execAll_other (s : Store) (now : Int) (cmds : List Command) (k : String)
    (h : ∀ c ∈ cmds, k ≠ c.key) : (s.execAll now cmds).1 k = s k := by
  induction cmds generalizing s with
  | nil => rfl
  | cons c cs ih =>
    simp only [Store.execAll]
    rw [ih _ (fun d hd => h d (List.mem_cons_of_mem _ hd)),
      Store.exec_other _ _ _ _ (h c (by simp))]

theorem batch_key (l : RedisSlidingWindowLimiter) (now nano : Int) (key : String) :
    ∀ c ∈ l.batch now nano key, c.key = l.redisKey key := by
  intro c hc
  simp only [RedisSlidingWindowLimiter.batch, List.mem_cons, List.mem_singleton,
    List.not_mem_nil, or_false] at hc
  rcases hc with h | h | h | h <;> rw [h] <;> rfl

/-- Whatever the outcome of the batch, an `Allow` leaves every other store key
as it was. -/
theorem Allow_store_other (l : RedisSlidingWindowLimiter) (store : Store) (now nano : Int)
    (link : Link) (key k : String) (h : k ≠ l.redisKey key) :
    (l.Allow store now nano link key).store k = store k := by
  unfold RedisSlidingWindowLimiter.Allow
  by_cases hkey : key = ""
  · simp [hkey]
  · simp only [hkey, if_false]
    have hb := batch_key l now nano key
    cases link with
    | up =>
      dsimp only
      exact Store.execAll_other store now (l.batch now nano key) k
        (fun c hc => by rw [hb c hc]; exact h)
    | execFailed applied err =>
      dsimp only
      exact Store.execAll_other store now ((l.batch now nano key).take applied) k
        (fun c hc => by rw [hb c (List.mem_of_mem_take hc)]; exact h)
    | cardFailed err =>
      dsimp only
      exact Store.execAll_other store now (l.batch now nano key) k
        (fun c hc => by rw [hb c hc]; exact h)

theorem Allow_buckets_other (l : TokenBucketLimiter) (now : Int) (key k : String)
    (h : k ≠ key) : (l.Allow now key).2.buckets k = l.buckets k := by
  unfold TokenBucketLimiter.Allow
  by_cases hkey : key = ""
  · simp [hkey]
  · simp only [hkey, if_false]
    cases l.buckets key with
    | none => simp [TokenBucketLimiter.setBucket, h]
    | some b =>
      simp only
      split <;> simp [TokenBucketLimiter.setBucket, h]

theorem Allow_config (l : TokenBucketLimiter) (now : Int) (key : String) :
    (l.Allow now key).2.rate = l.rate ∧ (l.Allow now key).2.capacity = l.capacity := by
  unfold TokenBucketLimiter.Allow
  by_cases hkey : key = ""
  · simp [hkey]
  · simp only [hkey, if_false]
    cases l.buckets key with
    | none => simp [TokenBucketLimiter.setBucket]
    | some b =>
      simp only
      split <;> simp [TokenBucketLimiter.setBucket]

/-- The outcome of a call depends on the limiter only through the bucket of the
key and the configuration. -/
theorem Allow_congr (l1 l2 : TokenBucketLimiter) (now : Int) (key : String)
    (hb : l1.buckets key = l2.buckets key) (hr : l1.rate = l2.rate)
    (hc : l1.capacity = l2.capacity) :
    (l1.Allow now key).1 = (l2.Allow now key).1 ∧
    (l1.Allow now key).2.buckets key = (l2.Allow now key).2.buckets key := by
  unfold TokenBucketLimiter.Allow
  by_cases hkey : key = ""
  · subst hkey
    simp [hb]
  · simp only [hkey, if_false, ← hb, ← hr, ← hc]
    cases l1.buckets key with
    | none => simp [TokenBucketLimiter.setBucket]
    | some b =>
      simp only
      split <;> simp [TokenBucketLimiter.setBucket]

theorem after_agree (key : String) (pre : List BucketCall) (l1 l2 : TokenBucketLimiter)
    (hb : l1.buckets key = l2.buckets key) (hr : l1.rate = l2.rate)
    (hc : l1.capacity = l2.capacity) :
    (l1.after pre).buckets key =
      (l2.after (pre.filter (fun d => decide (d.key = key)))).buckets key ∧
    (l1.after pre).rate = (l2.after (pre.filter (fun d => decide (d.key = key)))).rate ∧
    (l1.after pre).capacity =
      (l2.after (pre.filter (fun d => decide (d.key = key)))).capacity := by
  induction pre generalizing l1 l2 with
  | nil => exact ⟨hb, hr, hc⟩
  | cons d rest ih =>
    by_cases hd : d.key = key
    · simp only [List.filter_cons, hd, decide_True, if_true, TokenBucketLimiter.after,
        List.foldl_cons]
      have h1 := Allow_congr l1 l2 d.now key hb hr hc
      have c1 := Allow_config l1 d.now key
      have c2 := Allow_config l2 d.now key
      exact ih _ _ h1.2 (by rw [c1.1, c2.1, hr]) (by rw [c1.2, c2.2, hc])
    · simp only [List.filter_cons, hd, decide_False, Bool.false_eq_true, if_false,
        TokenBucketLimiter.after, List.foldl_cons]
      have c1 := Allow_config l1 d.now d.key
      exact ih _ _ (by rw [Allow_buckets_other l1 d.now d.key key (Ne.symm hd), hb])
        (by rw [c1.1, hr]) (by rw [c1.2, hc])

theorem countInWindow_filter (W : Int) (pre : List Call) (key : String) (t : Int) :
    countInWindow W (pre.filter (fun d => decide (d.key = key))) key t =
      countInWindow W pre key t := by
  unfold countInWindow
  rw [List.filter_filter]
  congr 1
  apply List.filter_congr
  intro d _
  by_cases h : d.key = key <;> simp [h]

/-- C10: different keys never share counters. An `Allow(k)` leaves the token
bucket of every other key, and the sorted set under the store key of every other
key, as they were, distinct keys having distinct store keys; so the decision
for a key is the same whatever calls were made with other keys: two histories
with the same calls on the key give the same decision. -/
theorem Allow_keys_independent :
    (∀ (l : TokenBucketLimiter) (now : Int) (k k2 : String), k ≠ k2 →
      (l.Allow now k).2.buckets k2 = l.buckets k2) ∧
    (∀ (l : TokenBucketLimiter) (pre1 pre2 : List BucketCall) (c : BucketCall),
      pre1.filter (fun d => decide (d.key = c.key)) =
        pre2.filter (fun d => decide (d.key = c.key)) →
      ((l.after pre1).Allow c.now c.key).1 = ((l.after pre2).Allow c.now c.key).1) ∧
    (∀ (l : RedisSlidingWindowLimiter) (store : Store) (now nano : Int) (link : Link)
        (k k2 : String), k ≠ k2 →
      l.redisKey k ≠ l.redisKey k2 ∧
      (l.Allow store now nano link k).store (l.redisKey k2) = store (l.redisKey k2)) ∧
    (∀ (l : RedisSlidingWindowLimiter) (pre1 pre2 : List Call) (c : Call),
      TimeOrdered (pre1 ++ [c]) → TimeOrdered (pre2 ++ [c]) →
      pre1.length < 2 ^ 64 → pre2.length < 2 ^ 64 →
      pre1.filter (fun d => decide (d.key = c.key)) =
        pre2.filter (fun d => decide (d.key = c.key)) →
      ((l.after Store.empty pre1).1.Allow (l.after Store.empty pre1).2 c.now c.nano .up
          c.key).result =
        ((l.after Store.empty pre2).1.Allow (l.after Store.empty pre2).2 c.now c.nano .up
          c.key).result) := by
  refine ⟨fun l now k k2 h => Allow_buckets_other l now k k2 (Ne.symm h), ?_, ?_, ?_⟩
  · intro l pre1 pre2 c h
    obtain ⟨a1, a2, a3⟩ := after_agree c.key pre1 l l rfl rfl rfl
    obtain ⟨b1, b2, b3⟩ := after_agree c.key pre2 l l rfl rfl rfl
    rw [h] at a1 a2 a3
    exact (Allow_congr _ _ c.now c.key (a1.trans b1.symm) (a2.trans b2.symm)
      (a3.trans b3.symm)).1
  · intro l store now nano link k k2 h
    have hne : l.redisKey k ≠ l.redisKey k2 := fun he => h (redisKey_injective l _ _ he)
    exact ⟨hne, Allow_store_other l store now nano link k _ (Ne.symm hne)⟩
  · intro l pre1 pre2 c h1 h2 hl1 hl2 h
    by_cases hkey : c.key = ""
    · unfold RedisSlidingWindowLimiter.Allow
      simp only [hkey, if_true]
    · have g1 : (pre1 ++ [c]).length ≤ 2 ^ 64 := by
        simp only [List.length_append, List.length_singleton]
        omega
      have g2 : (pre2 ++ [c]).length ≤ 2 ^ 64 := by
        simp only [List.length_append, List.length_singleton]
        omega
      rw [Allow_decision l pre1 [] c h1 g1 hkey, Allow_decision l pre2 [] c h2 g2 hkey]
      have e : ∀ pre : List Call, callsInWindow l.windowMillis (pre ++ [c]) c =
          countInWindow l.windowMillis (pre.filter (fun d => decide (d.key = c.key)))
            c.key c.now + countInWindow l.windowMillis [c] c.key c.now := by
        intro pre
        show countInWindow l.windowMillis (pre ++ [c]) c.key c.now = _
        rw [countInWindow_append, countInWindow_filter]
      rw [e pre1, e pre2, h]

theorem Allow_keys_independent_witness :
    testLimiter.decisions Store.empty
      (callsAt "test_key_3" [0, 1, 2, 3, 4] ++ callsAt "test_key_4" [5, 6, 7, 8, 9]) =
      [true, true, true, true, true, true, true, true, true, true] ∧
    ((testLimiter.after Store.empty
        (callsAt "test_key_3" [0, 1, 2, 3, 4] ++ callsAt "test_key_4" [5, 6, 7, 8])).1.Allow
      (testLimiter.after Store.empty
        (callsAt "test_key_3" [0, 1, 2, 3, 4] ++ callsAt "test_key_4" [5, 6, 7, 8])).2
      9 9000000 .up "test_key_4").result =
    ((testLimiter.after Store.empty (callsAt "test_key_4" [5, 6, 7, 8])).1.Allow
      (testLimiter.after Store.empty (callsAt "test_key_4" [5, 6, 7, 8])).2
      9 9000000 .up "test_key_4").result :=
  ⟨by decide,
   Allow_keys_independent.2.2.2 testLimiter
     (callsAt "test_key_3" [0, 1, 2, 3, 4] ++ callsAt "test_key_4" [5, 6, 7, 8])
     (callsAt "test_key_4" [5, 6, 7, 8]) ⟨"test_key_4", 9, 9000000⟩
     (by decide) (by decide) (by decide) (by decide) (by decide)⟩

/-- Exactly when every stage up to the outbound call succeeds, `forwardRequest`
issues one outbound request: the authenticated request with scheme and host of
the target. -/
theorem forwardRequest_roundTrip (p : ProxyHandler) (w : ResponseWriter) (r : Request)
    (req : OutboundRequest) :
    Event.roundTrip req ∈ (forwardRequest p w r).2 ↔
      ∃ service r2 target, p.router.FindBestMatch r.URL.Path = some service ∧
        authorizationMiddleware p.verifier r p.config (some service) = .ok r2 ∧
        isMethodAllowed r2.Method service.Methods = true ∧
        p.httpClient.Parse service.Target = .ok target ∧
        p.httpClient.NewRequestError r2.Method
          { r2.URL with Scheme := target.Scheme, Host := target.Host } = none ∧
        req = { Method := r2.Method,
                URL := { r2.URL with Scheme := target.Scheme, Host := target.Host },
                Header := r2.Header, Body := r2.Body } := by
  unfold forwardRequest
  cases hroute : p.router.FindBestMatch r.URL.Path with
  | none => simp
  | some service =>
    cases hauth : authorizationMiddleware p.verifier r p.config (some service) with
    | error err => simp [hauth]
    | ok r2 =>
      cases hm : isMethodAllowed r2.Method service.Methods with
      | false => simp [hauth, hm]
      | true =>
        cases hparse : p.httpClient.Parse service.Target with
        | error err => simp [hauth, hm, hparse]
        | ok target =>
          cases hnew : p.httpClient.NewRequestError r2.Method
              { r2.URL with Scheme := target.Scheme, Host := target.Host } with
          | some err => simp [hauth, hm, hparse, hnew]
          | none =>
            have hcopy : copyHeaders r2.Header [] = r2.Header := by
              rw [copyHeaders_eq, List.nil_append]
            cases hdo : p.httpClient.Do
                { Method := r2.Method,
                  URL := { r2.URL with Scheme := target.Scheme, Host := target.Host },
                  Header := r2.Header, Body := r2.Body } with
            | error err => simp [hauth, hm, hparse, hnew, hcopy, hdo]
            | ok resp => simp [hauth, hm, hparse, hnew, hcopy, hdo]

theorem setClaimHeader_other (claims : String → Option String) (h : Header)
    (entry : String × String) (x : String) (hx : x ≠ entry.2) :
    Header.Values (setClaimHeader claims h entry) x = Header.Values h x := by
  unfold setClaimHeader
  cases claims entry.1 with
  | none => rfl
  | some v => exact Header.Values_Set_other h entry.2 v x hx

theorem setClaimHeader_self (claims : String → Option String) (h : Header)
    (entry : String × String) :
    Header.Values (setClaimHeader claims h entry) entry.2 =
      match claims entry.1 with
      | some v => [v]
      | none => Header.Values h entry.2 := by
  unfold setClaimHeader
  cases claims entry.1 with
  | none => rfl
  | some v => exact Header.Values_Set_self h entry.2 v

theorem foldl_setClaimHeader_other (claims : String → Option String)
    (table : List (String × String)) (h : Header) (x : String)
    (hx : ∀ e ∈ table, x ≠ e.2) :
    Header.Values (table.foldl (setClaimHeader claims) h) x = Header.Values h x := by
  induction table generalizing h with
  | nil => rfl
  | cons a rest ih =>
    rw [List.foldl_cons, ih _ (fun e he => hx e (List.mem_cons_of_mem _ he)),
      setClaimHeader_other claims h a x (hx a (by simp))]

theorem foldl_setClaimHeader_mem (claims : String → Option String)
    (table : List (String × String)) (h : Header) (entry : String × String)
    (hmem : entry ∈ table) (hnd : table.Pairwise (fun a b => a.2 ≠ b.2)) :
    Header.Values (table.foldl (setClaimHeader claims) h) entry.2 =
      match claims entry.1 with
      | some v => [v]
      | none => Header.Values h entry.2 := by
  induction table generalizing h with
  | nil => simp at hmem
  | cons a rest ih =>
    rw [List.pairwise_cons] at hnd
    rw [List.foldl_cons]
    rcases List.mem_cons.1 hmem with he | he
    · subst he
      rw [foldl_setClaimHeader_other claims rest _ _ (fun e he => hnd.1 e he)]
      exact setClaimHeader_self claims h entry
    · rw [ih _ he hnd.2, setClaimHeader_other claims h a entry.2 (Ne.symm (hnd.1 entry he))]

theorem claimHeaders_distinct : claimHeaders.Pairwise (fun a b => a.2 ≠ b.2) := by decide

/-- What authentication returns once the key, the token and its claims are
accepted: the request with the claim table applied to its headers. -/
theorem authorizationMiddleware_verified (verifier : TokenVerifier) (cfg : config.Config)
    (r : Request) (service : ServiceConfig) (publicKey : verifier.PublicKey)
    (token : verifier.Token) (claims : String → Option String)
    (hskip : service.SkipAuth = false) (hauth : r.Header.Get "Authorization" ≠ "")
    (hkey : verifier.NewV4AsymmetricPublicKeyFromHex cfg.Auth.JWTSecret = .ok publicKey)
    (htok : verifier.ParseV4Public publicKey
      (TrimSpace (TrimPrefix (r.Header.Get "Authorization") "Bearer ")) = .ok token)
    (hclaims : verifier.Claims token = .ok claims) :
    authorizationMiddleware verifier r cfg (some service) =
      .ok { r with Header := claimHeaders.foldl (setClaimHeader claims) r.Header } := by
  unfold authorizationMiddleware
  simp only [hskip, hauth, Bool.false_eq_true, if_false]
  rw [hkey]
  simp only
  rw [htok]
  simp only
  rw [hclaims]

/-- C11, as amended: on a route with skipAuth unset, for a request that passes
token verification, each forwarding header of the request forwarded downstream
carries exactly the string form of its claim when the claim is present, and is
left as the inbound request carried it when the claim is absent; so for an
inbound request without headers of those names, the header is set if and only
if the claim is present. -/
theorem forwarded_claim_headers (p : ProxyHandler) (w : ResponseWriter) (r : Request)
    (service : ServiceConfig) (publicKey : p.verifier.PublicKey) (token : p.verifier.Token)
    (claims : String → Option String) (req : OutboundRequest)
    (hroute : p.router.FindBestMatch r.URL.Path = some service)
    (hskip : service.SkipAuth = false) (hauth : r.Header.Get "Authorization" ≠ "")
    (hkey : p.verifier.NewV4AsymmetricPublicKeyFromHex p.config.Auth.JWTSecret = .ok publicKey)
    (htok : p.verifier.ParseV4Public publicKey
      (TrimSpace (TrimPrefix (r.Header.Get "Authorization") "Bearer ")) = .ok token)
    (hclaims : p.verifier.Claims token = .ok claims)
    (hfwd : Event.roundTrip req ∈ (forwardRequest p w r).2) :
    (∀ entry ∈ claimHeaders, Header.Values req.Header entry.2 =
      match claims entry.1 with
      | some v => [v]
      | none => Header.Values r.Header entry.2) ∧
    (∀ entry ∈ claimHeaders, Header.Values r.Header entry.2 = [] →
      (Header.Values req.Header entry.2 ≠ [] ↔ claims entry.1 ≠ none)) := by
  obtain ⟨service2, r2, target, h1, h2, _, _, _, hreq⟩ :=
    (forwardRequest_roundTrip p w r req).1 hfwd
  rw [hroute] at h1
  cases h1
  rw [authorizationMiddleware_verified p.verifier p.config r service publicKey token claims
    hskip hauth hkey htok hclaims] at h2
  cases h2
  have hv : ∀ entry ∈ claimHeaders, Header.Values req.Header entry.2 =
      match claims entry.1 with
      | some v => [v]
      | none => Header.Values r.Header entry.2 := by
    intro entry he
    rw [hreq]
    exact foldl_setClaimHeader_mem claims claimHeaders r.Header entry he claimHeaders_distinct
  refine ⟨hv, fun entry he hnone => ?_⟩
  rw [hv entry he]
  cases claims entry.1 with
  | none => simp [hnone]
  | some v => simp

theorem forwarded_claim_headers_witness :
    Event.roundTrip
      { Method := "GET", URL := ⟨"http", "users:8080", "/api/users", ""⟩,
        Header := [("Authorization", "Bearer good"), ("X-User-ID", "42")], Body := [] } ∈
      (forwardRequest (exampleProxy (true, none)) (.unwritten []) exampleGet).2 ∧
    (∀ entry ∈ claimHeaders,
      Header.Values [("Authorization", "Bearer good"), ("X-User-ID", "42")] entry.2 =
        match (if entry.1 = "userId" then some "42" else none : Option String) with
        | some v => [v]
        | none => Header.Values exampleGet.Header entry.2) :=
  ⟨by decide,
   (forwarded_claim_headers (exampleProxy (true, none)) (.unwritten []) exampleGet
      ⟨"users", "http://users:8080", ["GET"], 2, false⟩ () "good"
      (fun k => if k = "userId" then some "42" else none)
      { Method := "GET", URL := ⟨"http", "users:8080", "/api/users", ""⟩,
        Header := [("Authorization", "Bearer good"), ("X-User-ID", "42")], Body := [] }
      (by decide) rfl (by decide) rfl rfl rfl (by decide)).1⟩

/-- C11 as stated fails: the token of this request has no `isAdmin` claim, yet
the request forwarded downstream carries `X-Is-Admin: true`, the header the
inbound request brought. -/
theorem forwarded_header_without_claim :
    (∀ token, ∃ claims, exampleVerifier.Claims token = .ok claims ∧
      claims "isAdmin" = none) ∧
    ∃ req, Event.roundTrip req ∈
        (forwardRequest (exampleProxy (true, none)) (.unwritten []) exampleSpoofed).2 ∧
      Header.Values req.Header "X-Is-Admin" = ["true"] :=
  ⟨fun _ => ⟨_, rfl, by decide⟩,
   { Method := "GET", URL := ⟨"http", "users:8080", "/api/users", ""⟩,
     Header := [("Authorization", "Bearer good"), ("X-Is-Admin", "true"), ("X-User-ID", "42")],
     Body := [] }, by decide, by decide⟩

/-- C12, as amended: on a route with skipAuth unset, a request with no
`Authorization` header, or an empty one, is rejected with `authorization header
is required`; for any other value the token given to the verifier is the value
with a leading `Bearer ` removed when present and the white space around it
trimmed, and authentication succeeds exactly when the key decodes, the verifier
accepts that token and its claims decode, whether or not the value had the
`Bearer ` form. -/
theorem authorizationMiddleware_header (verifier : TokenVerifier) (cfg : config.Config)
    (r : Request) (service : ServiceConfig) (hskip : service.SkipAuth = false) :
    (Header.Values r.Header "Authorization" = [] →
      authorizationMiddleware verifier r cfg (some service) =
        .error "authorization header is required") ∧
    (r.Header.Get "Authorization" = "" →
      authorizationMiddleware verifier r cfg (some service) =
        .error "authorization header is required") ∧
    (r.Header.Get "Authorization" ≠ "" →
      ((∃ r2, authorizationMiddleware verifier r cfg (some service) = .ok r2) ↔
        ∃ publicKey token claims,
          verifier.NewV4AsymmetricPublicKeyFromHex cfg.Auth.JWTSecret = .ok publicKey ∧
          verifier.ParseV4Public publicKey
            (TrimSpace (TrimPrefix (r.Header.Get "Authorization") "Bearer ")) = .ok token ∧
          verifier.Claims token = .ok claims)) := by
  have hempty : r.Header.Get "Authorization" = "" →
      authorizationMiddleware verifier r cfg (some service) =
        .error "authorization header is required" := by
    intro h
    unfold authorizationMiddleware
    simp only [hskip, h, Bool.false_eq_true, if_false, if_true]
  refine ⟨fun h => hempty (by simp [Header.Get, h]), hempty, fun hne => ⟨?_, ?_⟩⟩
  · rintro ⟨r2, h⟩
    unfold authorizationMiddleware at h
    simp only [hskip, hne, Bool.false_eq_true, if_false] at h
    cases hk : verifier.NewV4AsymmetricPublicKeyFromHex cfg.Auth.JWTSecret with
    | error e =>
      rw [hk] at h
      cases h
    | ok publicKey =>
      rw [hk] at h
      simp only at h
      cases ht : verifier.ParseV4Public publicKey
          (TrimSpace (TrimPrefix (r.Header.Get "Authorization") "Bearer ")) with
      | error e =>
        rw [ht] at h
        cases h
      | ok token =>
        rw [ht] at h
        simp only at h
        cases hc : verifier.Claims token with
        | error e =>
          rw [hc] at h
          cases h
        | ok claims => exact ⟨publicKey, token, claims, rfl, ht, hc⟩
  · rintro ⟨publicKey, token, claims, hk, ht, hc⟩
    exact ⟨_, authorizationMiddleware_verified verifier cfg r service publicKey token claims
      hskip hne hk ht hc⟩

theorem authorizationMiddleware_header_witness :
    authorizationMiddleware exampleVerifier examplePost exampleConfig
      (some ⟨"users", "http://users:8080", ["GET"], 2, false⟩) =
      .error "authorization header is required" :=
  (authorizationMiddleware_header exampleVerifier exampleConfig examplePost
    ⟨"users", "http://users:8080", ["GET"], 2, false⟩ rfl).1 (by decide)

/-- C12 as stated fails: an `Authorization` value that is the bare token,
without the `Bearer ` form, is accepted when the verifier accepts the token. -/
theorem authorizationMiddleware_accepts_bare_token :
    exampleBareToken.Header.Get "Authorization" = "good" ∧
    HasPrefix "good" "Bearer " = false ∧
    authorizationMiddleware exampleVerifier exampleBareToken exampleConfig
      (some ⟨"users", "http://users:8080", ["GET"], 2, false⟩) =
      .ok { exampleBareToken with
            Header := [("Authorization", "good"), ("X-User-ID", "42")] } :=
  ⟨by decide, by decide, rfl⟩

/-- C13: on a route with `SkipAuth = true` authentication returns no error and
the request as it was, for every request, whatever its `Authorization` header,
and every token library; so the request forwarded on such a route carries
exactly the inbound headers, and it is forwarded whenever the method is allowed
and the outbound request can be built. -/
theorem authorizationMiddleware_skipAuth (verifier : TokenVerifier) (cfg : config.Config)
    (r : Request) (service : ServiceConfig) (hskip : service.SkipAuth = true) :
    authorizationMiddleware verifier r cfg (some service) = .ok r ∧
    (∀ (p : ProxyHandler) (w : ResponseWriter) (req : OutboundRequest),
      p.router.FindBestMatch r.URL.Path = some service →
      Event.roundTrip req ∈ (forwardRequest p w r).2 → req.Header = r.Header) ∧
    (∀ (p : ProxyHandler) (w : ResponseWriter) (target : URL),
      p.router.FindBestMatch r.URL.Path = some service →
      isMethodAllowed r.Method service.Methods = true →
      p.httpClient.Parse service.Target = .ok target →
      p.httpClient.NewRequestError r.Method
        { r.URL with Scheme := target.Scheme, Host := target.Host } = none →
      Event.roundTrip
        { Method := r.Method,
          URL := { r.URL with Scheme := target.Scheme, Host := target.Host },
          Header := r.Header, Body := r.Body } ∈ (forwardRequest p w r).2) := by
  have hok : ∀ (v : TokenVerifier) (c : config.Config),
      authorizationMiddleware v r c (some service) = .ok r := by
    intro v c
    unfold authorizationMiddleware
    simp only [hskip, if_true]
  refine ⟨hok verifier cfg, fun p w req hroute hfwd => ?_,
    fun p w target hroute hm hparse hnew => ?_⟩
  · obtain ⟨service2, r2, target, h1, h2, _, _, _, hreq⟩ :=
      (forwardRequest_roundTrip p w r req).1 hfwd
    rw [hroute] at h1
    cases h1
    rw [hok] at h2
    cases h2
    rw [hreq]
  · exact (forwardRequest_roundTrip p w r _).2
      ⟨service, r, target, hroute, hok _ _, hm, hparse, hnew, rfl⟩

theorem authorizationMiddleware_skipAuth_witness :
    Header.Values examplePublicGet.Header "Authorization" = [] ∧
    authorizationMiddleware exampleVerifier examplePublicGet examplePublicConfig
      (some ⟨"public", "http://public:8080", [], 1, true⟩) = .ok examplePublicGet ∧
    Event.roundTrip
      { Method := "GET", URL := ⟨"http", "users:8080", "/public/info", ""⟩,
        Header := [("Accept", "*/*")], Body := [] } ∈
      (forwardRequest examplePublicProxy (.unwritten []) examplePublicGet).2 ∧
    (ServeHTTP examplePublicProxy (.unwritten []) examplePublicGet).1.statusCode = some 201 :=
  ⟨by decide,
   (authorizationMiddleware_skipAuth exampleVerifier examplePublicConfig examplePublicGet
      ⟨"public", "http://public:8080", [], 1, true⟩ rfl).1,
   (authorizationMiddleware_skipAuth exampleVerifier examplePublicConfig examplePublicGet
      ⟨"public", "http://public:8080", [], 1, true⟩ rfl).2.2 examplePublicProxy
      (.unwritten []) ⟨"http", "users:8080", "", ""⟩ (by decide) (by decide) rfl rfl,
   by decide⟩

theorem EqualFold_iff (s t : String) : EqualFold s t = true ↔ EqualIgnoringCase s t := by
  unfold EqualFold EqualIgnoringCase
  rw [decide_eq_true_eq]
  generalize s.data = a
  generalize t.data = b
  induction a generalizing b with
  | nil =>
    cases b with
    | nil => simp
    | cons y ys => simp
  | cons x xs ih =>
    cases b with
    | nil => simp
    | cons y ys => simp [ih]

theorem EqualFoldBy_iff (fold : Char → Char) (s t : String) :
    EqualFoldBy fold s t = true ↔ EqualIgnoringCaseBy fold s t := by
  unfold EqualFoldBy EqualIgnoringCaseBy
  rw [decide_eq_true_eq]
  generalize s.data = a
  generalize t.data = b
  induction a generalizing b with
  | nil =>
    cases b with
    | nil => simp
    | cons y ys => simp
  | cons x xs ih =>
    cases b with
    | nil => simp
    | cons y ys => simp [ih]

/-- C14: `isMethodAllowed(m, L)` is true exactly when `L` is empty or some
element of `L` equals `m` ignoring letter case, for every method and every list,
over every case table `fold` that lowers the ASCII letters (the table of the
`unicode` package is one); so a `POST` is refused by `["GET"]`, `get` is
accepted by `["GET"]`, and the empty list accepts every method. -/
theorem isMethodAllowed_iff (fold : Char → Char)
    (hascii : ∀ c : Char, c.toNat < 128 → fold c = c.toLower)
    (method : String) (allowedMethods : List String) :
    (isMethodAllowedBy fold method allowedMethods = true ↔
      allowedMethods = [] ∨ ∃ a ∈ allowedMethods, EqualIgnoringCaseBy fold a method) ∧
    isMethodAllowedBy fold "POST" ["GET"] = false ∧
    isMethodAllowedBy fold "get" ["GET"] = true ∧
    isMethodAllowedBy fold method [] = true ∧
    isMethodAllowed method allowedMethods =
      isMethodAllowedBy Char.toLower method allowedMethods := by
  refine ⟨?_, ?_, ?_, rfl, rfl⟩
  · unfold isMethodAllowedBy
    cases allowedMethods with
    | nil => simp
    | cons a rest =>
      have hsymm : ∀ x : String,
          EqualIgnoringCaseBy fold x method ↔ EqualFoldBy fold method x = true := by
        intro x
        rw [EqualFoldBy_iff]
        unfold EqualIgnoringCaseBy
        constructor <;> intro h <;> exact (List.Forall₂.flip h).imp (fun _ _ h => h.symm)
      simp only [List.length_cons, Nat.succ_ne_zero, if_false, List.any_eq_true,
        List.cons_ne_nil, false_or, hsymm]
  · simp [isMethodAllowedBy, EqualFoldBy]
  · have hg : fold 'g' = fold 'G' := by
      rw [hascii 'g' (by decide), hascii 'G' (by decide)]; rfl
    have he : fold 'e' = fold 'E' := by
      rw [hascii 'e' (by decide), hascii 'E' (by decide)]; rfl
    have ht : fold 't' = fold 'T' := by
      rw [hascii 't' (by decide), hascii 'T' (by decide)]; rfl
    simp [isMethodAllowedBy, EqualFoldBy, hg, he, ht]

theorem kelvinFold_ascii (c : Char) (h : c.toNat < 128) : kelvinFold c = c.toLower := by
  unfold kelvinFold
  rw [if_neg]
  intro hc
  rw [hc] at h
  exact absurd h (by decide)

theorem isMethodAllowed_iff_witness :
    (∀ c : Char, c.toNat < 128 → kelvinFold c = c.toLower) ∧
    isMethodAllowedBy kelvinFold "get" ["GET"] = true ∧
    isMethodAllowedBy kelvinFold "POST" ["GET"] = false ∧
    isMethodAllowedBy kelvinFold "OK" ["oK"] = true ∧
    isMethodAllowed "OK" ["oK"] = false ∧
    (isMethodAllowedBy kelvinFold "OK" ["oK"] = true ↔
      ["oK"] = [] ∨ ∃ a ∈ ["oK"], EqualIgnoringCaseBy kelvinFold a "OK") :=
  ⟨kelvinFold_ascii,
   (isMethodAllowed_iff kelvinFold kelvinFold_ascii "get" ["GET"]).2.2.1,
   (isMethodAllowed_iff kelvinFold kelvinFold_ascii "POST" ["GET"]).2.1,
   by decide, by decide,
   (isMethodAllowed_iff kelvinFold kelvinFold_ascii "OK" ["oK"]).1⟩

/-- The invariant of the reachable states: configuration as constructed, and
every bucket within bounds and refilled no later than the latest reading. -/
theorem TokenBucketLimiter.Reachable.inv (rps burst : Int) (l : TokenBucketLimiter)
    (t : Int) (hb : 1 ≤ burst) (hr : 0 ≤ rps)
    (h : TokenBucketLimiter.Reachable rps burst l t) :
    l.rate = (rps : ℚ) ∧ l.capacity = burst ∧
    ∀ key b, l.buckets key = some b →
      0 ≤ b.tokens ∧ b.tokens ≤ (burst : ℚ) ∧ b.lastRefill ≤ t := by
  have hb1 : (1 : ℚ) ≤ (burst : ℚ) := by exact_mod_cast hb
  have hr0 : (0 : ℚ) ≤ (rps : ℚ) := by exact_mod_cast hr
  induction h with
  | init t => exact ⟨rfl, rfl, fun key b hkb => by simp [NewTokenBucketLimiter] at hkb⟩
  | @allow l t now key _ hle ih =>
    obtain ⟨hrate, hcap, hbk⟩ := ih
    have hold : ∀ k b, l.buckets k = some b →
        0 ≤ b.tokens ∧ b.tokens ≤ (burst : ℚ) ∧ b.lastRefill ≤ now :=
      fun k b hkb => ⟨(hbk k b hkb).1, (hbk k b hkb).2.1, le_trans (hbk k b hkb).2.2 hle⟩
    have hset : ∀ nb : tokenBucket, 0 ≤ nb.tokens → nb.tokens ≤ (burst : ℚ) →
        nb.lastRefill ≤ now →
        (l.setBucket key nb).rate = (rps : ℚ) ∧ (l.setBucket key nb).capacity = burst ∧
        ∀ k b, (l.setBucket key nb).buckets k = some b →
          0 ≤ b.tokens ∧ b.tokens ≤ (burst : ℚ) ∧ b.lastRefill ≤ now := by
      intro nb h0 h1 h2
      refine ⟨hrate, hcap, fun k b hkb => ?_⟩
      simp only [TokenBucketLimiter.setBucket] at hkb
      split at hkb
      · cases hkb
        exact ⟨h0, h1, h2⟩
      · exact hold k b hkb
    unfold TokenBucketLimiter.Allow
    by_cases hkey : key = ""
    · rw [if_pos hkey]
      exact ⟨hrate, hcap, hold⟩
    · rw [if_neg hkey]
      cases hbucket : l.buckets key with
      | none =>
        simp only
        exact hset _ (by simp only [hcap]; linarith) (by simp only [hcap]; linarith) le_rfl
      | some bucket =>
        obtain ⟨h0, h1, h2⟩ := hbk key bucket hbucket
        have hel : (0 : ℚ) ≤ Seconds (now - bucket.lastRefill) * l.rate := by
          rw [Seconds_eq, hrate]
          apply mul_nonneg _ hr0
          apply div_nonneg _ (by norm_num)
          exact_mod_cast (by omega : (0 : Int) ≤ now - bucket.lastRefill)
        have hlevel0 : (0 : ℚ) ≤ min ((l.capacity : Int) : ℚ)
            (bucket.tokens + Seconds (now - bucket.lastRefill) * l.rate) := by
          rw [hcap]
          exact le_min (by linarith) (by linarith)
        have hlevel1 : min ((l.capacity : Int) : ℚ)
            (bucket.tokens + Seconds (now - bucket.lastRefill) * l.rate) ≤ (burst : ℚ) := by
          rw [hcap]
          exact min_le_left _ _
        simp only
        split
        · rename_i hge
          exact hset _ (by simp only; linarith) (by simp only; linarith) le_rfl
        · exact hset _ hlevel0 hlevel1 le_rfl
  | @sweep l t now _ hle ih =>
    obtain ⟨hrate, hcap, hbk⟩ := ih
    refine ⟨hrate, hcap, fun k b hkb => ?_⟩
    simp only [TokenBucketLimiter.cleanupStaleBuckets] at hkb
    cases hbucket : l.buckets k with
    | none => simp [hbucket] at hkb
    | some bucket =>
      simp only [hbucket] at hkb
      split at hkb
      · cases hkb
      · cases hkb
        exact ⟨(hbk k b hbucket).1, (hbk k b hbucket).2.1, le_trans (hbk k b hbucket).2.2 hle⟩

/-- C15, as amended: for a limiter constructed with capacity at least 1 and a
rate that is not negative, in every state reachable by `Allow` calls and idle
sweeps every stored bucket satisfies `0 <= tokens <= capacity`. -/
theorem TokenBucketLimiter.tokens_within_capacity (rps burst : Int) (l : TokenBucketLimiter)
    (t : Int) (hb : 1 ≤ burst) (hr : 0 ≤ rps)
    (h : TokenBucketLimiter.Reachable rps burst l t) (key : String) (b : tokenBucket)
    (hkb : l.buckets key = some b) :
    0 ≤ b.tokens ∧ b.tokens ≤ (l.capacity : ℚ) := by
  obtain ⟨_, hcap, hbk⟩ := TokenBucketLimiter.Reachable.inv rps burst l t hb hr h
  rw [hcap]
  exact ⟨(hbk key b hkb).1, (hbk key b hkb).2.1⟩

theorem TokenBucketLimiter.tokens_within_capacity_witness :
    TokenBucketLimiter.Reachable 1 5 ((NewTokenBucketLimiter 1 5).Allow 0 "client").2 0 ∧
    ((NewTokenBucketLimiter 1 5).Allow 0 "client").2.buckets "client" = some ⟨4, 0⟩ ∧
    (0 : ℚ) ≤ 4 ∧ (4 : ℚ) ≤ ((((NewTokenBucketLimiter 1 5).Allow 0 "client").2.capacity : Int) : ℚ) :=
  have hreach : TokenBucketLimiter.Reachable 1 5
      ((NewTokenBucketLimiter 1 5).Allow 0 "client").2 0 :=
    .allow 0 "client" (.init 0) le_rfl
  have hbucket : ((NewTokenBucketLimiter 1 5).Allow 0 "client").2.buckets "client" =
      some ⟨4, 0⟩ := by
    have hne : ("client" : String) ≠ "" := by decide
    norm_num [TokenBucketLimiter.Allow, TokenBucketLimiter.setBucket, NewTokenBucketLimiter,
      hne]
  ⟨hreach, hbucket,
    TokenBucketLimiter.tokens_within_capacity 1 5 _ 0 (by decide) (by decide) hreach "client"
      ⟨4, 0⟩ hbucket⟩

/-- C15 as stated fails: with capacity 0 the first call stores a bucket of -1
token, and with a negative rate a later call stores a negative level. -/
theorem TokenBucketLimiter.negative_tokens :
    (∃ l t b, TokenBucketLimiter.Reachable 1 0 l t ∧ l.buckets "client" = some b ∧
      b.tokens < 0) ∧
    (∃ l t b, TokenBucketLimiter.Reachable (-1) 5 l t ∧ l.buckets "client" = some b ∧
      b.tokens < 0) := by
  have hne : ("client" : String) ≠ "" := by decide
  constructor
  · refine ⟨_, 0, ⟨-1, 0⟩, .allow 0 "client" (.init 0) le_rfl, ?_, by norm_num⟩
    norm_num [TokenBucketLimiter.Allow, TokenBucketLimiter.setBucket, NewTokenBucketLimiter,
      hne]
  · refine ⟨_, 10000000000, ⟨-6, 10000000000⟩,
      .allow 10000000000 "client" (.allow 0 "client" (.init 0) le_rfl) (by decide), ?_,
      by norm_num⟩
    norm_num [TokenBucketLimiter.Allow, TokenBucketLimiter.setBucket, NewTokenBucketLimiter,
      Seconds_eq, hne]

/-- C16, as amended: a successful `Allow` at `now` (milliseconds) with
`windowStart = now - windowMillis` queues, for the key's sorted set, the addition
of one member scored at `now`, the removal of the members scored at or below
`windowStart` and of no others (a member scored exactly `windowStart` is removed
and does not count), the cardinality read and the expiry of `window + 1 s` in
whole seconds (the fraction of a second dropped, a positive time below one
second sent as 1 s); the decision is `cardinality <= limit`, and the set left
behind expires that many seconds after `now`. -/
theorem RedisSlidingWindowLimiter.Allow_batch (l : RedisSlidingWindowLimiter)
    (store : Store) (now nano : Int) (key : String) (hkey : key ≠ "")
    (member : Member) (before added kept : List (Member × Int))
    (hmember : member = ⟨now, nano.tmod 1000000, (l.counter + 1) % 2 ^ 64⟩)
    (hbefore : before = (store.live now (l.redisKey key)).zset)
    (hadded : added = zadd before now member)
    (hkept : kept = added.filter (fun e => decide (now - l.windowMillis < e.2))) :
    (l.Allow store now nano .up key).issued =
      [.ZAdd (l.redisKey key) now member,
       .ZRemRangeByScore (l.redisKey key) (now - l.windowMillis),
       .ZCard (l.redisKey key),
       .Expire (l.redisKey key) (formatSec (l.window + 1000000000))] ∧
    ((∀ e ∈ before, e.1 ≠ member) → added = before ++ [(member, now)]) ∧
    (∀ e ∈ added, e ∈ kept ↔ ¬ e.2 ≤ now - l.windowMillis) ∧
    (l.Allow store now nano .up key).result = (decide ((kept.length : Int) ≤ l.limit), none) ∧
    (l.Allow store now nano .up key).store (l.redisKey key) =
      (if kept = [] ∨ formatSec (l.window + 1000000000) ≤ 0 then ⟨[], none⟩
       else ⟨kept,
         some (now * 1000000 + formatSec (l.window + 1000000000) * 1000000000)⟩) := by
  obtain ⟨hres, _, hstore⟩ := Allow_up l store now nano key hkey
  subst hmember hbefore hadded hkept
  refine ⟨?_, fun hnew => zadd_new _ _ _ hnew, fun e he => ?_, ?_, ?_⟩
  · unfold RedisSlidingWindowLimiter.Allow
    rw [if_neg hkey]
    rfl
  · simp only [List.mem_filter, he, true_and, decide_eq_true_eq, not_le]
  · rw [hres]
    rfl
  · rw [hstore, Store.put_self]
    unfold batchValue
    simp only [Store.live]
    by_cases h1 : List.filter (fun e => decide (now - l.windowMillis < e.2))
        (zadd ((store (l.redisKey key)).liveAt now).zset now
          ⟨now, nano.tmod 1000000, (l.counter + 1) % 2 ^ 64⟩) = []
    · simp only [h1, if_true, true_or]
    · by_cases h2 : formatSec (l.window + 1000000000) ≤ 0
      · simp only [h1, h2, if_true, if_false, or_true]
      · simp only [h1, h2, if_false, or_self]

theorem RedisSlidingWindowLimiter.Allow_batch_witness :
    (boundaryLimiter.Allow Store.empty 0 0 .up "k").result = (true, none) ∧
    (boundaryLimiter.Allow Store.empty 0 0 .up "k").store "rate_limit:k" =
      ⟨[(⟨0, 0, 1⟩, 0)], some 2000000000⟩ ∧
    (halfSecondLimiter.Allow Store.empty 0 0 .up "k").issued =
      [.ZAdd "rate_limit:k" 0 ⟨0, 0, 1⟩, .ZRemRangeByScore "rate_limit:k" (-1500),
       .ZCard "rate_limit:k", .Expire "rate_limit:k" 2] ∧
    (halfSecondLimiter.Allow Store.empty 0 0 .up "k").store "rate_limit:k" =
      ⟨[(⟨0, 0, 1⟩, 0)], some 2000000000⟩ :=
  ⟨((boundaryLimiter.Allow_batch Store.empty 0 0 "k" (by decide) ⟨0, 0, 1⟩ []
      [(⟨0, 0, 1⟩, 0)] [(⟨0, 0, 1⟩, 0)] (by decide) (by decide) (by decide)
      (by decide)).2.2.2.1).trans (by decide),
   ((boundaryLimiter.Allow_batch Store.empty 0 0 "k" (by decide) ⟨0, 0, 1⟩ []
      [(⟨0, 0, 1⟩, 0)] [(⟨0, 0, 1⟩, 0)] (by decide) (by decide) (by decide)
      (by decide)).2.2.2.2).trans (by decide),
   ((halfSecondLimiter.Allow_batch Store.empty 0 0 "k" (by decide) ⟨0, 0, 1⟩ []
      [(⟨0, 0, 1⟩, 0)] [(⟨0, 0, 1⟩, 0)] (by decide) (by decide) (by decide)
      (by decide)).1).trans (by decide),
   ((halfSecondLimiter.Allow_batch Store.empty 0 0 "k" (by decide) ⟨0, 0, 1⟩ []
      [(⟨0, 0, 1⟩, 0)] [(⟨0, 0, 1⟩, 0)] (by decide) (by decide) (by decide)
      (by decide)).2.2.2.2).trans (by decide)⟩

/-- C16 as stated fails twice. The member scored exactly `windowStart` is
removed, not kept: with limit 1 and a window of 1 s, the call at 1000 ms has
`windowStart = 0`; the member the call at 0 ms left (score 0) is gone after it,
the set holds the new member alone, and the call is allowed. And the expiry is
not `window + 1 s`: with a window of 1.5 s the client sends `EXPIRE` with 2
seconds, so the key expires 2 s after the call, not 2.5 s. -/
theorem RedisSlidingWindowLimiter.member_at_windowStart_removed :
    ((1000 : Int) - boundaryLimiter.windowMillis = 0 ∧
      ((boundaryLimiter.after Store.empty (callsAt "k" [0])).2 "rate_limit:k").zset =
        [(⟨0, 0, 1⟩, 0)] ∧
      ((boundaryLimiter.after Store.empty (callsAt "k" [0, 1000])).2 "rate_limit:k").zset =
        [(⟨1000, 0, 2⟩, 1000)] ∧
      boundaryLimiter.decisions Store.empty (callsAt "k" [0, 1000]) = [true, true]) ∧
    (halfSecondLimiter.window + 1000000000 = 2500000000 ∧
      (halfSecondLimiter.Allow Store.empty 0 0 .up "k").issued.getLast? =
        some (.Expire "rate_limit:k" 2) ∧
      ((halfSecondLimiter.Allow Store.empty 0 0 .up "k").store "rate_limit:k").expireAt =
        some 2000000000 ∧
      ((halfSecondLimiter.Allow Store.empty 0 0 .up "k").store "rate_limit:k").liveAt 2000 =
        ⟨[], none⟩) := by
  decide

/-- C17, as amended: `AddRoute` sets the route of the node its normalised
pattern ends at, whatever the node carried, so the last registration of a
normalised pattern is the one stored; and for every sequence of `AddRoute` calls
with pairwise distinct normalised patterns, once a node carries a route no later
`AddRoute` of the sequence replaces it. -/
theorem route_set_once (regs later : List Registration) (keys : List String)
    (s : ServiceConfig)
    (hd : (regs ++ later).Pairwise (fun a b => routeKeys a.1 ≠ routeKeys b.1))
    (h : routeAt (buildRouter regs).root keys = some s) :
    routeAt (buildRouter (regs ++ later)).root keys = some s ∧
    (∀ (r : PriorityRouter) (path : String) (service : ServiceConfig),
      routeAt (r.AddRoute path service).root (routeKeys path) =
        some (storedRoute (path, service))) := by
  constructor
  · obtain ⟨reg, hs, hk, he⟩ := (routeAt_buildRouter regs keys s).1 h
    exact (routeAt_buildRouter (regs ++ later) keys s).2
      ⟨reg, stored_of_pairwise hd (List.mem_append_left _ hs.mem), hk, he⟩
  · intro r path service
    rw [routeAt_AddRoute, if_pos rfl]

theorem route_set_once_witness :
    routeAt (buildRouter [ordersRoute]).root ["api", "orders"] =
      some ⟨"orders", "http://orders:8080", [], 2, false⟩ ∧
    routeAt (buildRouter ([ordersRoute] ++ [apiWildcardRoute])).root ["api", "orders"] =
      some ⟨"orders", "http://orders:8080", [], 2, false⟩ :=
  ⟨by decide,
   (route_set_once [ordersRoute] [apiWildcardRoute] ["api", "orders"]
      ⟨"orders", "http://orders:8080", [], 2, false⟩ (by decide) (by decide)).1⟩

/-- C17 as stated fails: `/a/*` followed by `/a/:id` end at the same node, and
the second registration replaces the route of the first. -/
theorem route_replaced_by_later_registration :
    routeKeys starRoute.1 = routeKeys idRoute.1 ∧
    routeAt (buildRouter [starRoute]).root ["a", "*"] =
      some ⟨"first", "http://first:8080", [], 2, false⟩ ∧
    routeAt (buildRouter [starRoute, idRoute]).root ["a", "*"] =
      some ⟨"second", "http://second:8080", [], 2, false⟩ ∧
    (buildRouter [starRoute, idRoute]).FindBestMatch "/a/7" =
      some ⟨"second", "http://second:8080", [], 2, false⟩ := by
  decide

theorem splitChar_head (sep : Char) (cs : List Char) :
    (splitChar sep cs).head? = some (cs.takeWhile (fun c => c != sep)) := by
  induction cs with
  | nil => rfl
  | cons c rest ih =>
    unfold splitChar
    by_cases hc : c = sep
    · simp [hc]
    · rw [if_neg hc]
      cases hs : splitChar sep rest with
      | nil => simp [hs] at ih
      | cons h t =>
        rw [hs] at ih
        simp only [List.head?_cons, Option.some.injEq] at ih
        simp [hc, ih]

theorem Split_head (s : String) (sep : Char) :
    (Split s sep).head? = some (upToFirst sep s) := by
  unfold Split upToFirst
  rw [List.head?_map, splitChar_head]
  rfl

theorem GetClientIP_eq (r : Request) : GetClientIP r = clientIdentity r := by
  unfold GetClientIP clientIdentity
  by_cases h1 : r.Header.Get "X-Forwarded-For" = ""
  · have h3 := Split_head r.RemoteAddr ':'
    by_cases h2 : r.Header.Get "X-Real-IP" = ""
    · simp only [h1, h2, ne_eq, not_true_eq_false, if_false]
      cases hs : Split r.RemoteAddr ':' with
      | nil => simp [hs] at h3
      | cons a t =>
        rw [hs] at h3
        simp only [List.head?_cons, Option.some.injEq] at h3
        simp [h3]
    · simp only [h1, h2, ne_eq, not_true_eq_false, not_false_eq_true, if_false, if_true]
  · have h3 := Split_head (r.Header.Get "X-Forwarded-For") ','
    simp only [h1, ne_eq, not_false_eq_true, if_true]
    cases hs : Split (r.Header.Get "X-Forwarded-For") ',' with
    | nil => simp [hs] at h3
    | cons a t =>
      rw [hs] at h3
      simp only [List.head?_cons, Option.some.injEq] at h3
      simp [h3]

theorem rateLimitKey_ne_empty (ip path : String) : ip ++ ":" ++ path ≠ "" := by
  intro h
  have h2 := congrArg String.data h
  simp only [String.data_append] at h2
  have h3 := congrArg List.length h2
  simp at h3

theorem exec_failed_message (err : String) :
    "redis pipeline exec failed: " ++ err ≠ "rate limit key cannot be empty" := by
  intro h
  have h2 := congrArg String.data h
  rw [String.data_append] at h2
  have h3 := congrArg (List.take 2) h2
  rw [List.take_append_of_le_length (by decide)] at h3
  revert h3
  decide

theorem card_failed_message (err : String) :
    "redis zcard failed: " ++ err ≠ "rate limit key cannot be empty" := by
  intro h
  have h2 := congrArg String.data h
  rw [String.data_append] at h2
  have h3 := congrArg (List.take 2) h2
  rw [List.take_append_of_le_length (by decide)] at h3
  revert h3
  decide

/-- C18: `rateLimitMiddleware` passes to `Allow` the key made of the client
identity, a `:` and the URL path, the client identity being what `GetClientIP`
returns: the trimmed first comma-separated entry of `X-Forwarded-For` when
non-empty, else `X-Real-IP` when non-empty, else `RemoteAddr` up to its first
`:`. What the limiter answers for this key settles the request, for every
limiter: an error lets the next handler run, a refusal gives the 429 response
without the next handler, an admission hands over to the next handler; the
answers for other keys change nothing. The key is never empty, so neither
limiter answers it with the empty-key error. -/
theorem rateLimitMiddleware_key (p : ProxyHandler) (next : Handler) (w : ResponseWriter)
    (r : Request) :
    GetClientIP r = clientIdentity r ∧
    (∀ (allowed : Bool) (err : String),
      p.rateLimiter (clientIdentity r ++ ":" ++ r.URL.Path) = (allowed, some err) →
      rateLimitMiddleware p next w r =
        ((next w r).1,
          Event.allow (clientIdentity r ++ ":" ++ r.URL.Path) ::
            .logError "Rate limiter error" :: .callNext :: (next w r).2)) ∧
    (p.rateLimiter (clientIdentity r ++ ":" ++ r.URL.Path) = (false, none) →
      rateLimitMiddleware p next w r =
        (httpError
          { w with header :=
              (w.header.Set "X-RateLimit-Limit" "Exceeded").Set "Retry-After" "1" }
          "Rate limit exceeded" 429,
          [Event.allow (clientIdentity r ++ ":" ++ r.URL.Path),
            .logError "Rate limit exceeded"])) ∧
    (p.rateLimiter (clientIdentity r ++ ":" ++ r.URL.Path) = (true, none) →
      rateLimitMiddleware p next w r =
        ((next w r).1,
          Event.allow (clientIdentity r ++ ":" ++ r.URL.Path) :: .callNext :: (next w r).2)) ∧
    (∀ p2 : ProxyHandler,
      p2.rateLimiter (clientIdentity r ++ ":" ++ r.URL.Path) =
        p.rateLimiter (clientIdentity r ++ ":" ++ r.URL.Path) →
      rateLimitMiddleware p2 next w r = rateLimitMiddleware p next w r) ∧
    clientIdentity r ++ ":" ++ r.URL.Path ≠ "" ∧
    (∀ (l : TokenBucketLimiter) (now : Int),
      (l.Allow now (clientIdentity r ++ ":" ++ r.URL.Path)).1.2 = none) ∧
    (∀ (l : RedisSlidingWindowLimiter) (store : Store) (now nano : Int) (link : Link),
      (l.Allow store now nano link (clientIdentity r ++ ":" ++ r.URL.Path)).result.2 ≠
        some "rate limit key cannot be empty") := by
  have hne := rateLimitKey_ne_empty (clientIdentity r) r.URL.Path
  refine ⟨GetClientIP_eq r, ?_, ?_, ?_, ?_, hne, ?_, ?_⟩
  · intro allowed err hr
    simp [rateLimitMiddleware, GetClientIP_eq, hr]
  · intro hr
    simp [rateLimitMiddleware, GetClientIP_eq, hr]
  · intro hr
    simp [rateLimitMiddleware, GetClientIP_eq, hr]
  · intro p2 h2
    unfold rateLimitMiddleware
    rw [GetClientIP_eq]
    simp only [h2]
  · intro l now
    unfold TokenBucketLimiter.Allow
    rw [if_neg hne]
    cases l.buckets (clientIdentity r ++ ":" ++ r.URL.Path) with
    | none => rfl
    | some b =>
      simp only
      split <;> rfl
  · intro l store now nano link
    unfold RedisSlidingWindowLimiter.Allow
    rw [if_neg hne]
    cases link with
    | up => simp
    | execFailed applied err =>
      simp only [ne_eq, Option.some.injEq]
      exact exec_failed_message err
    | cardFailed err =>
      simp only [ne_eq, Option.some.injEq]
      exact card_failed_message err

theorem rateLimitMiddleware_key_witness :
    clientIdentity exampleProxied = "203.0.113.7" ∧
    clientIdentity exampleGet = "10.0.0.1" ∧
    (exampleKeyedProxy "203.0.113.7:/api/users").rateLimiter
      (clientIdentity exampleProxied ++ ":" ++ exampleProxied.URL.Path) = (false, none) ∧
    rateLimitMiddleware (exampleKeyedProxy "203.0.113.7:/api/users")
        (forwardRequest (exampleKeyedProxy "203.0.113.7:/api/users")) (.unwritten [])
        exampleProxied =
      (httpError
        ⟨(Header.Set [] "X-RateLimit-Limit" "Exceeded").Set "Retry-After" "1", none, []⟩
        "Rate limit exceeded" 429,
        [Event.allow (clientIdentity exampleProxied ++ ":" ++ exampleProxied.URL.Path),
          .logError "Rate limit exceeded"]) ∧
    (ServeHTTP (exampleKeyedProxy "203.0.113.7:/api/users") (.unwritten [])
      exampleProxied).1.statusCode = some 429 ∧
    (ServeHTTP (exampleKeyedProxy "10.0.0.1:/api/users") (.unwritten [])
      exampleProxied).1.statusCode = some 401 ∧
    (ServeHTTP (exampleKeyedProxy "203.0.113.7:/api/users") (.unwritten [])
      exampleGet).1.statusCode = some 201 :=
  ⟨by decide, by decide, by decide,
   (rateLimitMiddleware_key (exampleKeyedProxy "203.0.113.7:/api/users")
      (forwardRequest (exampleKeyedProxy "203.0.113.7:/api/users")) (.unwritten [])
      exampleProxied).2.2.1 (by decide),
   by decide, by decide, by decide⟩

/-- C19: when the store answers the ping, `NewRedisSlidingWindowLimiter`
returns a limiter whose limit is the given one if positive and 100 otherwise,
and whose window is the given one if positive and 30 s otherwise; when the ping
fails it returns the error and no limiter. -/
theorem NewRedisSlidingWindowLimiter_defaults (cfg : config.RedisConfig)
    (limit window : Int) :
    (∃ l, NewRedisSlidingWindowLimiter cfg limit window none = .ok l ∧
      l.limit = (if 0 < limit then limit else 100) ∧
      l.window = (if 0 < window then window else 30 * 1000000000)) ∧
    (∀ err, NewRedisSlidingWindowLimiter cfg limit window (some err) = .error err) := by
  refine ⟨⟨_, rfl, ?_, ?_⟩, fun err => rfl⟩
  · show (if limit ≤ 0 then 100 else limit) = if 0 < limit then limit else 100
    split <;> split <;> omega
  · show (if window ≤ 0 then 30 * 1000000000 else window) =
      if 0 < window then window else 30 * 1000000000
    split <;> split <;> omega

theorem allowedWithin_cons (t0 : Int) (T : ℚ) (now : Int) (times : List Int) (d : Bool)
    (ds : List Bool) :
    allowedWithin t0 T (now :: times) (d :: ds) =
      (if Seconds (now - t0) ≤ T ∧ d = true then 1 else 0) + allowedWithin t0 T times ds := by
  unfold allowedWithin
  by_cases h : Seconds (now - t0) ≤ T ∧ d = true
  · rw [if_pos h, List.zip_cons_cons, List.filter_cons_of_pos (by simpa using h)]
    simp only [List.length_cons]
    omega
  · rw [if_neg h, List.zip_cons_cons, List.filter_cons_of_neg (by simpa using h)]
    omega

/-- No call made later than `T` seconds after `t0` is counted. -/
theorem allowedWithin_beyond (t0 : Int) (T : ℚ) (times : List Int)
    (h : ∀ t ∈ times, T < Seconds (t - t0)) (ds : List Bool) :
    allowedWithin t0 T times ds = 0 := by
  induction times generalizing ds with
  | nil => simp [allowedWithin]
  | cons t rest ih =>
    cases ds with
    | nil => simp [allowedWithin]
    | cons d ds =>
      rw [allowedWithin_cons, ih (fun x hx => h x (List.mem_cons_of_mem _ hx)),
        if_neg (fun hc => absurd hc.1 (not_le.2 (h t (List.mem_cons_self _ _))))]

/-- A run without an allowed call counts nothing. -/
theorem allowedWithin_denied (t0 : Int) (T : ℚ) (times : List Int) (ds : List Bool)
    (h : ∀ d ∈ ds, d = false) : allowedWithin t0 T times ds = 0 := by
  induction times generalizing ds with
  | nil => simp [allowedWithin]
  | cons t rest ih =>
    cases ds with
    | nil => simp [allowedWithin]
    | cons d ds =>
      have hd : d = false := h d (List.mem_cons_self _ _)
      rw [allowedWithin_cons, ih ds (fun x hx => h x (List.mem_cons_of_mem _ hx)),
        if_neg (fun hc => by rw [hd] at hc; exact Bool.false_ne_true hc.2)]

/-- Every call with the empty key is refused. -/
theorem allowAt_empty_key (l : TokenBucketLimiter) (times : List Int) :
    ∀ d ∈ (l.allowAt "" times).1, d = false := by
  induction times generalizing l with
  | nil => intro d hd; simp [TokenBucketLimiter.allowAt] at hd
  | cons t rest ih =>
    intro d hd
    simp only [TokenBucketLimiter.allowAt, List.mem_cons] at hd
    rcases hd with hd | hd
    · rw [hd]; simp [TokenBucketLimiter.Allow]
    · exact ih _ d hd

/-- The call on a key that has a bucket: the refill, then the decision. -/
theorem Allow_existing (l : TokenBucketLimiter) (now : Int) (key : String) (b : tokenBucket)
    (hkey : key ≠ "") (hb : l.buckets key = some b) :
    l.Allow now key =
      if 1 ≤ min (l.capacity : ℚ) (b.tokens + Seconds (now - b.lastRefill) * l.rate) then
        ((true, none), l.setBucket key
          ⟨min (l.capacity : ℚ) (b.tokens + Seconds (now - b.lastRefill) * l.rate) - 1, now⟩)
      else
        ((false, none), l.setBucket key
          ⟨min (l.capacity : ℚ) (b.tokens + Seconds (now - b.lastRefill) * l.rate), now⟩) := by
  unfold TokenBucketLimiter.Allow
  rw [if_neg hkey, hb]

/-- The allowance left to a bucket: from a bucket last refilled within `T` seconds
of `t0`, the calls made until `T` seconds after `t0` that are allowed number at
most the tokens of the bucket plus what the rate refills until then. -/
theorem allowAt_allowedWithin_le (key : String) (hkey : key ≠ "") (t0 : Int) (T : ℚ)
    (times : List Int) :
    ∀ (l : TokenBucketLimiter) (b : tokenBucket), l.buckets key = some b → 0 ≤ l.rate →
      0 ≤ b.tokens → b.tokens ≤ (l.capacity : ℚ) →
      (b.lastRefill :: times).Pairwise (fun a c => a ≤ c) →
      Seconds (b.lastRefill - t0) ≤ T →
      (allowedWithin t0 T times (l.allowAt key times).1 : ℚ) ≤
        b.tokens + l.rate * (T - Seconds (b.lastRefill - t0)) := by
  induction times with
  | nil =>
    intro l b _ hR h0 _ _ hin
    have : 0 ≤ l.rate * (T - Seconds (b.lastRefill - t0)) :=
      mul_nonneg hR (by linarith)
    simp only [allowedWithin, List.zip_nil_left, List.filter_nil, List.length_nil,
      Nat.cast_zero]
    linarith
  | cons t rest ih =>
    intro l b hb hR h0 hcap hmono hin
    have hrem : 0 ≤ l.rate * (T - Seconds (b.lastRefill - t0)) :=
      mul_nonneg hR (by linarith)
    rw [List.pairwise_cons] at hmono
    have hlt : b.lastRefill ≤ t := hmono.1 t (List.mem_cons_self _ _)
    have hrest : (t :: rest).Pairwise (fun a c => a ≤ c) := hmono.2
    by_cases hwithin : Seconds (t - t0) ≤ T
    · have hel : 0 ≤ Seconds (t - b.lastRefill) := by
        rw [Seconds_eq]
        have : (0 : ℚ) ≤ ((t - b.lastRefill : Int) : ℚ) := by
          exact_mod_cast sub_nonneg.2 hlt
        positivity
      have hsum : Seconds (t - b.lastRefill) + (T - Seconds (t - t0)) =
          T - Seconds (b.lastRefill - t0) := by
        simp only [Seconds_eq]
        push_cast
        ring
      have hprod : Seconds (t - b.lastRefill) * l.rate + l.rate * (T - Seconds (t - t0)) =
          l.rate * (T - Seconds (b.lastRefill - t0)) := by
        rw [← hsum]; ring
      have hfill : 0 ≤ Seconds (t - b.lastRefill) * l.rate := mul_nonneg hel hR
      have hlevel_le : min (l.capacity : ℚ) (b.tokens + Seconds (t - b.lastRefill) * l.rate) ≤
          b.tokens + Seconds (t - b.lastRefill) * l.rate := min_le_right _ _
      have hlevel_cap : min (l.capacity : ℚ)
          (b.tokens + Seconds (t - b.lastRefill) * l.rate) ≤ (l.capacity : ℚ) :=
        min_le_left _ _
      have hlevel_0 : 0 ≤ min (l.capacity : ℚ)
          (b.tokens + Seconds (t - b.lastRefill) * l.rate) :=
        le_min (le_trans h0 hcap) (by linarith)
      have hstep := Allow_existing l t key b hkey hb
      by_cases hone : 1 ≤ min (l.capacity : ℚ) (b.tokens + Seconds (t - b.lastRefill) * l.rate)
      · rw [if_pos hone] at hstep
        have hnext := ih (l.setBucket key
          ⟨min (l.capacity : ℚ) (b.tokens + Seconds (t - b.lastRefill) * l.rate) - 1, t⟩)
          ⟨min (l.capacity : ℚ) (b.tokens + Seconds (t - b.lastRefill) * l.rate) - 1, t⟩
          (setBucket_buckets_self _ _ _) hR
          (by
            show (0 : ℚ) ≤
              min (l.capacity : ℚ) (b.tokens + Seconds (t - b.lastRefill) * l.rate) - 1
            linarith)
          (by
            show min (l.capacity : ℚ) (b.tokens + Seconds (t - b.lastRefill) * l.rate) - 1 ≤
              (l.capacity : ℚ)
            linarith) hrest hwithin
        simp only [TokenBucketLimiter.allowAt, hstep]
        rw [allowedWithin_cons]
        rw [if_pos ⟨hwithin, rfl⟩]
        push_cast
        have hrate : (l.setBucket key
          ⟨min (l.capacity : ℚ) (b.tokens + Seconds (t - b.lastRefill) * l.rate) - 1,
            t⟩).rate = l.rate := rfl
        rw [hrate] at hnext
        dsimp only at hnext
        linarith
      · rw [if_neg hone] at hstep
        have hnext := ih (l.setBucket key
          ⟨min (l.capacity : ℚ) (b.tokens + Seconds (t - b.lastRefill) * l.rate), t⟩)
          ⟨min (l.capacity : ℚ) (b.tokens + Seconds (t - b.lastRefill) * l.rate), t⟩
          (setBucket_buckets_self _ _ _) hR hlevel_0 hlevel_cap hrest hwithin
        simp only [TokenBucketLimiter.allowAt, hstep]
        rw [allowedWithin_cons]
        rw [if_neg (fun hc => Bool.false_ne_true hc.2)]
        push_cast
        have hrate : (l.setBucket key
          ⟨min (l.capacity : ℚ) (b.tokens + Seconds (t - b.lastRefill) * l.rate),
            t⟩).rate = l.rate := rfl
        rw [hrate] at hnext
        dsimp only at hnext
        linarith
    · have hbeyond : ∀ x ∈ t :: rest, T < Seconds (x - t0) := by
        intro x hx
        have htx : t ≤ x := by
          rcases List.mem_cons.1 hx with hx | hx
          · rw [hx]
          · exact (List.pairwise_cons.1 hrest).1 x hx
        have : Seconds (t - t0) ≤ Seconds (x - t0) := by
          simp only [Seconds_eq]
          have : ((t - t0 : Int) : ℚ) ≤ ((x - t0 : Int) : ℚ) := by
            exact_mod_cast sub_le_sub_right htx t0
          exact div_le_div_of_nonneg_right this (by norm_num)
        exact lt_of_lt_of_le (not_le.1 hwithin) this
      rw [allowedWithin_beyond t0 T (t :: rest) hbeyond]
      push_cast
      linarith

/-- The rate bound in exact arithmetic: for a limiter of capacity `C ≥ 1` and
rate `R ≥ 0`, any key without a bucket and any run of `Allow` calls on that key
at non-decreasing instants `t0 :: times` (nothing else in between), the calls
that return allowed among those made within a span of `T ≥ 0` seconds of the
first call number at most `C + R * T`. -/
theorem allowed_rate_bound_exact (l : TokenBucketLimiter) (key : String)
    (t0 : Int) (times : List Int) (T : ℚ)
    (hC : 1 ≤ l.capacity) (hR : 0 ≤ l.rate) (hb : l.buckets key = none)
    (hmono : (t0 :: times).Pairwise (fun a c => a ≤ c)) (hT : 0 ≤ T) :
    (allowedWithin t0 T (t0 :: times) (l.allowAt key (t0 :: times)).1 : ℚ) ≤
      (l.capacity : ℚ) + l.rate * T := by
  have hC1 : (1 : ℚ) ≤ (l.capacity : ℚ) := by exact_mod_cast hC
  have hRT : 0 ≤ l.rate * T := mul_nonneg hR hT
  by_cases hkey : key = ""
  · rw [hkey, allowedWithin_denied t0 T _ _ (allowAt_empty_key l (t0 :: times))]
    push_cast
    linarith
  · have hfirst : l.Allow t0 key =
        ((true, none), l.setBucket key ⟨(l.capacity : ℚ) - 1, t0⟩) := by
      unfold TokenBucketLimiter.Allow
      rw [if_neg hkey, hb]
    have hzero : Seconds (t0 - t0) = 0 := by
      rw [Seconds_eq, sub_self, Int.cast_zero, zero_div]
    have hnext := allowAt_allowedWithin_le key hkey t0 T times
      (l.setBucket key ⟨(l.capacity : ℚ) - 1, t0⟩) ⟨(l.capacity : ℚ) - 1, t0⟩
      (setBucket_buckets_self _ _ _) hR (by show (0 : ℚ) ≤ (l.capacity : ℚ) - 1; linarith)
      (by show (l.capacity : ℚ) - 1 ≤ (l.capacity : ℚ); linarith) hmono
      (by show Seconds (t0 - t0) ≤ T; rw [hzero]; exact hT)
    have hrate : (l.setBucket key ⟨(l.capacity : ℚ) - 1, t0⟩).rate = l.rate := rfl
    rw [hrate] at hnext
    dsimp only at hnext
    simp only [TokenBucketLimiter.allowAt, hfirst]
    rw [allowedWithin_cons]
    rw [if_pos ⟨by rw [hzero]; exact hT, rfl⟩]
    push_cast
    have hz : Seconds (t0 - t0) = 0 := hzero
    simp only [hz, sub_zero] at hnext
    linarith

/-- A run that meets the bound: capacity 5 and one token a second, six calls at
the first instant and two a second later; five of the six and one of the two
are allowed. -/
theorem allowAt_bound_met :
    ((NewTokenBucketLimiter 1 5).allowAt "client"
      [0, 0, 0, 0, 0, 0, 1000000000, 1000000000]).1 =
      [true, true, true, true, true, false, true, false] := by
  have hne : ("client" : String) ≠ "" := by decide
  norm_num [TokenBucketLimiter.allowAt, TokenBucketLimiter.Allow, NewTokenBucketLimiter,
    TokenBucketLimiter.setBucket, Seconds_eq, hne]

theorem allowedWithin_bound_met :
    allowedWithin 0 1 [0, 0, 0, 0, 0, 0, 1000000000, 1000000000]
      [true, true, true, true, true, false, true, false] = 6 := by
  norm_num [allowedWithin, Seconds_eq]

theorem allowed_rate_bound_exact_example :
    (1 ≤ (NewTokenBucketLimiter 1 5).capacity ∧ 0 ≤ (NewTokenBucketLimiter 1 5).rate ∧
      (NewTokenBucketLimiter 1 5).buckets "client" = none ∧
      ((0 : Int) :: [0, 0, 0, 0, 0, 1000000000, 1000000000]).Pairwise (fun a c => a ≤ c) ∧
      (0 : ℚ) ≤ 1) ∧
    allowedWithin 0 1 (0 :: [0, 0, 0, 0, 0, 1000000000, 1000000000])
      ((NewTokenBucketLimiter 1 5).allowAt "client"
        (0 :: [0, 0, 0, 0, 0, 1000000000, 1000000000])).1 = 6 ∧
    (allowedWithin 0 1 (0 :: [0, 0, 0, 0, 0, 1000000000, 1000000000])
      ((NewTokenBucketLimiter 1 5).allowAt "client"
        (0 :: [0, 0, 0, 0, 0, 1000000000, 1000000000])).1 : ℚ) ≤
      (((NewTokenBucketLimiter 1 5).capacity : Int) : ℚ) + (NewTokenBucketLimiter 1 5).rate * 1 :=
  ⟨⟨by decide, by norm_num [NewTokenBucketLimiter], rfl, by decide, by norm_num⟩,
   by rw [allowAt_bound_met]; exact allowedWithin_bound_met,
   allowed_rate_bound_exact (NewTokenBucketLimiter 1 5) "client" 0
     [0, 0, 0, 0, 0, 1000000000, 1000000000] 1 (by decide)
     (by norm_num [NewTokenBucketLimiter]) rfl (by decide) (by norm_num)⟩

theorem bitLengthAux_zero (fuel : Nat) : bitLengthAux fuel 0 = 0 := by
  cases fuel <;> simp [bitLengthAux]

theorem bitLengthAux_spec (fuel n : Nat) (h : n ≤ fuel) :
    n < 2 ^ bitLengthAux fuel n ∧ (n ≠ 0 → 2 ^ (bitLengthAux fuel n - 1) ≤ n) := by
  induction fuel generalizing n with
  | zero =>
    have h0 : n = 0 := by omega
    subst h0
    simp [bitLengthAux]
  | succ f ih =>
    by_cases hn : n = 0
    · subst hn
      simp [bitLengthAux]
    · simp only [bitLengthAux, if_neg hn]
      have hle : n / 2 ≤ f := by omega
      obtain ⟨h1, h2⟩ := ih (n / 2) hle
      refine ⟨?_, fun _ => ?_⟩
      · rw [pow_succ]
        omega
      · rw [Nat.add_sub_cancel]
        by_cases h0 : n / 2 = 0
        · rw [h0, bitLengthAux_zero]
          simp
          omega
        · have h3 := h2 h0
          have hL : bitLengthAux f (n / 2) ≠ 0 := by
            intro hc
            rw [hc] at h1
            simp at h1
            exact h0 h1
          obtain ⟨L, hL2⟩ := Nat.exists_eq_succ_of_ne_zero hL
          rw [hL2] at h3 ⊢
          rw [Nat.succ_sub_one] at h3
          rw [pow_succ]
          omega

theorem bitLength_spec (n : Nat) :
    n < 2 ^ bitLength n ∧ (n ≠ 0 → 2 ^ (bitLength n - 1) ≤ n) :=
  bitLengthAux_spec n n le_rfl

theorem roundHalfEven_intCast (n : Int) : roundHalfEven (n : ℚ) = n := by
  unfold roundHalfEven
  simp

theorem abs_eq_natAbs_div_den (x : ℚ) : |x| = (x.num.natAbs : ℚ) / (x.den : ℚ) := by
  have h := Rat.num_div_den x
  have hd : (0 : ℚ) < (x.den : ℚ) := by exact_mod_cast x.den_pos
  conv_lhs => rw [← h]
  rw [abs_div, abs_of_pos hd, Nat.cast_natAbs, Int.cast_abs]

/-- The binary exponent is not above the magnitude. -/
theorem binaryExponent_le (x : ℚ) (hx : x ≠ 0) : (2 : ℚ) ^ binaryExponent x ≤ |x| := by
  unfold binaryExponent
  simp only
  split
  · have ha : x.num.natAbs ≠ 0 := by
      simpa [Int.natAbs_eq_zero] using (Rat.num_ne_zero.2 hx)
    have h1 := (bitLength_spec x.num.natAbs).2 ha
    have h2 := (bitLength_spec x.den).1
    have hla : bitLength x.num.natAbs ≠ 0 := by
      intro hc
      have h3 := (bitLength_spec x.num.natAbs).1
      rw [hc, pow_zero] at h3
      omega
    obtain ⟨L, hL⟩ := Nat.exists_eq_succ_of_ne_zero hla
    rw [hL] at h1 ⊢
    rw [Nat.succ_sub_one] at h1
    have e1 : ((L.succ : Nat) : Int) - (bitLength x.den : Int) - 1 =
        (L : Int) - (bitLength x.den : Int) := by
      push_cast
      ring
    rw [e1, zpow_sub₀ (by norm_num : (2 : ℚ) ≠ 0), zpow_natCast, zpow_natCast,
      abs_eq_natAbs_div_den]
    have hd : (0 : ℚ) < (x.den : ℚ) := by exact_mod_cast x.den_pos
    have q1 : ((2 : ℚ) ^ L) ≤ (x.num.natAbs : ℚ) := by exact_mod_cast h1
    have q2 : (x.den : ℚ) ≤ (2 : ℚ) ^ bitLength x.den := by exact_mod_cast h2.le
    have hp : (0 : ℚ) < (2 : ℚ) ^ bitLength x.den := by positivity
    rw [div_le_div_iff₀ hp hd]
    have hL0 : (0 : ℚ) ≤ (2 : ℚ) ^ L := by positivity
    calc (2 : ℚ) ^ L * (x.den : ℚ) ≤ (2 : ℚ) ^ L * (2 : ℚ) ^ bitLength x.den :=
          mul_le_mul_of_nonneg_left q2 hL0
      _ ≤ (x.num.natAbs : ℚ) * (2 : ℚ) ^ bitLength x.den :=
          mul_le_mul_of_nonneg_right q1 hp.le
  · rename_i h
    exact not_lt.1 h

/-- A value with a significand below `2 ^ 53` and a scale of at most `2 ^ 1074`
is a `float64`: rounding leaves it as it is. -/
theorem float64_dyadic (m : Int) (j : Nat) (hm : |m| < 2 ^ 53) (hj : j ≤ 1074) :
    float64 ((m : ℚ) / 2 ^ j) = (m : ℚ) / 2 ^ j := by
  by_cases hx : (m : ℚ) / 2 ^ j = 0
  · rw [hx]
    simp [float64]
  · unfold float64
    rw [if_neg hx]
    simp only
    have hle := binaryExponent_le _ hx
    generalize binaryExponent ((m : ℚ) / 2 ^ j) = e at hle ⊢
    have hpos : (0 : ℚ) < 2 ^ j := by positivity
    have habs : |(m : ℚ) / 2 ^ j| < (2 : ℚ) ^ ((53 : Int) - j) := by
      rw [abs_div, abs_of_pos hpos, zpow_sub₀ (by norm_num), zpow_natCast]
      apply div_lt_div_of_pos_right _ hpos
      have h2 : ((|m| : ℤ) : ℚ) < ((2 ^ 53 : ℤ) : ℚ) := by exact_mod_cast hm
      rw [Int.cast_abs] at h2
      have h3 : (2 : ℚ) ^ (53 : Int) = ((2 ^ 53 : ℤ) : ℚ) := by norm_num
      rw [h3]
      exact h2
    have hlt : (2 : ℚ) ^ e < (2 : ℚ) ^ ((53 : Int) - j) := lt_of_le_of_lt hle habs
    have he53 : e < 53 - j := (zpow_lt_zpow_iff_right₀ (by norm_num : (1 : ℚ) < 2)).1 hlt
    have hk : max (e - 52) (-1074) ≤ -(j : Int) := by
      apply max_le <;> omega
    obtain ⟨i, hi⟩ : ∃ i : Nat, max (e - 52) (-1074) = -((j : Int) + i) :=
      ⟨(-(j : Int) - max (e - 52) (-1074)).toNat, by
        rw [Int.toNat_of_nonneg (by omega)]
        ring⟩
    rw [hi]
    have hq : (2 : ℚ) ^ (-((j : Int) + i)) = 1 / (2 ^ j * 2 ^ i) := by
      rw [zpow_neg, ← Nat.cast_add, zpow_natCast, pow_add, one_div]
    rw [hq]
    have hi0 : (0 : ℚ) < 2 ^ i := by positivity
    have hdiv : (m : ℚ) / 2 ^ j / (1 / (2 ^ j * 2 ^ i)) = ((m * 2 ^ i : Int) : ℚ) := by
      push_cast
      field_simp
      ring
    rw [hdiv, roundHalfEven_intCast]
    push_cast
    field_simp
    ring

theorem float64_intCast (n : Int) (hn : |n| < 2 ^ 53) : float64 (n : ℚ) = n := by
  have h := float64_dyadic n 0 hn (by norm_num)
  simpa using h

theorem float64_zero : float64 0 = 0 := by
  simp [float64]

/-- Known values of the rounding: the `float64` nearest to one tenth, the tie
`2 ^ 53 + 1` going to the even significand below and `2 ^ 53 + 3` to the one
above, and the least subnormal. -/
theorem float64_values :
    float64 (1 / 10) = 3602879701896397 / 36028797018963968 ∧
    float64 9007199254740993 = 9007199254740992 ∧
    float64 9007199254740995 = 9007199254740996 ∧
    float64 (1 / 3) = 6004799503160661 / 18014398509481984 ∧
    float64 ((1 / 2) ^ 1075 + (1 / 2) ^ 1080) = (1 / 2) ^ 1074 := by
  decide!

/-- The binary exponent is the one of the magnitude: `|x|` lies below the next
power of two. -/
theorem binaryExponent_lt (x : ℚ) : |x| < (2 : ℚ) ^ (binaryExponent x + 1) := by
  unfold binaryExponent
  simp only
  split
  · rename_i h
    rw [sub_add_cancel]
    exact h
  · have h1 := (bitLength_spec x.num.natAbs).1
    have hb : x.den ≠ 0 := x.den_nz
    have h2 := (bitLength_spec x.den).2 hb
    have hlb : bitLength x.den ≠ 0 := by
      intro hc
      have h3 := (bitLength_spec x.den).1
      rw [hc, pow_zero] at h3
      omega
    obtain ⟨L, hL⟩ := Nat.exists_eq_succ_of_ne_zero hlb
    rw [hL] at h2 ⊢
    rw [Nat.succ_sub_one] at h2
    have e1 : (bitLength x.num.natAbs : Int) - ((L.succ : Nat) : Int) + 1 =
        (bitLength x.num.natAbs : Int) - (L : Int) := by
      push_cast
      ring
    rw [e1, zpow_sub₀ (by norm_num : (2 : ℚ) ≠ 0), zpow_natCast, zpow_natCast,
      abs_eq_natAbs_div_den]
    have hd : (0 : ℚ) < (x.den : ℚ) := by exact_mod_cast x.den_pos
    have hp : (0 : ℚ) < (2 : ℚ) ^ L := by positivity
    have q1 : (x.num.natAbs : ℚ) < (2 : ℚ) ^ bitLength x.num.natAbs := by exact_mod_cast h1
    have q2 : ((2 : ℚ) ^ L) ≤ (x.den : ℚ) := by exact_mod_cast h2
    rw [div_lt_div_iff₀ hd hp]
    have hq0 : (0 : ℚ) ≤ (x.num.natAbs : ℚ) := Nat.cast_nonneg _
    calc (x.num.natAbs : ℚ) * (2 : ℚ) ^ L ≤ (x.num.natAbs : ℚ) * (x.den : ℚ) :=
          mul_le_mul_of_nonneg_left q2 hq0
      _ < (2 : ℚ) ^ bitLength x.num.natAbs * (x.den : ℚ) :=
          mul_lt_mul_of_pos_right q1 hd

/-- Rounding to the nearest integer moves by at most one half. -/
theorem roundHalfEven_near (y : ℚ) : |(roundHalfEven y : ℚ) - y| ≤ 1 / 2 := by
  unfold roundHalfEven
  simp only
  have h1 := Int.floor_le y
  have h2 := Int.lt_floor_add_one y
  split
  · rw [abs_le]
    constructor <;> linarith
  · split
    · push_cast
      rw [abs_le]
      constructor <;> linarith
    · rename_i ha hb
      have he : y - (⌊y⌋ : ℚ) = 1 / 2 := le_antisymm (not_lt.1 hb) (not_lt.1 ha)
      split
      · rw [abs_le]
        constructor <;> linarith
      · push_cast
        rw [abs_le]
        constructor <;> linarith

/-- A `float64` is a nearest multiple of the spacing at its operand: the result
is an integer multiple of `2 ^ max (e - 52) (-1074)`, at most half of that away
from `x`. -/
theorem float64_nearest (x : ℚ) (hx : x ≠ 0) :
    (∃ n : Int, float64 x = (n : ℚ) * (2 : ℚ) ^ max (binaryExponent x - 52) (-1074)) ∧
    |float64 x - x| ≤ (2 : ℚ) ^ max (binaryExponent x - 52) (-1074) / 2 := by
  unfold float64
  rw [if_neg hx]
  simp only
  have hq : (0 : ℚ) < (2 : ℚ) ^ max (binaryExponent x - 52) (-1074) := by positivity
  refine ⟨⟨_, rfl⟩, ?_⟩
  have hn := roundHalfEven_near (x / (2 : ℚ) ^ max (binaryExponent x - 52) (-1074))
  have e : (roundHalfEven (x / (2 : ℚ) ^ max (binaryExponent x - 52) (-1074)) : ℚ) *
      (2 : ℚ) ^ max (binaryExponent x - 52) (-1074) - x =
      ((roundHalfEven (x / (2 : ℚ) ^ max (binaryExponent x - 52) (-1074)) : ℚ) -
        x / (2 : ℚ) ^ max (binaryExponent x - 52) (-1074)) *
        (2 : ℚ) ^ max (binaryExponent x - 52) (-1074) := by
    field_simp
  rw [e, abs_mul, abs_of_pos hq]
  calc _ ≤ 1 / 2 * (2 : ℚ) ^ max (binaryExponent x - 52) (-1074) :=
        mul_le_mul_of_nonneg_right hn hq.le
    _ = (2 : ℚ) ^ max (binaryExponent x - 52) (-1074) / 2 := by ring

/-- C6, as amended: for a non-empty key, `TokenBucketLimiter.Allow` is the
reference step computed in `float64` arithmetic (the capacity and the elapsed
seconds converted to `float64`, every sum, product and difference rounded to the
nearest `float64`): its decision is the step's decision with no error, the
bucket stored for the key is the step's bucket, and every other bucket and the
configuration are left as they were. -/
theorem TokenBucketLimiter.Allow_float64_eq_referenceStep (l : TokenBucketLimiter)
    (now : Int) (key : String) (hkey : key ≠ "") :
    (F64.Allow l now key).1 =
      ((F64.referenceStep l.capacity l.rate (l.buckets key) now).1, none) ∧
    (F64.Allow l now key).2.buckets key =
      some (F64.referenceStep l.capacity l.rate (l.buckets key) now).2 ∧
    (∀ k, k ≠ key → (F64.Allow l now key).2.buckets k = l.buckets k) ∧
    (F64.Allow l now key).2.rate = l.rate ∧
    (F64.Allow l now key).2.capacity = l.capacity ∧
    (F64.Allow l now key).2.cleanupTTL = l.cleanupTTL := by
  unfold F64.Allow F64.referenceStep
  rw [if_neg hkey]
  cases hb : l.buckets key with
  | none =>
    simp only [TokenBucketLimiter.setBucket, if_true, true_and]
    exact ⟨fun k hk => by simp [hk], trivial⟩
  | some b =>
    simp only [F64.Seconds]
    split
    · simp only [TokenBucketLimiter.setBucket, if_true, true_and]
      exact ⟨fun k hk => by simp [hk], trivial⟩
    · simp only [TokenBucketLimiter.setBucket, if_true, true_and]
      exact ⟨fun k hk => by simp [hk], trivial⟩

theorem TokenBucketLimiter.Allow_float64_eq_referenceStep_witness :
    "client" ≠ "" ∧
    (F64.Allow (F64.NewTokenBucketLimiter 1 5) 0 "client").1 = (true, none) ∧
    (F64.Allow (F64.NewTokenBucketLimiter 1 5) 0 "client").2.buckets "client" =
      some ⟨4, 0⟩ ∧
    (F64.Allow ((F64.NewTokenBucketLimiter 1 1).setBucket "client" ⟨0, 0⟩) 100000000
      "client").2.buckets "client" =
      some ⟨3602879701896397 / 36028797018963968, 100000000⟩ :=
  ⟨by decide,
   (TokenBucketLimiter.Allow_float64_eq_referenceStep (F64.NewTokenBucketLimiter 1 5) 0
      "client" (by decide)).1.trans (by decide!),
   (TokenBucketLimiter.Allow_float64_eq_referenceStep (F64.NewTokenBucketLimiter 1 5) 0
      "client" (by decide)).2.1.trans (by decide!),
   (TokenBucketLimiter.Allow_float64_eq_referenceStep
      ((F64.NewTokenBucketLimiter 1 1).setBucket "client" ⟨0, 0⟩) 100000000
      "client" (by decide)).2.1.trans (by decide!)⟩

/-- C6 as stated fails: the reference step in exact arithmetic is not what
`Allow` computes. With capacity 1 and rate 1 and calls 100 ms apart, the bucket
after the call at 100 ms holds the `float64` nearest to 0.1, not 0.1; ten such
refills sum to `1 - 2 ^ (-53)` at 1.0 s, so `Allow` denies the call at 1.0 s,
which the exact step allows, and allows the call at 1.1 s, which the exact step
denies. -/
theorem TokenBucketLimiter.float64_departs_from_exact_step :
    (F64.NewTokenBucketLimiter 1 1).capacity = 1 ∧
    (F64.NewTokenBucketLimiter 1 1).rate = 1 ∧
    (F64.allowAt (F64.NewTokenBucketLimiter 1 1) "client" tenthsOfASecond).1 =
      [true, false, false, false, false, false, false, false, false, false, false, true] ∧
    referenceRun 1 1 none tenthsOfASecond =
      [true, false, false, false, false, false, false, false, false, false, true, false] ∧
    (F64.Allow ((F64.NewTokenBucketLimiter 1 1).setBucket "client" ⟨0, 0⟩) 100000000
      "client").2.buckets "client" ≠
      some (referenceStep 1 1 (some ⟨0, 0⟩) 100000000).2 := by
  decide!

theorem float64_Allow_existing (l : TokenBucketLimiter) (now : Int) (key : String)
    (b : tokenBucket) (hkey : key ≠ "") (hb : l.buckets key = some b) :
    F64.Allow l now key =
      if 1 ≤ min (float64 (l.capacity : ℚ))
          (float64 (b.tokens + float64 (F64.Seconds (now - b.lastRefill) * l.rate))) then
        ((true, none), l.setBucket key
          ⟨float64 (min (float64 (l.capacity : ℚ))
            (float64 (b.tokens + float64 (F64.Seconds (now - b.lastRefill) * l.rate))) - 1),
            now⟩)
      else
        ((false, none), l.setBucket key
          ⟨min (float64 (l.capacity : ℚ))
            (float64 (b.tokens + float64 (F64.Seconds (now - b.lastRefill) * l.rate))),
            now⟩) := by
  unfold F64.Allow
  rw [if_neg hkey, hb]

theorem float64_Allow_new (l : TokenBucketLimiter) (now : Int) (key : String)
    (hkey : key ≠ "") (hb : l.buckets key = none) :
    F64.Allow l now key =
      ((true, none), l.setBucket key ⟨float64 (float64 (l.capacity : ℚ) - 1), now⟩) := by
  unfold F64.Allow
  rw [if_neg hkey, hb]

/-- Every call with the empty key is refused. -/
theorem float64_allowAt_empty_key (l : TokenBucketLimiter) (times : List Int) :
    ∀ d ∈ (F64.allowAt l "" times).1, d = false := by
  induction times generalizing l with
  | nil => intro d hd; simp [F64.allowAt] at hd
  | cons t rest ih =>
    intro d hd
    simp only [F64.allowAt, List.mem_cons] at hd
    rcases hd with hd | hd
    · rw [hd]; simp [F64.Allow]
    · exact ih _ d hd

theorem float64_allowAt_append (l : TokenBucketLimiter) (key : String) (a b : List Int) :
    (F64.allowAt l key (a ++ b)).1 =
      (F64.allowAt l key a).1 ++ (F64.allowAt (F64.allowAt l key a).2 key b).1 := by
  induction a generalizing l with
  | nil => rfl
  | cons x xs ih => simp [F64.allowAt, ih]

theorem float64_Seconds_zero : F64.Seconds 0 = 0 := by
  simp [F64.Seconds, float64_zero]

/-- A whole number of seconds converts exactly. -/
theorem float64_Seconds_whole (s : Int) (hs : |s| < 2 ^ 53) :
    F64.Seconds (s * 1000000000) = (s : ℚ) := by
  unfold F64.Seconds
  rw [Int.mul_tdiv_cancel s (by norm_num), Int.mul_tmod_left]
  simp only [Int.cast_zero, float64_zero, zero_div, add_zero, float64_intCast s hs]

/-- A call a whole number of seconds after the last refill, on a bucket holding
a whole number of tokens, with an integer rate and every value below `2 ^ 53`:
the `float64` operations are exact. -/
theorem float64_Allow_whole_seconds (l : TokenBucketLimiter) (now : Int) (key : String)
    (b : tokenBucket) (k s : Int) (R : Nat) (hkey : key ≠ "")
    (hb : l.buckets key = some b) (hk : b.tokens = (k : ℚ)) (hk0 : 0 ≤ k)
    (hkC : k ≤ l.capacity) (hR : l.rate = (R : ℚ))
    (hs : now - b.lastRefill = s * 1000000000) (hs0 : 0 ≤ s)
    (hC : l.capacity < 2 ^ 53) (hsum : k + s * R < 2 ^ 53) :
    F64.Allow l now key =
      if 1 ≤ min l.capacity (k + s * R) then
        ((true, none), l.setBucket key ⟨((min l.capacity (k + s * R) - 1 : Int) : ℚ), now⟩)
      else
        ((false, none), l.setBucket key ⟨((min l.capacity (k + s * R) : Int) : ℚ), now⟩) := by
  rw [float64_Allow_existing l now key b hkey hb]
  have hsR0 : 0 ≤ s * (R : Int) := mul_nonneg hs0 (Int.ofNat_nonneg R)
  have hcap : float64 (l.capacity : ℚ) = (l.capacity : ℚ) :=
    float64_intCast _ (by rw [abs_of_nonneg (le_trans hk0 hkC)]; exact hC)
  have hrefill : float64 (F64.Seconds (now - b.lastRefill) * l.rate) =
      ((s * (R : Int) : Int) : ℚ) := by
    rw [hs, hR]
    rcases Nat.eq_zero_or_pos R with h0 | hpos
    · subst h0
      simp [float64_zero]
    · have hsle : s ≤ s * (R : Int) := by
        have h1 : (1 : Int) ≤ (R : Int) := by exact_mod_cast hpos
        nlinarith
      rw [float64_Seconds_whole s (by rw [abs_of_nonneg hs0]; omega)]
      have e : (s : ℚ) * (R : ℚ) = ((s * (R : Int) : Int) : ℚ) := by push_cast; ring
      rw [e]
      exact float64_intCast _ (by rw [abs_of_nonneg hsR0]; omega)
  have hsumF : float64 (b.tokens + float64 (F64.Seconds (now - b.lastRefill) * l.rate)) =
      ((k + s * (R : Int) : Int) : ℚ) := by
    rw [hrefill, hk]
    have e : (k : ℚ) + ((s * (R : Int) : Int) : ℚ) = ((k + s * (R : Int) : Int) : ℚ) := by
      push_cast; ring
    rw [e]
    exact float64_intCast _ (by rw [abs_of_nonneg (by omega)]; exact hsum)
  have hlevel : min (float64 (l.capacity : ℚ))
      (float64 (b.tokens + float64 (F64.Seconds (now - b.lastRefill) * l.rate))) =
      ((min l.capacity (k + s * (R : Int)) : Int) : ℚ) := by
    rw [hcap, hsumF, Int.cast_min]
  rw [hlevel]
  have hm0 : 0 ≤ min l.capacity (k + s * (R : Int)) := le_min (le_trans hk0 hkC) (by omega)
  have hmC : min l.capacity (k + s * (R : Int)) ≤ l.capacity := min_le_left _ _
  by_cases h1 : 1 ≤ min l.capacity (k + s * (R : Int))
  · have h1q : (1 : ℚ) ≤ ((min l.capacity (k + s * (R : Int)) : Int) : ℚ) := by
      exact_mod_cast h1
    rw [if_pos h1q, if_pos h1]
    have e : ((min l.capacity (k + s * (R : Int)) : Int) : ℚ) - 1 =
        ((min l.capacity (k + s * (R : Int)) - 1 : Int) : ℚ) := by push_cast; ring
    rw [e, float64_intCast _ (by rw [abs_of_nonneg (by omega)]; omega)]
  · have h1q : ¬ (1 : ℚ) ≤ ((min l.capacity (k + s * (R : Int)) : Int) : ℚ) := by
      intro hc
      exact h1 (by exact_mod_cast hc)
    rw [if_neg h1q, if_neg h1]

/-- The allowance left to a bucket in `float64` arithmetic, for calls at whole
seconds: from a bucket holding a whole number of tokens, last refilled within
`T` seconds of `t0`, the calls made until `T` seconds after `t0` that are
allowed number at most the tokens of the bucket plus what the rate refills
until then. -/
theorem allowAt_float64_allowedWithin_le (key : String) (hkey : key ≠ "") (t0 : Int) (T : ℚ)
    (R : Nat) (times : List Int) :
    ∀ (l : TokenBucketLimiter) (b : tokenBucket) (k : Int), l.buckets key = some b →
      b.tokens = (k : ℚ) → 0 ≤ k → k ≤ l.capacity → l.rate = (R : ℚ) →
      (l.capacity : ℚ) + (R : ℚ) * T < 2 ^ 53 →
      t0 ≤ b.lastRefill → (1000000000 : Int) ∣ b.lastRefill - t0 →
      (∀ t ∈ times, (1000000000 : Int) ∣ t - t0) →
      (b.lastRefill :: times).Pairwise (fun a c => a ≤ c) →
      Seconds (b.lastRefill - t0) ≤ T →
      (allowedWithin t0 T times (F64.allowAt l key times).1 : ℚ) ≤
        (k : ℚ) + (R : ℚ) * (T - Seconds (b.lastRefill - t0)) := by
  induction times with
  | nil =>
    intro l b k _ _ hk0 _ _ _ _ _ _ _ hin
    have hR0 : (0 : ℚ) ≤ (R : ℚ) := Nat.cast_nonneg R
    have : 0 ≤ (R : ℚ) * (T - Seconds (b.lastRefill - t0)) := mul_nonneg hR0 (by linarith)
    have hkq : (0 : ℚ) ≤ (k : ℚ) := by exact_mod_cast hk0
    simp only [allowedWithin, List.zip_nil_left, List.filter_nil, List.length_nil,
      Nat.cast_zero]
    linarith
  | cons t rest ih =>
    intro l b k hb hk hk0 hkC hR hexact hfrom hdvd hwhole hmono hin
    have hR0 : (0 : ℚ) ≤ (R : ℚ) := Nat.cast_nonneg R
    have hkq : (0 : ℚ) ≤ (k : ℚ) := by exact_mod_cast hk0
    have hrem : 0 ≤ (R : ℚ) * (T - Seconds (b.lastRefill - t0)) :=
      mul_nonneg hR0 (by linarith)
    rw [List.pairwise_cons] at hmono
    have hlt : b.lastRefill ≤ t := hmono.1 t (List.mem_cons_self _ _)
    have hrest : (t :: rest).Pairwise (fun a c => a ≤ c) := hmono.2
    by_cases hwithin : Seconds (t - t0) ≤ T
    · have htd : (1000000000 : Int) ∣ t - t0 := hwhole t (List.mem_cons_self _ _)
      have hdd : (1000000000 : Int) ∣ t - b.lastRefill := by
        have e : t - b.lastRefill = (t - t0) - (b.lastRefill - t0) := by ring
        rw [e]
        exact Dvd.dvd.sub htd hdvd
      obtain ⟨s, hs⟩ := hdd
      have hs2 : t - b.lastRefill = s * 1000000000 := by rw [hs]; ring
      have hs0 : 0 ≤ s := by omega
      have hsq : (s : ℚ) = Seconds (t - b.lastRefill) := by
        rw [Seconds_eq, hs2]
        push_cast
        field_simp
      have hsum : Seconds (t - b.lastRefill) + (T - Seconds (t - t0)) =
          T - Seconds (b.lastRefill - t0) := by
        simp only [Seconds_eq]
        push_cast
        ring
      have hlast0 : 0 ≤ Seconds (b.lastRefill - t0) := by
        rw [Seconds_eq]
        have : (0 : ℚ) ≤ ((b.lastRefill - t0 : Int) : ℚ) := by
          exact_mod_cast sub_nonneg.2 hfrom
        positivity
      have hsT : (s : ℚ) ≤ T := by
        rw [hsq]
        linarith
      have hkCq : (k : ℚ) ≤ (l.capacity : ℚ) := by exact_mod_cast hkC
      have hsR : (s : ℚ) * (R : ℚ) ≤ (R : ℚ) * T := by
        rw [mul_comm]
        exact mul_le_mul_of_nonneg_left hsT hR0
      have hsumlt : k + s * (R : Int) < 2 ^ 53 := by
        have h1 : ((k + s * (R : Int) : Int) : ℚ) < ((2 ^ 53 : Int) : ℚ) := by
          push_cast
          linarith
        exact_mod_cast h1
      have hT0 : 0 ≤ T := by
        have h1 : (0 : ℚ) ≤ (s : ℚ) := by exact_mod_cast hs0
        linarith
      have hClt : l.capacity < 2 ^ 53 := by
        have h0 : (0 : ℚ) ≤ (R : ℚ) * T := mul_nonneg hR0 hT0
        have h1 : ((l.capacity : Int) : ℚ) < ((2 ^ 53 : Int) : ℚ) := by
          push_cast
          linarith
        exact_mod_cast h1
      have hstep := float64_Allow_whole_seconds l t key b k s R hkey hb hk hk0 hkC hR hs2 hs0
        hClt hsumlt
      have hsR0 : 0 ≤ s * (R : Int) := mul_nonneg hs0 (Int.ofNat_nonneg R)
      have hm0 : 0 ≤ min l.capacity (k + s * (R : Int)) :=
        le_min (le_trans hk0 hkC) (by omega)
      have hmC : min l.capacity (k + s * (R : Int)) ≤ l.capacity := min_le_left _ _
      have hmk : min (l.capacity : ℚ) ((k : ℚ) + (s : ℚ) * (R : ℚ)) ≤
          (k : ℚ) + (s : ℚ) * (R : ℚ) := min_le_right _ _
      have hprod : (s : ℚ) * (R : ℚ) + (R : ℚ) * (T - Seconds (t - t0)) =
          (R : ℚ) * (T - Seconds (b.lastRefill - t0)) := by
        rw [← hsum, ← hsq]
        ring
      by_cases hone : 1 ≤ min l.capacity (k + s * (R : Int))
      · rw [if_pos hone] at hstep
        have hnext := ih (l.setBucket key
            ⟨((min l.capacity (k + s * (R : Int)) - 1 : Int) : ℚ), t⟩)
          ⟨((min l.capacity (k + s * (R : Int)) - 1 : Int) : ℚ), t⟩
          (min l.capacity (k + s * (R : Int)) - 1)
          (setBucket_buckets_self _ _ _) rfl (by omega)
          (by show min l.capacity (k + s * (R : Int)) - 1 ≤ l.capacity; omega)
          hR hexact (le_trans hfrom hlt) htd
          (fun x hx => hwhole x (List.mem_cons_of_mem _ hx)) hrest hwithin
        simp only [F64.allowAt, hstep]
        rw [allowedWithin_cons, if_pos ⟨hwithin, rfl⟩]
        dsimp only at hnext
        push_cast at hnext ⊢
        linarith
      · rw [if_neg hone] at hstep
        have hnext := ih (l.setBucket key
            ⟨((min l.capacity (k + s * (R : Int)) : Int) : ℚ), t⟩)
          ⟨((min l.capacity (k + s * (R : Int)) : Int) : ℚ), t⟩
          (min l.capacity (k + s * (R : Int)))
          (setBucket_buckets_self _ _ _) rfl hm0 hmC
          hR hexact (le_trans hfrom hlt) htd
          (fun x hx => hwhole x (List.mem_cons_of_mem _ hx)) hrest hwithin
        simp only [F64.allowAt, hstep]
        rw [allowedWithin_cons, if_neg (fun hc => Bool.false_ne_true hc.2)]
        dsimp only at hnext
        push_cast at hnext ⊢
        linarith
    · have hbeyond : ∀ x ∈ t :: rest, T < Seconds (x - t0) := by
        intro x hx
        have htx : t ≤ x := by
          rcases List.mem_cons.1 hx with hx | hx
          · rw [hx]
          · exact (List.pairwise_cons.1 hrest).1 x hx
        have : Seconds (t - t0) ≤ Seconds (x - t0) := by
          simp only [Seconds_eq]
          have : ((t - t0 : Int) : ℚ) ≤ ((x - t0 : Int) : ℚ) := by
            exact_mod_cast sub_le_sub_right htx t0
          exact div_le_div_of_nonneg_right this (by norm_num)
        exact lt_of_lt_of_le (not_le.1 hwithin) this
      rw [allowedWithin_beyond t0 T (t :: rest) hbeyond]
      push_cast
      linarith

/-- C21, as amended: for a limiter of capacity `C ≥ 1` and a whole rate `R ≥ 0`,
any key without a bucket and any run of `Allow` calls on that key at
non-decreasing instants `t0 :: times`, each a whole number of seconds after the
first (nothing else in between), the calls that return allowed among those made
within a span of `T ≥ 0` seconds of the first call number at most `C + R * T`,
as long as this bound is below `2 ^ 53`: the `float64` arithmetic of `Allow` is
then exact. -/
theorem TokenBucketLimiter.float64_allowed_rate_bound (l : TokenBucketLimiter)
    (key : String) (t0 : Int) (times : List Int) (T : ℚ) (R : Nat)
    (hC : 1 ≤ l.capacity) (hR : l.rate = (R : ℚ)) (hb : l.buckets key = none)
    (hmono : (t0 :: times).Pairwise (fun a c => a ≤ c))
    (hwhole : ∀ t ∈ times, (1000000000 : Int) ∣ t - t0) (hT : 0 ≤ T)
    (hexact : (l.capacity : ℚ) + (R : ℚ) * T < 2 ^ 53) :
    (allowedWithin t0 T (t0 :: times) (F64.allowAt l key (t0 :: times)).1 : ℚ) ≤
      (l.capacity : ℚ) + l.rate * T := by
  have hC1 : (1 : ℚ) ≤ (l.capacity : ℚ) := by exact_mod_cast hC
  have hR0 : (0 : ℚ) ≤ (R : ℚ) := Nat.cast_nonneg R
  have hRT : 0 ≤ (R : ℚ) * T := mul_nonneg hR0 hT
  rw [hR]
  by_cases hkey : key = ""
  · rw [hkey, allowedWithin_denied t0 T _ _ (float64_allowAt_empty_key l (t0 :: times))]
    push_cast
    linarith
  · have hClt : l.capacity < 2 ^ 53 := by
      have h1 : ((l.capacity : Int) : ℚ) < ((2 ^ 53 : Int) : ℚ) := by
        push_cast
        linarith
      exact_mod_cast h1
    have hcap : float64 (l.capacity : ℚ) = (l.capacity : ℚ) :=
      float64_intCast _ (by rw [abs_of_nonneg (by omega)]; exact hClt)
    have hfirst : F64.Allow l t0 key =
        ((true, none), l.setBucket key ⟨((l.capacity - 1 : Int) : ℚ), t0⟩) := by
      rw [float64_Allow_new l t0 key hkey hb, hcap]
      have e : (l.capacity : ℚ) - 1 = ((l.capacity - 1 : Int) : ℚ) := by push_cast; ring
      rw [e, float64_intCast _ (by rw [abs_of_nonneg (by omega)]; omega)]
    have hzero : Seconds (t0 - t0) = 0 := by
      rw [Seconds_eq, sub_self, Int.cast_zero, zero_div]
    have hnext := allowAt_float64_allowedWithin_le key hkey t0 T R times
      (l.setBucket key ⟨((l.capacity - 1 : Int) : ℚ), t0⟩) ⟨((l.capacity - 1 : Int) : ℚ), t0⟩
      (l.capacity - 1) (setBucket_buckets_self _ _ _) rfl (by omega)
      (by show l.capacity - 1 ≤ l.capacity; omega) hR hexact le_rfl
      (by show (1000000000 : Int) ∣ t0 - t0; rw [sub_self]; exact dvd_zero _) hwhole hmono
      (by show Seconds (t0 - t0) ≤ T; rw [hzero]; exact hT)
    dsimp only at hnext
    simp only [F64.allowAt, hfirst]
    rw [allowedWithin_cons, if_pos ⟨by rw [hzero]; exact hT, rfl⟩]
    rw [hzero] at hnext
    push_cast at hnext ⊢
    linarith

theorem TokenBucketLimiter.float64_allowed_rate_bound_witness :
    (1 ≤ (F64.NewTokenBucketLimiter 1 5).capacity ∧
      (F64.NewTokenBucketLimiter 1 5).rate = ((1 : Nat) : ℚ) ∧
      (F64.NewTokenBucketLimiter 1 5).buckets "client" = none ∧
      ((0 : Int) :: [0, 0, 0, 0, 0, 1000000000, 1000000000]).Pairwise (fun a c => a ≤ c) ∧
      (∀ t ∈ [(0 : Int), 0, 0, 0, 0, 1000000000, 1000000000], (1000000000 : Int) ∣ t - 0) ∧
      (0 : ℚ) ≤ 1 ∧
      (((F64.NewTokenBucketLimiter 1 5).capacity : Int) : ℚ) + ((1 : Nat) : ℚ) * 1 < 2 ^ 53) ∧
    allowedWithin 0 1 (0 :: [0, 0, 0, 0, 0, 1000000000, 1000000000])
      (F64.allowAt (F64.NewTokenBucketLimiter 1 5) "client"
        (0 :: [0, 0, 0, 0, 0, 1000000000, 1000000000])).1 = 6 ∧
    (allowedWithin 0 1 (0 :: [0, 0, 0, 0, 0, 1000000000, 1000000000])
      (F64.allowAt (F64.NewTokenBucketLimiter 1 5) "client"
        (0 :: [0, 0, 0, 0, 0, 1000000000, 1000000000])).1 : ℚ) ≤
      (((F64.NewTokenBucketLimiter 1 5).capacity : Int) : ℚ) +
        (F64.NewTokenBucketLimiter 1 5).rate * 1 :=
  ⟨⟨by decide, by decide!, rfl, by decide, by decide, by norm_num, by decide!⟩,
   by decide!,
   TokenBucketLimiter.float64_allowed_rate_bound (F64.NewTokenBucketLimiter 1 5) "client" 0
     [0, 0, 0, 0, 0, 1000000000, 1000000000] 1 1 (by decide) (by decide!) rfl (by decide)
     (by decide) (by norm_num) (by decide!)⟩

/-- A run whose calls are all allowed and all within `T` seconds of `t0` counts
every call. -/
theorem allowedWithin_all (t0 : Int) (T : ℚ) (times : List Int)
    (h : ∀ t ∈ times, Seconds (t - t0) ≤ T) (ds : List Bool)
    (hlen : ds.length = times.length) (hds : ∀ d ∈ ds, d = true) :
    allowedWithin t0 T times ds = times.length := by
  induction times generalizing ds with
  | nil => simp [allowedWithin]
  | cons t rest ih =>
    cases ds with
    | nil => simp at hlen
    | cons d ds =>
      have hd : d = true := hds d (List.mem_cons_self _ _)
      rw [allowedWithin_cons, if_pos ⟨h t (List.mem_cons_self _ _), hd⟩,
        ih (fun x hx => h x (List.mem_cons_of_mem _ hx)) ds
          (by simpa using hlen) (fun x hx => hds x (List.mem_cons_of_mem _ hx))]
      simp only [List.length_cons]
      omega

/-- A call on an existing bucket that the refill brings to the level `L ≥ 1`. -/
theorem float64_Allow_existing_value (l : TokenBucketLimiter) (now : Int) (key : String)
    (b : tokenBucket) (hkey : key ≠ "") (hb : l.buckets key = some b) (C : Int) (r : ℚ)
    (hC : l.capacity = C) (hr : l.rate = r) (L L1 : ℚ)
    (hL : min (float64 (C : ℚ))
      (float64 (b.tokens + float64 (F64.Seconds (now - b.lastRefill) * r))) = L)
    (h1 : 1 ≤ L) (hL1 : float64 (L - 1) = L1) :
    F64.Allow l now key = ((true, none), l.setBucket key ⟨L1, now⟩) := by
  rw [float64_Allow_existing l now key b hkey hb, hC, hr, hL, if_pos h1, hL1]

/-- A call at the instant of the last refill, on a bucket whose level `x ≥ 1`
and `x - 1` are `float64` values: allowed, and `x - 1` is left. -/
theorem float64_Allow_same_instant (l : TokenBucketLimiter) (now : Int) (key : String) (x : ℚ)
    (hkey : key ≠ "") (hb : l.buckets key = some ⟨x, now⟩) (hx : float64 x = x)
    (hx1 : float64 (x - 1) = x - 1) (hcap : x ≤ float64 (l.capacity : ℚ)) (h1 : 1 ≤ x) :
    F64.Allow l now key = ((true, none), l.setBucket key ⟨x - 1, now⟩) := by
  rw [float64_Allow_existing l now key ⟨x, now⟩ hkey hb]
  simp only [sub_self, float64_Seconds_zero, zero_mul, float64_zero, add_zero, hx,
    min_eq_right hcap]
  rw [if_pos h1, hx1]

/-- Draining a bucket at one instant: from the level `n + ε`, with every level
on the way a `float64`, `n` calls are allowed and `ε` is left. -/
theorem float64_allowAt_drain (key : String) (hkey : key ≠ "") (now : Int) (ε : ℚ) (n : Nat) :
    ∀ l : TokenBucketLimiter, l.buckets key = some ⟨(n : ℚ) + ε, now⟩ →
      (∀ i : Nat, i ≤ n → float64 ((i : ℚ) + ε) = (i : ℚ) + ε) →
      (n : ℚ) + ε ≤ float64 (l.capacity : ℚ) → 0 ≤ ε →
      (F64.allowAt l key (List.replicate n now)).1 = List.replicate n true ∧
      (F64.allowAt l key (List.replicate n now)).2.buckets key = some ⟨ε, now⟩ ∧
      (F64.allowAt l key (List.replicate n now)).2.capacity = l.capacity ∧
      (F64.allowAt l key (List.replicate n now)).2.rate = l.rate := by
  induction n with
  | zero =>
    intro l hb _ _ _
    refine ⟨rfl, ?_, rfl, rfl⟩
    simpa [F64.allowAt] using hb
  | succ n ih =>
    intro l hb hrep hcap hε
    have hx1 : (((n + 1 : Nat) : ℚ) + ε) - 1 = (n : ℚ) + ε := by push_cast; ring
    have hn0 : (0 : ℚ) ≤ (n : ℚ) := Nat.cast_nonneg n
    have hstep := float64_Allow_same_instant l now key (((n + 1 : Nat) : ℚ) + ε) hkey hb
      (hrep (n + 1) le_rfl) (by rw [hx1]; exact hrep n (Nat.le_succ n)) hcap
      (by push_cast; linarith)
    rw [hx1] at hstep
    have hnext := ih (l.setBucket key ⟨(n : ℚ) + ε, now⟩) (setBucket_buckets_self _ _ _)
      (fun i hi => hrep i (Nat.le_succ_of_le hi))
      (by
        show (n : ℚ) + ε ≤ float64 (l.capacity : ℚ)
        have : (n : ℚ) + ε ≤ ((n + 1 : Nat) : ℚ) + ε := by push_cast; linarith
        exact le_trans this hcap) hε
    simp only [List.replicate_succ, F64.allowAt, hstep]
    exact ⟨by rw [hnext.1], hnext.2.1, hnext.2.2.1, hnext.2.2.2⟩

/-- The levels `i + 2 ^ (-28)` below `2 ^ 25` are `float64` values. -/
theorem float64_level (i : Nat) (hi : i ≤ 33554431) :
    float64 ((i : ℚ) + 1 / 268435456) = (i : ℚ) + 1 / 268435456 := by
  have e : (i : ℚ) + 1 / 268435456 = (((i : Int) * 268435456 + 1 : Int) : ℚ) / 2 ^ 28 := by
    push_cast
    norm_num
    ring
  rw [e]
  exact float64_dyadic _ 28 (by rw [abs_of_nonneg (by positivity)]; omega) (by norm_num)

theorem float64_allowAt_cons (l : TokenBucketLimiter) (key : String) (now : Int)
    (rest : List Int) :
    (F64.allowAt l key (now :: rest)).1 =
      (F64.Allow l now key).1.1 :: (F64.allowAt (F64.Allow l now key).2 key rest).1 := rfl

/-- A call on an existing bucket that the refill brings to a level of at least
one is allowed. -/
theorem float64_Allow_existing_allowed (l : TokenBucketLimiter) (now : Int) (key : String)
    (b : tokenBucket) (hkey : key ≠ "") (hb : l.buckets key = some b) (C : Int) (r : ℚ)
    (hC : l.capacity = C) (hr : l.rate = r)
    (h1 : 1 ≤ min (float64 (C : ℚ))
      (float64 (b.tokens + float64 (F64.Seconds (now - b.lastRefill) * r)))) :
    (F64.Allow l now key).1.1 = true := by
  rw [float64_Allow_existing l now key b hkey hb, hC, hr, if_pos h1]

/-- The decisions of the draining run: every call is allowed. -/
theorem drainingRun_decisions :
    (F64.allowAt (F64.NewTokenBucketLimiter 1 33554432) "client" drainingRun).1 =
      true :: true :: (List.replicate 33554430 true ++ [true]) := by
  have hkey : ("client" : String) ≠ "" := by decide
  have h1 : F64.Allow (F64.NewTokenBucketLimiter 1 33554432) 0 "client" =
      ((true, none),
        (F64.NewTokenBucketLimiter 1 33554432).setBucket "client" ⟨33554431, 0⟩) := by
    rw [float64_Allow_new _ 0 "client" hkey rfl]
    have hv : float64 (float64 (((F64.NewTokenBucketLimiter 1 33554432).capacity : Int) : ℚ)
        - 1) = 33554431 := by decide!
    rw [hv]
  have h2 := float64_Allow_existing_value
    ((F64.NewTokenBucketLimiter 1 33554432).setBucket "client" ⟨33554431, 0⟩) 2 "client"
    ⟨33554431, 0⟩ hkey (setBucket_buckets_self _ _ _) 33554432 1 rfl (by decide!)
    (33554431 + 1 / 268435456) (((33554430 : Nat) : ℚ) + 1 / 268435456) (by decide!)
    (by norm_num) (by decide!)
  have h3 := float64_allowAt_drain "client" hkey 2 (1 / 268435456) 33554430
    (((F64.NewTokenBucketLimiter 1 33554432).setBucket "client" ⟨33554431, 0⟩).setBucket
      "client" ⟨((33554430 : Nat) : ℚ) + 1 / 268435456, 2⟩)
    (setBucket_buckets_self _ _ _) (fun i hi => float64_level i (by omega)) (by decide!)
    (by norm_num)
  have h4 := float64_Allow_existing_allowed
    (F64.allowAt
      (((F64.NewTokenBucketLimiter 1 33554432).setBucket "client" ⟨33554431, 0⟩).setBucket
        "client" ⟨((33554430 : Nat) : ℚ) + 1 / 268435456, 2⟩) "client"
      (List.replicate 33554430 2)).2 999999999 "client" ⟨1 / 268435456, 2⟩ hkey h3.2.1
    33554432 1 (h3.2.2.1.trans rfl) (h3.2.2.2.trans (by decide!)) (by decide!)
  unfold drainingRun
  rw [float64_allowAt_cons, h1, float64_allowAt_cons]
  dsimp only
  rw [h2]
  dsimp only
  rw [float64_allowAt_append, h3.1, float64_allowAt_cons, h4]
  rfl

theorem drainingRun_length : drainingRun.length = 33554433 := by
  unfold drainingRun
  rw [List.length_cons, List.length_cons, List.length_append, List.length_replicate]
  rfl

theorem drainingRun_within :
    ∀ t ∈ drainingRun, Seconds (t - 0) ≤ 999999999 / 1000000000 := by
  intro t ht
  unfold drainingRun at ht
  simp only [List.mem_cons, List.mem_append, List.mem_replicate, List.mem_singleton,
    List.not_mem_nil, or_false] at ht
  rcases ht with h | h | h | h
  · rw [h, Seconds_eq]; norm_num
  · rw [h, Seconds_eq]; norm_num
  · rw [h.2, Seconds_eq]; norm_num
  · rw [h, Seconds_eq]; norm_num

theorem drainingRun_pairwise : drainingRun.Pairwise (fun a c => a ≤ c) := by
  unfold drainingRun
  rw [List.pairwise_cons, List.pairwise_cons, List.pairwise_append]
  refine ⟨?_, ?_, ?_, ?_, ?_⟩
  · intro a ha
    simp only [List.mem_cons, List.mem_append, List.mem_replicate, List.mem_singleton,
      List.not_mem_nil, or_false] at ha
    rcases ha with h | h | h
    · rw [h]; decide
    · rw [h.2]; decide
    · rw [h]; decide
  · intro a ha
    simp only [List.mem_append, List.mem_replicate, List.mem_singleton] at ha
    rcases ha with h | h
    · rw [h.2]
    · rw [h]; decide
  · rw [List.pairwise_replicate]
    exact Or.inr le_rfl
  · exact List.pairwise_singleton _ _
  · intro a ha b hb
    simp only [List.mem_replicate] at ha
    simp only [List.mem_singleton] at hb
    rw [ha.2, hb]
    decide

theorem drainingRun_count :
    allowedWithin 0 (999999999 / 1000000000) drainingRun
      (F64.allowAt (F64.NewTokenBucketLimiter 1 33554432) "client" drainingRun).1 =
      33554433 := by
  rw [drainingRun_decisions,
    allowedWithin_all 0 (999999999 / 1000000000) drainingRun drainingRun_within _
      (by
        rw [drainingRun_length, List.length_cons, List.length_cons, List.length_append,
          List.length_replicate]
        rfl)
      (by
        intro d hd
        simp only [List.mem_cons, List.mem_append, List.mem_replicate, List.mem_singleton,
          List.not_mem_nil, or_false] at hd
        rcases hd with h | h | h | h
        · exact h
        · exact h
        · exact h.2
        · exact h)]
  exact drainingRun_length

/-- C21 as stated fails in the arithmetic of the code: rounding can credit a
bucket with more than the rate refills. With capacity `2 ^ 25` and rate 1, the
call 2 ns after the first refills `2e-9` tokens onto the level `2 ^ 25 - 1`,
which rounds up to `2 ^ 25 - 1 + 2 ^ (-28)`; after `2 ^ 25` allowed calls the
bucket still holds `2 ^ (-28)`, and the call at 0.999999999 s is allowed too:
`2 ^ 25 + 1` calls allowed within `T = 0.999999999` s, above `C + R * T`. -/
theorem TokenBucketLimiter.float64_exceeds_rate_bound :
    1 ≤ (F64.NewTokenBucketLimiter 1 33554432).capacity ∧
    (F64.NewTokenBucketLimiter 1 33554432).rate = 1 ∧
    (F64.NewTokenBucketLimiter 1 33554432).buckets "client" = none ∧
    drainingRun.Pairwise (fun a c => a ≤ c) ∧
    allowedWithin 0 (999999999 / 1000000000) drainingRun
      (F64.allowAt (F64.NewTokenBucketLimiter 1 33554432) "client" drainingRun).1 =
      33554433 ∧
    ¬ ((allowedWithin 0 (999999999 / 1000000000) drainingRun
      (F64.allowAt (F64.NewTokenBucketLimiter 1 33554432) "client" drainingRun).1 : ℚ) ≤
      (((F64.NewTokenBucketLimiter 1 33554432).capacity : Int) : ℚ) +
        (F64.NewTokenBucketLimiter 1 33554432).rate * (999999999 / 1000000000)) := by
  have hrate : (F64.NewTokenBucketLimiter 1 33554432).rate = 1 := by decide!
  have hc : (((F64.NewTokenBucketLimiter 1 33554432).capacity : Int) : ℚ) = 33554432 := by
    simp [F64.NewTokenBucketLimiter]
  refine ⟨by decide, hrate, rfl, drainingRun_pairwise, drainingRun_count, ?_⟩
  rw [drainingRun_count, hrate, hc]
  norm_num

end Gateway
